/-
  Spec2Proof.lean — a verification development for the `lark` chess move
  generator (Rust).  The Rust sources are shallowly embedded: `u64` bitboards
  become `Nat` with explicit `% 2^64` wherever Rust wrapping matters, Rust
  panics / out-of-bounds array accesses become `Option.none`, and the loops
  become fuel-based structural recursion (each fuel bound is justified by a
  comment at the definition).  Definitions follow `src/board/defs.rs`,
  `src/movegen/defs.rs`, `src/movegen/magics.rs`, `src/movegen/init.rs` and
  `src/movegen.rs`.
-/
import Mathlib

set_option maxRecDepth 8000

namespace Lark

/-- The number of values of a Rust `u64`; bitboards live below this bound. -/
def U64 : Nat := 2 ^ 64

/-- Rust `!x` on a `u64` (bitwise complement inside 64 bits). -/
def compl64 (x : Nat) : Nat := x ^^^ (U64 - 1)

/-- Rust `a.wrapping_sub(b)` on `u64` values (both arguments `< U64`). -/
def wsub64 (a b : Nat) : Nat := (a + (U64 - b)) % U64

/-- Rust `x.rotate_left(n)` on a `u64`. -/
def rotl64 (x n : Nat) : Nat := ((x <<< (n % 64)) ||| (x >>> (64 - n % 64))) % U64

/-- Rust `x.wrapping_mul(y)` on `u64` values. -/
def wmul64 (x y : Nat) : Nat := (x * y) % U64

/- ===== board/defs.rs ===== -/

/-- `Pieces::KING` -/
def Pieces.KING : Nat := 0
/-- `Pieces::QUEEN` -/
def Pieces.QUEEN : Nat := 1
/-- `Pieces::ROOK` -/
def Pieces.ROOK : Nat := 2
/-- `Pieces::BISHOP` -/
def Pieces.BISHOP : Nat := 3
/-- `Pieces::KNIGHT` -/
def Pieces.KNIGHT : Nat := 4
/-- `Pieces::PAWN` -/
def Pieces.PAWN : Nat := 5

/-- `Sides::WHITE` -/
def Sides.WHITE : Nat := 0
/-- `Sides::BLACK` -/
def Sides.BLACK : Nat := 1

/-- `Castling::WK` -/
def Castling.WK : Nat := 1
/-- `Castling::WQ` -/
def Castling.WQ : Nat := 2
/-- `Castling::BK` -/
def Castling.BK : Nat := 4
/-- `Castling::BQ` -/
def Castling.BQ : Nat := 8

/-- `BB_FILES[i]` : the file bitboards (`0x0101…01 << i`). -/
def BB_FILES (i : Nat) : Nat := 0x0101010101010101 <<< i

/-- `BB_RANKS[i]` : the rank bitboards (`0xFF << (i*8)`). -/
def BB_RANKS (i : Nat) : Nat := 0xFF <<< (i * 8)

/-- `BB_SQUARES[i] = 1 << i`, for an index that is structurally `< 64`. -/
def BB_SQUARES (i : Nat) : Nat := 1 <<< i

/-- `BB_SQUARES[i]` with the Rust array bound modelled: indexing with `i ≥ 64`
is an out-of-bounds panic, embedded as `none`. -/
def bbSquaresOpt (i : Nat) : Option Nat := if i < 64 then some (1 <<< i) else none

/-- `Files::A` -/
def Files.A : Nat := 0
/-- `Files::B` -/
def Files.B : Nat := 1
/-- `Files::G` -/
def Files.G : Nat := 6
/-- `Files::H` -/
def Files.H : Nat := 7

/-- `Ranks::R1` -/
def Ranks.R1 : Nat := 0
/-- `Ranks::R2` -/
def Ranks.R2 : Nat := 1
/-- `Ranks::R4` (value 3 in the source). -/
def Ranks.R4 : Nat := 3
/-- `Ranks::R5` (value 4 in the source). -/
def Ranks.R5 : Nat := 4
/-- `Ranks::R7` -/
def Ranks.R7 : Nat := 6
/-- `Ranks::R8` -/
def Ranks.R8 : Nat := 7

/-- A few named squares used by `castling` (`Squares::…`). -/
def Squares.B1 : Nat := 1
def Squares.C1 : Nat := 2
def Squares.D1 : Nat := 3
def Squares.E1 : Nat := 4
def Squares.F1 : Nat := 5
def Squares.G1 : Nat := 6
def Squares.B8 : Nat := 57
def Squares.C8 : Nat := 58
def Squares.D8 : Nat := 59
def Squares.E8 : Nat := 60
def Squares.F8 : Nat := 61
def Squares.G8 : Nat := 62

/- ===== board/boardstate.rs and board.rs ===== -/

/-- `BoardState` (the fields read by move generation; clocks and material are
carried along but never read by the embedded functions). -/
structure BoardState where
  active_side : Nat
  castling : Nat
  en_passant : Option Nat
  half_move_clock : Nat
  full_move_number : Nat
  material : Nat → Nat

/-- `Board`.  The Rust fixed-size arrays `bb_pieces : [[u64;6];2]` and
`bb_side : [u64;2]` are modelled as functions; well-formedness
(`Board.wf`) captures the `u64` bounds the Rust types enforce. -/
structure Board where
  bb_pieces : Nat → Nat → Nat
  bb_side : Nat → Nat
  state : BoardState

/-- The bounds the Rust types guarantee for every `Board` value: all bitboards
are `u64`, the active side is White or Black as in the spec data model, and an
en-passant target is a square index 0–63 as in the spec data model. -/
def Board.wf (b : Board) : Prop :=
  (∀ s p, b.bb_pieces s p < U64) ∧ (∀ s, b.bb_side s < U64) ∧
    b.state.active_side < 2 ∧ (∀ e, b.state.en_passant = some e → e < 64)

/-- `Board::current_side` -/
def Board.current_side (b : Board) : Nat := b.state.active_side

/-- `Board::opponent` -/
def Board.opponent (b : Board) : Nat := b.state.active_side ^^^ 1

/- ===== movegen/defs.rs : the Move encoding ===== -/

/-- `Shift::PIECE` -/
def Shift.PIECE : Nat := 0
/-- `Shift::FROM_SQ` -/
def Shift.FROM_SQ : Nat := 3
/-- `Shift::TO_SQ` -/
def Shift.TO_SQ : Nat := 9
/-- `Shift::CAPTURE` -/
def Shift.CAPTURE : Nat := 15
/-- `Shift::PROMOTION` -/
def Shift.PROMOTION : Nat := 18
/-- `Shift::EN_PASSANT` -/
def Shift.EN_PASSANT : Nat := 21
/-- `Shift::DOUBLE_STEP` -/
def Shift.DOUBLE_STEP : Nat := 22
/-- `Shift::CASTLING` -/
def Shift.CASTLING : Nat := 23

/-- `Move` : one packed data word. -/
structure Move where
  data : Nat
deriving DecidableEq

/-- `Move::new` -/
def Move.new (data : Nat) : Move := ⟨data⟩

/-- `Move::piece` : `(data >> 0) & 0b111`. -/
def Move.piece (m : Move) : Nat := (m.data >>> Shift.PIECE) &&& 0b111

/-- `Move::from` : `(data >> 3) & 0b111111`. -/
def Move.from (m : Move) : Nat := (m.data >>> Shift.FROM_SQ) &&& 0b111111

/-- `Move::to` : `(data >> 9) & 0b111111`. -/
def Move.to (m : Move) : Nat := (m.data >>> Shift.TO_SQ) &&& 0b111111

/-- `Move::captured` : `(data >> 15) & 0b111`. -/
def Move.captured (m : Move) : Nat := (m.data >>> Shift.CAPTURE) &&& 0b111

/-- `Move::promoted` : `(data >> 18) & 0b111`. -/
def Move.promoted (m : Move) : Nat := (m.data >>> Shift.PROMOTION) &&& 0b111

/-- `Move::en_passant` : `(data >> 21) & 0b1`. -/
def Move.en_passant (m : Move) : Nat := (m.data >>> Shift.EN_PASSANT) &&& 0b1

/-- `Move::double_step` : `(data >> 22) & 0b1`. -/
def Move.double_step (m : Move) : Nat := (m.data >>> Shift.DOUBLE_STEP) &&& 0b1

/-- `Move::castling` : `(data >> 23) & 0b1`. -/
def Move.castling (m : Move) : Nat := (m.data >>> Shift.CASTLING) &&& 0b1

/-- Packing all the move fields into the data word at the documented shifts,
exactly the way `add_moves` assembles `move_data` (with the promotion piece
or-ed in at `Shift::PROMOTION` as in its promotion branch). -/
def moveData (piece fromSq toSq captured promoted : Nat)
    (ep ds ca : Bool) : Nat :=
  piece ||| (fromSq <<< Shift.FROM_SQ) ||| (toSq <<< Shift.TO_SQ) |||
    (captured <<< Shift.CAPTURE) ||| (promoted <<< Shift.PROMOTION) |||
    (ep.toNat <<< Shift.EN_PASSANT) ||| (ds.toNat <<< Shift.DOUBLE_STEP) |||
    (ca.toNat <<< Shift.CASTLING)

/-- The packed word written as a plain sum; used to reason about the fields. -/
theorem moveData_eq_sum (piece fromSq toSq captured promoted : Nat)
    (ep ds ca : Bool) (hp : piece < 8) (hf : fromSq < 64) (ht : toSq < 64)
    (hc : captured < 8) (hpr : promoted < 8) :
    moveData piece fromSq toSq captured promoted ep ds ca =
      piece + fromSq * 2 ^ 3 + toSq * 2 ^ 9 + captured * 2 ^ 15 +
        promoted * 2 ^ 18 + ep.toNat * 2 ^ 21 + ds.toNat * 2 ^ 22 +
        ca.toNat * 2 ^ 23 := by
  have hep : ep.toNat < 2 := Bool.toNat_lt ep
  have hds : ds.toNat < 2 := Bool.toNat_lt ds
  have hca : ca.toNat < 2 := Bool.toNat_lt ca
  unfold moveData
  rw [Nat.shiftLeft_eq, Nat.shiftLeft_eq, Nat.shiftLeft_eq, Nat.shiftLeft_eq,
    Nat.shiftLeft_eq, Nat.shiftLeft_eq, Nat.shiftLeft_eq]
  show piece ||| fromSq * 2 ^ 3 ||| toSq * 2 ^ 9 ||| captured * 2 ^ 15 |||
      promoted * 2 ^ 18 ||| ep.toNat * 2 ^ 21 ||| ds.toNat * 2 ^ 22 |||
      ca.toNat * 2 ^ 23 = _
  have step : ∀ (a b i : Nat), a < 2 ^ i → a ||| b * 2 ^ i = a + b * 2 ^ i := by
    intro a b i h
    rw [Nat.lor_comm, mul_comm b (2 ^ i), ← Nat.mul_add_lt_is_or h b,
      mul_comm (2 ^ i) b, Nat.add_comm]
  rw [step piece fromSq 3 (by omega)]
  rw [step _ toSq 9 (by omega)]
  rw [step _ captured 15 (by omega)]
  rw [step _ promoted 18 (by omega)]
  rw [step _ ep.toNat 21 (by omega)]
  rw [step _ ds.toNat 22 (by omega)]
  rw [step _ ca.toNat 23 (by omega)]

/-- `x &&& 0b111 = x % 8`. -/
theorem and7_eq_mod (x : Nat) : x &&& 7 = x % 8 := by
  have h := Nat.and_pow_two_sub_one_eq_mod x 3
  norm_num at h
  exact h

/-- `x &&& 0b111111 = x % 64`. -/
theorem and63_eq_mod (x : Nat) : x &&& 63 = x % 64 := by
  have h := Nat.and_pow_two_sub_one_eq_mod x 6
  norm_num at h
  exact h

/-- Helper: the accessors, written over the sum form. -/
theorem move_fields_of_sum (piece fromSq toSq captured promoted : Nat)
    (ep ds ca : Bool) (hp : piece < 8) (hf : fromSq < 64) (ht : toSq < 64)
    (hc : captured < 8) (hpr : promoted < 8) :
    (Move.new (moveData piece fromSq toSq captured promoted ep ds ca)).piece
        = piece ∧
    (Move.new (moveData piece fromSq toSq captured promoted ep ds ca)).from
        = fromSq ∧
    (Move.new (moveData piece fromSq toSq captured promoted ep ds ca)).to
        = toSq ∧
    (Move.new (moveData piece fromSq toSq captured promoted ep ds ca)).captured
        = captured ∧
    (Move.new (moveData piece fromSq toSq captured promoted ep ds ca)).promoted
        = promoted ∧
    (Move.new (moveData piece fromSq toSq captured promoted ep ds ca)).en_passant
        = ep.toNat ∧
    (Move.new (moveData piece fromSq toSq captured promoted ep ds ca)).double_step
        = ds.toNat ∧
    (Move.new (moveData piece fromSq toSq captured promoted ep ds ca)).castling
        = ca.toNat := by
  have hd : (Move.new (moveData piece fromSq toSq captured promoted ep ds ca)).data
      = piece + fromSq * 2 ^ 3 + toSq * 2 ^ 9 + captured * 2 ^ 15 +
        promoted * 2 ^ 18 + ep.toNat * 2 ^ 21 + ds.toNat * 2 ^ 22 +
        ca.toNat * 2 ^ 23 :=
    moveData_eq_sum piece fromSq toSq captured promoted ep ds ca hp hf ht hc hpr
  have hep : ep.toNat < 2 := Bool.toNat_lt ep
  have hds : ds.toNat < 2 := Bool.toNat_lt ds
  have hca : ca.toNat < 2 := Bool.toNat_lt ca
  refine ⟨?_, ?_, ?_, ?_, ?_, ?_, ?_, ?_⟩
  · show _ >>> 0 &&& 7 = piece
    rw [Nat.shiftRight_eq_div_pow, and7_eq_mod, hd]
    omega
  · show _ >>> 3 &&& 63 = fromSq
    rw [Nat.shiftRight_eq_div_pow, and63_eq_mod, hd]
    omega
  · show _ >>> 9 &&& 63 = toSq
    rw [Nat.shiftRight_eq_div_pow, and63_eq_mod, hd]
    omega
  · show _ >>> 15 &&& 7 = captured
    rw [Nat.shiftRight_eq_div_pow, and7_eq_mod, hd]
    omega
  · show _ >>> 18 &&& 7 = promoted
    rw [Nat.shiftRight_eq_div_pow, and7_eq_mod, hd]
    omega
  · show _ >>> 21 &&& 1 = ep.toNat
    rw [Nat.shiftRight_eq_div_pow, Nat.and_one_is_mod, hd]
    omega
  · show _ >>> 22 &&& 1 = ds.toNat
    rw [Nat.shiftRight_eq_div_pow, Nat.and_one_is_mod, hd]
    omega
  · show _ >>> 23 &&& 1 = ca.toNat
    rw [Nat.shiftRight_eq_div_pow, Nat.and_one_is_mod, hd]
    omega

/- ===== movegen/defs.rs : Compass ===== -/

/-- `Compass::northwest` -/
def Compass.northwest (bb : Nat) : Nat := (bb <<< 7) % U64
/-- `Compass::north` -/
def Compass.north (bb : Nat) : Nat := (bb <<< 8) % U64
/-- `Compass::northeast` -/
def Compass.northeast (bb : Nat) : Nat := (bb <<< 9) % U64
/-- `Compass::west` -/
def Compass.west (bb : Nat) : Nat := bb >>> 1
/-- `Compass::east` -/
def Compass.east (bb : Nat) : Nat := (bb <<< 1) % U64
/-- `Compass::southwest` -/
def Compass.southwest (bb : Nat) : Nat := bb >>> 9
/-- `Compass::south` -/
def Compass.south (bb : Nat) : Nat := bb >>> 8
/-- `Compass::southeast` -/
def Compass.southeast (bb : Nat) : Nat := bb >>> 7
/-- `Compass::north_north_west` -/
def Compass.north_north_west (bb : Nat) : Nat := (bb <<< 15) % U64
/-- `Compass::north_north_east` -/
def Compass.north_north_east (bb : Nat) : Nat := (bb <<< 17) % U64
/-- `Compass::north_west_west` -/
def Compass.north_west_west (bb : Nat) : Nat := (bb <<< 6) % U64
/-- `Compass::north_east_east` -/
def Compass.north_east_east (bb : Nat) : Nat := (bb <<< 10) % U64
/-- `Compass::south_west_west` -/
def Compass.south_west_west (bb : Nat) : Nat := bb >>> 10
/-- `Compass::south_east_east` -/
def Compass.south_east_east (bb : Nat) : Nat := bb >>> 6
/-- `Compass::south_south_west` -/
def Compass.south_south_west (bb : Nat) : Nat := bb >>> 17
/-- `Compass::south_south_east` -/
def Compass.south_south_east (bb : Nat) : Nat := bb >>> 15

/- ===== movegen/init.rs : non-slider attack tables ===== -/

/-- `init_king` : the king attack table entry for a square. -/
def kingTable (sq : Nat) : Nat :=
  let bb_square := BB_SQUARES sq
  Compass.northwest (bb_square &&& compl64 (BB_FILES Files.A) &&&
      compl64 (BB_RANKS Ranks.R8)) |||
    Compass.north (bb_square &&& compl64 (BB_RANKS Ranks.R8)) |||
    Compass.northeast (bb_square &&& compl64 (BB_FILES Files.H) &&&
      compl64 (BB_RANKS Ranks.R8)) |||
    Compass.west (bb_square &&& compl64 (BB_FILES Files.A)) |||
    Compass.east (bb_square &&& compl64 (BB_FILES Files.H)) |||
    Compass.southwest (bb_square &&& compl64 (BB_FILES Files.A) &&&
      compl64 (BB_RANKS Ranks.R1)) |||
    Compass.south (bb_square &&& compl64 (BB_RANKS Ranks.R1)) |||
    Compass.southeast (bb_square &&& compl64 (BB_FILES Files.H) &&&
      compl64 (BB_RANKS Ranks.R1))

/-- `init_knight` : the knight attack table entry for a square. -/
def knightTable (sq : Nat) : Nat :=
  let bb_square := BB_SQUARES sq
  Compass.north_north_west (bb_square &&& compl64 (BB_RANKS Ranks.R8) &&&
      compl64 (BB_RANKS Ranks.R7) &&& compl64 (BB_FILES Files.A)) |||
    Compass.north_north_east (bb_square &&& compl64 (BB_RANKS Ranks.R8) &&&
      compl64 (BB_RANKS Ranks.R7) &&& compl64 (BB_FILES Files.H)) |||
    Compass.north_west_west (bb_square &&& compl64 (BB_FILES Files.A) &&&
      compl64 (BB_FILES Files.B) &&& compl64 (BB_RANKS Ranks.R8)) |||
    Compass.north_east_east (bb_square &&& compl64 (BB_FILES Files.G) &&&
      compl64 (BB_FILES Files.H) &&& compl64 (BB_RANKS Ranks.R8)) |||
    Compass.south_south_west (bb_square &&& compl64 (BB_RANKS Ranks.R1) &&&
      compl64 (BB_RANKS Ranks.R2) &&& compl64 (BB_FILES Files.A)) |||
    Compass.south_south_east (bb_square &&& compl64 (BB_RANKS Ranks.R1) &&&
      compl64 (BB_RANKS Ranks.R2) &&& compl64 (BB_FILES Files.H)) |||
    Compass.south_west_west (bb_square &&& compl64 (BB_FILES Files.A) &&&
      compl64 (BB_FILES Files.B) &&& compl64 (BB_RANKS Ranks.R1)) |||
    Compass.south_east_east (bb_square &&& compl64 (BB_FILES Files.G) &&&
      compl64 (BB_FILES Files.H) &&& compl64 (BB_RANKS Ranks.R1))

/-- `init_pawns` : the pawn capture-target table entry, per side and square.
Sides 0/1 as in the source array `pawns : [[BitBoard; 64]; 2]`. -/
def pawnTable (side sq : Nat) : Nat :=
  match side with
  | 0 => Compass.northwest (BB_SQUARES sq &&& compl64 (BB_FILES Files.A)) |||
      Compass.northeast (BB_SQUARES sq &&& compl64 (BB_FILES Files.H))
  | 1 => Compass.southwest (BB_SQUARES sq &&& compl64 (BB_FILES Files.A)) |||
      Compass.southeast (BB_SQUARES sq &&& compl64 (BB_FILES Files.H))
  | _ + 2 => 0

/- ===== utils/bits.rs ===== -/

/-- `u64::trailing_zeros`, via fuel-64 structural recursion: position of the
lowest set bit among the 64 `u64` bits, and 64 for the zero word. -/
def ctzAux : Nat → Nat → Nat
  | 0, _ => 0
  | fuel + 1, n => if n % 2 = 1 then 0 else 1 + ctzAux fuel (n / 2)

/-- Rust `bitboard.trailing_zeros()` for a `u64` bitboard. -/
def trailing_zeros (n : Nat) : Nat := ctzAux 64 n

/-- The `while bb > 0 { let sq = bits::next(&mut bb); … }` iteration pattern:
the list of set-bit positions, lowest first, with `bits::next` clearing each
bit via `bb ^= 1 << sq`.  Fuel 64 suffices because a `u64` has at most 64 set
bits and each step clears one. -/
def squaresOfAux : Nat → Nat → List Nat
  | 0, _ => []
  | fuel + 1, bb =>
    if bb = 0 then []
    else
      let square := trailing_zeros bb
      square :: squaresOfAux fuel (bb ^^^ (1 <<< square))

/-- All set-bit positions of a bitboard, in the order `bits::next` yields. -/
def bitSquares (bb : Nat) : List Nat := squaresOfAux 64 bb

/- ===== movegen.rs : add_moves and the pawn generator ===== -/

/-- `PROMOTION_PIECES` -/
def PROMOTION_PIECES : List Nat :=
  [Pieces.QUEEN, Pieces.ROOK, Pieces.BISHOP, Pieces.KNIGHT]

/-- The body of the `while bb_to > 0` loop of `add_moves`, for one
destination square. -/
def addMovesAt (board : Board) (piece fromSq toSquare : Nat) : List Move :=
  let capture : Nat := 0
  let en_passant : Bool :=
    match board.state.en_passant with
    | some square => decide (piece = Pieces.PAWN) && decide (square = toSquare)
    | none => false
  let promotion : Bool := false
  let double_step : Bool := false
  let castling : Bool := false
  let move_data := piece ||| (fromSq <<< Shift.FROM_SQ) |||
    (toSquare <<< Shift.TO_SQ) ||| (capture <<< Shift.CAPTURE) |||
    (en_passant.toNat <<< Shift.EN_PASSANT) |||
    (double_step.toNat <<< Shift.DOUBLE_STEP) |||
    (castling.toNat <<< Shift.CASTLING)
  if !promotion then [Move.new move_data]
  else PROMOTION_PIECES.map
    (fun p => Move.new (move_data ||| (p <<< Shift.PROMOTION)))

/-- `add_moves` : one `Move` (or promotion family) per set bit of `to`. -/
def add_moves (board : Board) (piece fromSq toBB : Nat) : List Move :=
  (bitSquares toBB).flatMap (addMovesAt board piece fromSq)

/-- Sequencing of per-square move generation: the loop appends each square's
moves in order, and any panic (modelled `none`) aborts the whole call. -/
def genConcat (f : Nat → Option (List Move)) : List Nat → Option (List Move)
  | [] => some []
  | x :: rest =>
    match f x, genConcat f rest with
    | some ms, some more => some (ms ++ more)
    | _, _ => none

/-- Appending two optional move lists; `none` (a panic) wins, as in the
sequential Rust loop where any panic aborts the whole call. -/
def optAppend : Option (List Move) → Option (List Move) → Option (List Move)
  | some a, some b => some (a ++ b)
  | _, _ => none

/-- `(from as i8 + direction) as usize` for a pawn at `fromSq < 64`:
`+8` for White; for Black the `i8`/`usize` casts wrap `fromSq - 8`
modulo `2^64`. -/
def pawnPushTarget (fromSq : Nat) (north : Bool) : Nat :=
  if north then fromSq + 8 else (fromSq + (U64 - 8)) % U64

/-- The body of the pawn loop of `pawns`, for one pawn square.  `BB_SQUARES`
indexing out of range (pawn pushed off the board, or an en-passant target
`≥ 64`) is the Rust panic, hence `none`. -/
def pawnMovesFrom (board : Board) (player bbOpp bbEmpty bbFourth : Nat)
    (north : Bool) (fromSq : Nat) : Option (List Move) :=
  let toSq := pawnPushTarget fromSq north
  Option.bind (bbSquaresOpt toSq) (fun bb_push =>
    let bb_one_step := bb_push &&& bbEmpty
    let bb_two_step :=
      rotl64 bb_one_step (if north then 72 else 56) &&& bbEmpty &&& bbFourth
    let bb_targets := pawnTable player fromSq
    let bb_captures := bb_targets &&& bbOpp
    match board.state.en_passant with
    | some ep =>
      Option.map
        (fun bbEp => add_moves board Pieces.PAWN fromSq
          ((bb_one_step ||| bb_two_step) |||
            (bb_captures ||| (bb_targets &&& bbEp))))
        (bbSquaresOpt ep)
    | none =>
      some (add_moves board Pieces.PAWN fromSq
        ((bb_one_step ||| bb_two_step) ||| (bb_captures ||| 0))))

/-- `pawns` : all pseudo-legal pawn moves.  The `_ => panic!("Unexpected
side")` arms are the `none` case. -/
def pawnsMoves (board : Board) : Option (List Move) :=
  let player := board.current_side
  let bb_opponent_pieces := board.bb_side board.opponent
  let bb_empty :=
    compl64 (board.bb_side Sides.WHITE ||| board.bb_side Sides.BLACK)
  match player with
  | 0 => genConcat
      (pawnMovesFrom board 0 bb_opponent_pieces bb_empty (BB_RANKS Ranks.R4) true)
      (bitSquares (board.bb_pieces 0 Pieces.PAWN))
  | 1 => genConcat
      (pawnMovesFrom board 1 bb_opponent_pieces bb_empty (BB_RANKS Ranks.R5) false)
      (bitSquares (board.bb_pieces 1 Pieces.PAWN))
  | _ + 2 => none

/- ===== movegen/magics.rs : the Magic descriptor ===== -/

/-- `ROOK_TABLE_SIZE` -/
def ROOK_TABLE_SIZE : Nat := 102400
/-- `BISHOP_TABLE_SIZE` -/
def BISHOP_TABLE_SIZE : Nat := 5248

/-- `Magic` -/
structure Magic where
  mask : Nat
  shift : Nat
  offset : Nat
  number : Nat

/-- `Magic::get_index` :
`((occupancy & mask).wrapping_mul(number) >> shift) + offset`. -/
def Magic.get_index (m : Magic) (occupancy : Nat) : Nat :=
  let blockerboard := occupancy &&& m.mask
  (wmul64 blockerboard m.number >>> m.shift) + m.offset

/- ===== movegen.rs : the generator ===== -/

/-- `MoveGenerator`'s slider state: the two flat attack tables (Rust `Vec`s,
modelled as functions, with every indexing bounds-checked at use sites) and
the per-square magic descriptors.  The non-slider tables are the fixed
functions `kingTable`, `knightTable`, `pawnTable` above. -/
structure MoveGen where
  rook : Nat → Nat
  bishop : Nat → Nat
  rook_magics : Nat → Magic
  bishop_magics : Nat → Magic

/-- `get_non_slider_attacks`; the `_ => panic!` arm is `none`. -/
def get_non_slider_attacks (piece square : Nat) : Option Nat :=
  match piece with
  | 0 => some (kingTable square)
  | 4 => some (knightTable square)
  | _ => none

/-- `get_slider_attacks`; Vec indexing out of bounds and the `_ => panic!`
arm are `none`. -/
def get_slider_attacks (mg : MoveGen) (piece square occupancy : Nat) :
    Option Nat :=
  match piece with
  | 2 =>
    let index := (mg.rook_magics square).get_index occupancy
    if index < ROOK_TABLE_SIZE then some (mg.rook index) else none
  | 3 =>
    let index := (mg.bishop_magics square).get_index occupancy
    if index < BISHOP_TABLE_SIZE then some (mg.bishop index) else none
  | 1 =>
    let r_index := (mg.rook_magics square).get_index occupancy
    let b_index := (mg.bishop_magics square).get_index occupancy
    if r_index < ROOK_TABLE_SIZE then
      if b_index < BISHOP_TABLE_SIZE then
        some (mg.rook r_index ^^^ mg.bishop b_index)
      else none
    else none
  | _ => none

/-- The body of the `while bb_pieces > 0` loop of `piece`, for one origin
square: fetch the attack board and emit moves to non-own squares. -/
def pieceMovesFrom (mg : MoveGen) (board : Board)
    (piece bb_occupied bb_own_pieces fromSq : Nat) : Option (List Move) :=
  let target : Option Nat :=
    match piece with
    | 0 => get_non_slider_attacks 0 fromSq
    | 4 => get_non_slider_attacks 4 fromSq
    | 1 => get_slider_attacks mg 1 fromSq bb_occupied
    | 2 => get_slider_attacks mg 2 fromSq bb_occupied
    | 3 => get_slider_attacks mg 3 fromSq bb_occupied
    | _ => none
  Option.map
    (fun bb_target =>
      add_moves board piece fromSq (bb_target &&& compl64 bb_own_pieces))
    target

/-- `piece` : all pseudo-legal moves of one piece kind for the mover. -/
def pieceMoves (mg : MoveGen) (board : Board) (piece : Nat) :
    Option (List Move) :=
  let player := board.current_side
  let bb_occupied := board.bb_side Sides.WHITE ||| board.bb_side Sides.BLACK
  let bb_own_pieces := board.bb_side player
  genConcat (pieceMovesFrom mg board piece bb_occupied bb_own_pieces)
    (bitSquares (board.bb_pieces player piece))

/-- `square_attacked` : the super-piece attack test; slider table lookups can
fail (`none`) exactly where the Rust `Vec` indexing would panic. -/
def square_attacked (mg : MoveGen) (board : Board) (attacker square : Nat) :
    Option Bool :=
  let bb_occupied := board.bb_side Sides.WHITE ||| board.bb_side Sides.BLACK
  Option.bind (get_non_slider_attacks Pieces.KING square) (fun bb_king =>
    Option.bind (get_slider_attacks mg Pieces.ROOK square bb_occupied)
      (fun bb_rook =>
    Option.bind (get_slider_attacks mg Pieces.BISHOP square bb_occupied)
      (fun bb_bishop =>
    Option.map (fun bb_knight =>
      let bb_pawns := pawnTable (attacker ^^^ 1) square
      let bb_queen := bb_rook ||| bb_bishop
      (decide (bb_king &&& board.bb_pieces attacker Pieces.KING > 0) ||
        decide (bb_rook &&& board.bb_pieces attacker Pieces.ROOK > 0) ||
        decide (bb_bishop &&& board.bb_pieces attacker Pieces.BISHOP > 0) ||
        decide (bb_queen &&& board.bb_pieces attacker Pieces.QUEEN > 0) ||
        decide (bb_knight &&& board.bb_pieces attacker Pieces.KNIGHT > 0) ||
        decide (bb_pawns &&& board.bb_pieces attacker Pieces.PAWN > 0)))
      (get_non_slider_attacks Pieces.KNIGHT square))))

/-- One castling side check of `castling`: given the blocker mask, the two
squares tested with `square_attacked`, and the destination bitboard, emit the
king move if the squares between are free and the tested squares are safe.
Rust `&&` short-circuits, so `square_attacked` only runs when not blocked. -/
def castleSide (mg : MoveGen) (board : Board) (opponent : Nat)
    (bb_occupancy bb_blockers : Nat) (sqA sqB : Nat) (fromSq toBB : Nat) :
    Option (List Move) :=
  let is_blocked := decide ((bb_occupancy &&& bb_blockers) > 0)
  if is_blocked then some []
  else
    Option.bind (square_attacked mg board opponent sqA) (fun a1 =>
      if a1 then some [] else
        Option.map (fun a2 =>
          if a2 then [] else add_moves board Pieces.KING fromSq toBB)
          (square_attacked mg board opponent sqB))

/-- `castling` : the castling move generator. -/
def castlingMoves (mg : MoveGen) (board : Board) : Option (List Move) :=
  let player := board.current_side
  let opponent := board.opponent
  let castle_permissions_white :=
    decide ((board.state.castling &&& (Castling.WK ||| Castling.WQ)) > 0)
  let castle_permissions_black :=
    decide ((board.state.castling &&& (Castling.BK ||| Castling.BQ)) > 0)
  let bb_occupancy := board.bb_side Sides.WHITE ||| board.bb_side Sides.BLACK
  let bb_king := board.bb_pieces player Pieces.KING
  if bb_king = 0 then some []
  else
    let fromSq := trailing_zeros bb_king
    let white : Option (List Move) :=
      if player = Sides.WHITE && castle_permissions_white then
        let ks : Option (List Move) :=
          if board.state.castling &&& Castling.WK > 0 then
            castleSide mg board opponent bb_occupancy
              (BB_SQUARES Squares.F1 ||| BB_SQUARES Squares.G1)
              Squares.F1 Squares.E1 fromSq ((BB_SQUARES fromSq <<< 2) % U64)
          else some []
        let qs : Option (List Move) :=
          if board.state.castling &&& Castling.WQ > 0 then
            castleSide mg board opponent bb_occupancy
              (BB_SQUARES Squares.B1 ||| BB_SQUARES Squares.C1 |||
                BB_SQUARES Squares.D1)
              Squares.E1 Squares.D1 fromSq (BB_SQUARES fromSq >>> 2)
          else some []
        optAppend ks qs
      else some []
    let black : Option (List Move) :=
      if player = Sides.BLACK && castle_permissions_black then
        let ks : Option (List Move) :=
          if board.state.castling &&& Castling.BK > 0 then
            castleSide mg board opponent bb_occupancy
              (BB_SQUARES Squares.F8 ||| BB_SQUARES Squares.G8)
              Squares.F8 Squares.E8 fromSq ((BB_SQUARES fromSq <<< 2) % U64)
          else some []
        let qs : Option (List Move) :=
          if board.state.castling &&& Castling.BQ > 0 then
            castleSide mg board opponent bb_occupancy
              (BB_SQUARES Squares.B8 ||| BB_SQUARES Squares.C8 |||
                BB_SQUARES Squares.D8)
              Squares.E8 Squares.D8 fromSq (BB_SQUARES fromSq >>> 2)
          else some []
        optAppend ks qs
      else some []
    optAppend white black

/-- `generate_moves` : king, knight, queen, rook, bishop, pawn and castling
moves, appended in the source order. -/
def generate_moves (mg : MoveGen) (board : Board) : Option (List Move) :=
  optAppend (optAppend (optAppend (optAppend (optAppend (optAppend
    (pieceMoves mg board Pieces.KING)
    (pieceMoves mg board Pieces.KNIGHT))
    (pieceMoves mg board Pieces.QUEEN))
    (pieceMoves mg board Pieces.ROOK))
    (pieceMoves mg board Pieces.BISHOP))
    (pawnsMoves board))
    (castlingMoves mg board)

/- ===== movegen/magics.rs : rays, masks, blockers ===== -/

/-- The `Direction` enum. -/
inductive Direction where
  | north | east | south | west
  | northWest | northEast | southEast | southWest

/-- The `while !done` loop of `bb_ray`, as fuel recursion on the loop trips.
Each iteration either stops (edge guard fails, or the step hit a blocker) or
moves one rank/file toward the failing guard, so from any board coordinate at
most 7 stepping iterations plus one final guard check happen: fuel 8 is never
exhausted for a start square `< 64`. -/
def bb_rayAux : Nat → Nat → Nat → Nat → Nat → Direction → Nat
  | 0, _, _, _, _, _ => 0
  | fuel + 1, file, rank, bbSquare, bbIn, dir =>
    match dir with
    | .north =>
      if rank ≠ Ranks.R8 then
        let bbSq := (bbSquare <<< 8) % U64
        bbSq ||| (if bbSq &&& bbIn = 0 then
          bb_rayAux fuel file (rank + 1) bbSq bbIn .north else 0)
      else 0
    | .east =>
      if file ≠ Files.H then
        let bbSq := (bbSquare <<< 1) % U64
        bbSq ||| (if bbSq &&& bbIn = 0 then
          bb_rayAux fuel (file + 1) rank bbSq bbIn .east else 0)
      else 0
    | .south =>
      if rank ≠ Ranks.R1 then
        let bbSq := bbSquare >>> 8
        bbSq ||| (if bbSq &&& bbIn = 0 then
          bb_rayAux fuel file (rank - 1) bbSq bbIn .south else 0)
      else 0
    | .west =>
      if file ≠ Files.A then
        let bbSq := bbSquare >>> 1
        bbSq ||| (if bbSq &&& bbIn = 0 then
          bb_rayAux fuel (file - 1) rank bbSq bbIn .west else 0)
      else 0
    | .northWest =>
      if rank ≠ Ranks.R8 ∧ file ≠ Files.A then
        let bbSq := (bbSquare <<< 7) % U64
        bbSq ||| (if bbSq &&& bbIn = 0 then
          bb_rayAux fuel (file - 1) (rank + 1) bbSq bbIn .northWest else 0)
      else 0
    | .northEast =>
      if rank ≠ Ranks.R8 ∧ file ≠ Files.H then
        let bbSq := (bbSquare <<< 9) % U64
        bbSq ||| (if bbSq &&& bbIn = 0 then
          bb_rayAux fuel (file + 1) (rank + 1) bbSq bbIn .northEast else 0)
      else 0
    | .southEast =>
      if rank ≠ Ranks.R1 ∧ file ≠ Files.H then
        let bbSq := bbSquare >>> 7
        bbSq ||| (if bbSq &&& bbIn = 0 then
          bb_rayAux fuel (file + 1) (rank - 1) bbSq bbIn .southEast else 0)
      else 0
    | .southWest =>
      if rank ≠ Ranks.R1 ∧ file ≠ Files.A then
        let bbSq := bbSquare >>> 9
        bbSq ||| (if bbSq &&& bbIn = 0 then
          bb_rayAux fuel (file - 1) (rank - 1) bbSq bbIn .southWest else 0)
      else 0

/-- `bb_ray`, with `Board::square_on_file_rank` giving
`(square % 8, square / 8)`. -/
def bb_ray (bbIn square : Nat) (dir : Direction) : Nat :=
  bb_rayAux 8 (square % 8) (square / 8) (BB_SQUARES square) bbIn dir

/-- `edges_without_piece`, over the `(file, rank)` coordinate. -/
def edges_without_piece (file rank : Nat) : Nat :=
  (BB_FILES Files.A &&& compl64 (BB_FILES file)) |||
    (BB_FILES Files.H &&& compl64 (BB_FILES file)) |||
    (BB_RANKS Ranks.R1 &&& compl64 (BB_RANKS rank)) |||
    (BB_RANKS Ranks.R8 &&& compl64 (BB_RANKS rank))

/-- `rook_mask` -/
def rook_mask (square : Nat) : Nat :=
  let file := square % 8
  let rank := square / 8
  let bb_rook_square := BB_SQUARES square
  let bb_edges := edges_without_piece file rank
  let bb_mask := BB_FILES file ||| BB_RANKS rank
  bb_mask &&& compl64 bb_edges &&& compl64 bb_rook_square

/-- `bishop_mask` -/
def bishop_mask (square : Nat) : Nat :=
  let bb_edges := edges_without_piece (square % 8) (square / 8)
  (bb_ray 0 square .northWest ||| bb_ray 0 square .northEast |||
      bb_ray 0 square .southWest ||| bb_ray 0 square .southEast) &&&
    compl64 bb_edges

/-- `u64::count_ones`, fuel-64 structural recursion over the bits. -/
def popcountAux : Nat → Nat → Nat
  | 0, _ => 0
  | fuel + 1, n => n % 2 + popcountAux fuel (n / 2)

/-- `mask.count_ones()` for a `u64` mask. -/
def count_ones (n : Nat) : Nat := popcountAux 64 n

/-- The carry-rippler loop of `blocker_boards`: push `n`, step
`n = (n - d) & d` (wrapping), stop when `n` returns to 0.  The rippler visits
each subset of `d` exactly once, so `2 ^ count_ones d` fuel is exact. -/
def blockerBoardsAux (d : Nat) : Nat → Nat → List Nat
  | 0, _ => []
  | fuel + 1, n =>
    n :: (let n2 := wsub64 n d &&& d
      if n2 = 0 then [] else blockerBoardsAux d fuel n2)

/-- `blocker_boards` -/
def blocker_boards (mask : Nat) : List Nat :=
  blockerBoardsAux mask (2 ^ count_ones mask) 0

/-- One entry of `rook_attack_boards` : the union of the four straight rays
against a blocker board. -/
def rook_attack_board (square b : Nat) : Nat :=
  bb_ray b square .north ||| bb_ray b square .east |||
    bb_ray b square .south ||| bb_ray b square .west

/-- One entry of `bishop_attack_boards` : the union of the four diagonal rays
against a blocker board. -/
def bishop_attack_board (square b : Nat) : Nat :=
  bb_ray b square .northWest ||| bb_ray b square .northEast |||
    bb_ray b square .southWest ||| bb_ray b square .southEast

/- ===== movegen/init.rs : init_magics_with_precalc ===== -/

/-- `PRECALC_ROOK_MAGIC_NUMBERS` -/
def PRECALC_ROOK_MAGIC_NUMBERS : List Nat := [
  540432557653762064, 432363296033685762, 36046389741912104, 16176947462358433920,
  216191473845534804, 9367489424093348100, 2594076686081601544, 36029896536367232,
  864831868105932800, 70506187329536, 729864752066609808, 4611826824660387840,
  9511743184862979072, 288793506494284944, 4666010693227642884, 9801521647616803841,
  13546533286985732, 1153626292634050816, 9592817289904807936, 4611695914574151939,
  4972115276532286465, 162412161677670422, 9223376434918199304, 162254930953113921,
  18860219306115072, 9007337768485058, 2342733859858153602, 4539887806599172,
  22799494588923920, 11547792471846052872, 9223478706663604776, 11674460540688187521,
  141562264682784, 1625817744865755200, 3900117862030774272, 306385580877432832,
  562984883589124, 1442559272838760458, 9385642502670778880, 1126176965788705,
  5764678993437589544, 4616189893469585408, 2882901917318709312, 2305993651165134881,
  72090579693862936, 4830392848425877528, 36592296744992832, 146376343418961924,
  289075350976080128, 211174954106944, 145204289995904, 7061926412516729088,
  4399254503552, 9296067347670401152, 4036360555987993600, 36169538803941504,
  288552535206139969, 13917479648142360610, 5197752104730562625, 9511690787327967754,
  9583941791261131281, 289637768221950489, 87973891154500, 90146817869676674]

/-- `PRECALC_BISHOP_MAGIC_NUMBERS` -/
def PRECALC_BISHOP_MAGIC_NUMBERS : List Nat := [
  9763706338607138, 5190495499374829568, 1757608938763715080, 5635023166382148,
  1441717098471489568, 216471892494671936, 71485708371456, 1441714970365796416,
  2305913413525602432, 1171081317891375617, 292760922441777154, 9011614524637184,
  6917533443404333188, 2342436989636452364, 9732894142632192, 9223976227102001673,
  4506073566151680, 4508306947212296, 10383049009760833568, 281544300199936,
  2532149008611147937, 5476941217843577856, 281974401011873, 1171498857374290249,
  2307116385683113996, 76710746607719424, 2256202859819520, 2815986751275520,
  4648735170633730, 110340390971785748, 282575093629258, 292804956568815633,
  4612847411946063361, 5260945541455423488, 1153137051845002784, 283676147974272,
  1160805561324011600, 6935966192667853058, 145315856925218816, 74032317458317840,
  1451296112752231426, 1198502117924880, 1164264067767223296, 1179312455686144,
  218429048836064256, 2307004385555138816, 7081912648232600097, 20275068512763968,
  1128134030393480, 71502700556416, 566319364718600, 3206599220787413332,
  2310508615553270400, 2594706738441895940, 2269396328513536, 1226179799735885824,
  633490563538950, 578730428585740288, 54044295744786434, 562952273003016,
  4629702650605209088, 705062972686464, 621501215379308818, 2832350678368384]

/-- The rook magic number for a square. -/
def rookNumber (sq : Nat) : Nat := PRECALC_ROOK_MAGIC_NUMBERS.getD sq 0

/-- The bishop magic number for a square. -/
def bishopNumber (sq : Nat) : Nat := PRECALC_BISHOP_MAGIC_NUMBERS.getD sq 0

/-- The inner `for i in 0..permutations` loop of `init_magics_with_precalc`:
place each write into the table, panicking (`none`) on a non-empty slot or an
index outside `[lo, hi]` (the `fail_low/fail_high` assert). -/
def fillTable : List (Nat × Nat) → Nat → Nat → (Nat → Nat) → Option (Nat → Nat)
  | [], _, _, t => some t
  | w :: rest, lo, hi, t =>
    if t w.1 = 0 then
      if w.1 < lo ∨ hi < w.1 then none
      else fillTable rest lo hi (fun j => if j = w.1 then w.2 else t j)
    else none

/-- The per-square write list of `init_magics_with_precalc`: for each blocker
board of the square's mask, the magic index it is stored at (shift
`64 - bits`, the accumulated offset) paired with its attack board. -/
def squareWrites (maskFn : Nat → Nat) (attackFn : Nat → Nat → Nat)
    (numbers : Nat → Nat) (sq offset : Nat) : List (Nat × Nat) :=
  let mask := maskFn sq
  let magic : Magic := ⟨mask, 64 - count_ones mask, offset, numbers sq⟩
  (blocker_boards mask).map (fun b => (magic.get_index b, attackFn sq b))

/-- The `for sq in RangeOf::SQUARES` loop of `init_magics_with_precalc` for
one piece kind, threading the accumulated table offset; the final
`assert!(offset == expectation)` is the empty-list case. -/
def initTableAux (maskFn : Nat → Nat) (attackFn : Nat → Nat → Nat)
    (numbers : Nat → Nat) (tableSize : Nat) :
    List Nat → Nat → (Nat → Nat) → Option (Nat → Nat)
  | [], offset, t => if offset = tableSize then some t else none
  | sq :: rest, offset, t =>
    let mask := maskFn sq
    let permutations := 2 ^ count_ones mask
    match fillTable (squareWrites maskFn attackFn numbers sq offset) offset
        (offset + permutations - 1) t with
    | none => none
    | some t2 =>
      initTableAux maskFn attackFn numbers tableSize rest
        (offset + permutations) t2

/-- The rook attack table built by `init_magics_with_precalc` (from the
all-`EMPTY` vector), or `none` if construction would panic. -/
def rookTableOpt : Option (Nat → Nat) :=
  initTableAux rook_mask rook_attack_board rookNumber ROOK_TABLE_SIZE
    (List.range 64) 0 (fun _ => 0)

/-- The bishop attack table built by `init_magics_with_precalc`. -/
def bishopTableOpt : Option (Nat → Nat) :=
  initTableAux bishop_mask bishop_attack_board bishopNumber BISHOP_TABLE_SIZE
    (List.range 64) 0 (fun _ => 0)

/-- The accumulated table offset when the loop reaches square `sq` (the sum of
`2 ^ count_ones mask` over earlier squares). -/
def tableOffset (maskFn : Nat → Nat) : Nat → Nat
  | 0 => 0
  | sq + 1 => tableOffset maskFn sq + 2 ^ count_ones (maskFn sq)

/-- The magic descriptor `init_magics_with_precalc` stores for a rook square:
mask, shift `64 - bits`, the accumulated offset, and the precalc number. -/
def rookMagicAt (sq : Nat) : Magic :=
  ⟨rook_mask sq, 64 - count_ones (rook_mask sq), tableOffset rook_mask sq,
    rookNumber sq⟩

/-- The magic descriptor stored for a bishop square. -/
def bishopMagicAt (sq : Nat) : Magic :=
  ⟨bishop_mask sq, 64 - count_ones (bishop_mask sq),
    tableOffset bishop_mask sq, bishopNumber sq⟩

/-- Assembling the `MoveGenerator` from the two table-build results (the
`match` at the end of `MoveGenerator::new()`). -/
def mkMoveGen : Option (Nat → Nat) → Option (Nat → Nat) → Option MoveGen
  | some rt, some bt => some ⟨rt, bt, rookMagicAt, bishopMagicAt⟩
  | _, _ => none

/-- `MoveGenerator::new()` : build both slider tables from the precalculated
magic numbers (a panic during construction is `none`). -/
def MoveGenerator.new : Option MoveGen := mkMoveGen rookTableOpt bishopTableOpt

/- ===== Bit-level utility lemmas ===== -/

theorem and_eq_zero_testBit {a b : Nat} (h : a &&& b = 0) (i : Nat) :
    ¬(a.testBit i = true ∧ b.testBit i = true) := by
  intro ⟨ha, hb⟩
  have : (a &&& b).testBit i = true := by
    rw [Nat.testBit_and, ha, hb]; rfl
  rw [h] at this
  simp at this

/-- Disjoint bitboards add like they or. -/
theorem add_eq_or_of_and_eq_zero :
    ∀ a b : Nat, a &&& b = 0 → a + b = a ||| b := by
  intro a
  induction a using Nat.strong_induction_on with
  | _ a ih =>
    intro b h
    rcases Nat.eq_zero_or_pos a with ha | ha
    · simp [ha]
    have hdiv : a / 2 &&& b / 2 = 0 := by
      rw [← Nat.and_div_two, h]
    have ih2 : a / 2 + b / 2 = a / 2 ||| b / 2 :=
      ih (a / 2) (Nat.div_lt_self ha (by omega)) (b / 2) hdiv
    have hmod : ¬(a % 2 = 1 ∧ b % 2 = 1) := by
      intro hb
      have := Nat.and_mod_two_eq_one.mpr hb
      rw [h] at this
      simp at this
    have hor2 : (a ||| b) / 2 = a / 2 ||| b / 2 := Nat.or_div_two
    have hormod : ((a ||| b) % 2 = 1) ↔ (a % 2 = 1 ∨ b % 2 = 1) :=
      Nat.or_mod_two_eq_one
    have h2a : a % 2 < 2 := Nat.mod_lt _ (by omega)
    have h2b : b % 2 < 2 := Nat.mod_lt _ (by omega)
    have h2o : (a ||| b) % 2 < 2 := Nat.mod_lt _ (by omega)
    omega

/-- A subset (in the bitboard order) is numerically no larger. -/
theorem le_of_and_eq {a b : Nat} (h : a &&& b = a) : a ≤ b := by
  refine Nat.le_of_testBit (fun i hi => ?_)
  have := Nat.testBit_and a b i
  rw [h, hi] at this
  cases hb : b.testBit i
  · rw [hb] at this; simp at this
  · rfl

/-- Subtracting a sub-mask is bitwise difference. -/
theorem sub_eq_xor_of_subset {n d : Nat} (h : n &&& d = n) :
    d - n = d ^^^ n := by
  have hdisj : n &&& (d ^^^ n) = 0 := by
    refine Nat.eq_of_testBit_eq (fun i => ?_)
    rw [Nat.testBit_and, Nat.testBit_xor, Nat.zero_testBit]
    have := Nat.testBit_and n d i
    rw [h] at this
    cases hn : n.testBit i <;> cases hd : d.testBit i <;>
      simp_all
  have hor : n ||| (d ^^^ n) = d := by
    refine Nat.eq_of_testBit_eq (fun i => ?_)
    rw [Nat.testBit_or, Nat.testBit_xor]
    have := Nat.testBit_and n d i
    rw [h] at this
    cases hn : n.testBit i <;> cases hd : d.testBit i <;>
      simp_all
  have := add_eq_or_of_and_eq_zero n (d ^^^ n) hdisj
  omega

/-- Clearing a set bit then re-adding it restores the number. -/
theorem xor_two_pow_add {e p : Nat} (h : e.testBit p = true) :
    (e ^^^ 2 ^ p) + 2 ^ p = e := by
  have hdisj : (e ^^^ 2 ^ p) &&& 2 ^ p = 0 := by
    refine Nat.eq_of_testBit_eq (fun i => ?_)
    rw [Nat.testBit_and, Nat.testBit_xor, Nat.zero_testBit, Nat.testBit_two_pow]
    rcases eq_or_ne p i with rfl | hne
    · simp [h]
    · simp [hne]
  have hor : (e ^^^ 2 ^ p) ||| 2 ^ p = e := by
    refine Nat.eq_of_testBit_eq (fun i => ?_)
    rw [Nat.testBit_or, Nat.testBit_xor, Nat.testBit_two_pow]
    rcases eq_or_ne p i with rfl | hne
    · simp [h]
    · simp [hne]
  have := add_eq_or_of_and_eq_zero (e ^^^ 2 ^ p) (2 ^ p) hdisj
  omega

/-- Specification of `ctzAux` : it finds the lowest set bit. -/
theorem ctzAux_spec : ∀ f n, n ≠ 0 → n < 2 ^ f →
    n.testBit (ctzAux f n) = true ∧ ∀ j < ctzAux f n, n.testBit j = false := by
  intro f
  induction f with
  | zero => intro n h0 hlt; omega
  | succ f ih =>
    intro n h0 hlt
    rw [ctzAux]
    rcases hm : decide (n % 2 = 1) with hh | hh
    · simp only [decide_eq_false_iff_not] at hm
      have hmod : n % 2 = 0 := by omega
      simp only [hmod]
      norm_num
      have hne : n / 2 ≠ 0 := by omega
      have hlt2 : n / 2 < 2 ^ f := by
        rw [Nat.pow_succ] at hlt
        omega
      obtain ⟨h1, h2⟩ := ih (n / 2) hne hlt2
      refine ⟨?_, ?_⟩
      · rw [Nat.add_comm, Nat.testBit_add_one]
        exact h1
      · intro j hj
        match j with
        | 0 => simp [Nat.testBit_zero]; omega
        | j + 1 =>
          rw [Nat.testBit_add_one]
          exact h2 j (by omega)
    · simp only [decide_eq_true_eq] at hm
      simp only [hm]
      norm_num
      simp [Nat.testBit_zero, hm]

/-- Bits of `e - 1` for `e` with lowest set bit `p` : the trailing zeros turn
into ones, bit `p` clears, everything above is unchanged. -/
theorem testBit_pred_spec {e p : Nat} (hp : e.testBit p = true)
    (hlow : ∀ j < p, e.testBit j = false) (j : Nat) :
    (e - 1).testBit j =
      (if j < p then true else if j = p then false else e.testBit j) := by
  have hsub : e - 1 = (e ^^^ 2 ^ p) + (2 ^ p - 1) := by
    have h1 := xor_two_pow_add hp
    have h2 : 1 ≤ 2 ^ p := Nat.one_le_two_pow
    omega
  have hu : ∀ i, (e ^^^ 2 ^ p).testBit i =
      (if i = p then false else e.testBit i) := by
    intro i
    rw [Nat.testBit_xor, Nat.testBit_two_pow]
    rcases eq_or_ne p i with rfl | hne
    · simp [hp]
    · simp [hne, Ne.symm hne]
  have hdisj : (e ^^^ 2 ^ p) &&& (2 ^ p - 1) = 0 := by
    refine Nat.eq_of_testBit_eq (fun i => ?_)
    rw [Nat.testBit_and, Nat.zero_testBit, Nat.testBit_two_pow_sub_one, hu]
    rcases eq_or_ne i p with rfl | hne
    · simp
    · rcases Nat.lt_or_ge i p with hlt | hge
      · simp [hlow i hlt, hne]
      · simp [hne]
        omega
  rw [hsub, add_eq_or_of_and_eq_zero _ _ hdisj, Nat.testBit_or,
    Nat.testBit_two_pow_sub_one, hu]
  rcases eq_or_ne j p with rfl | hne
  · simp
  · rcases Nat.lt_or_ge j p with hlt | hge
    · simp [hlt, hne]
    · have : ¬ j < p := by omega
      simp [this, hne]

/-- Bits of the two's complement `2^64 - e` inside the 64-bit window. -/
theorem testBit_two_pow_sub_spec {e p : Nat} (he : e ≠ 0) (hlt : e < 2 ^ 64)
    (hp : e.testBit p = true) (hlow : ∀ j < p, e.testBit j = false)
    (j : Nat) (hj : j < 64) :
    (2 ^ 64 - e).testBit j =
      (if j < p then false else if j = p then true else !(e.testBit j)) := by
  have h1 : e - 1 < 2 ^ 64 := by omega
  have h2 : (2 ^ 64 - ((e - 1) + 1)).testBit j =
      (decide (j < 64) && !(e - 1).testBit j) :=
    Nat.testBit_two_pow_sub_succ h1 j
  have h3 : e - 1 + 1 = e := by omega
  rw [h3] at h2
  rw [h2, testBit_pred_spec hp hlow, decide_eq_true hj]
  rcases eq_or_ne j p with rfl | hne
  · simp
  · rcases Nat.lt_or_ge j p with hlt2 | hge
    · simp [hlt2, hne]
    · have : ¬ j < p := by omega
      simp [this, hne]

/- ===== Carry-rippler correctness ===== -/

/-- The lowest bit position where `d` is set but its subset `n` is not. -/
def ripplerPivot (d n : Nat) : Nat := ctzAux 64 (d ^^^ n)

/-- Bits of a subset imply bits of the mask. -/
theorem testBit_of_subset {n d : Nat} (h : n &&& d = n) {i : Nat}
    (hi : n.testBit i = true) : d.testBit i = true := by
  have h2 := Nat.testBit_and n d i
  rw [h, hi] at h2
  cases hdi : d.testBit i
  · rw [hdi] at h2; simp at h2
  · rfl

/-- The pivot of a rippler step: the mask holds it, the subset does not, it is
inside the 64-bit window, and below it the subset agrees with the mask. -/
theorem ripplerPivot_spec {d n : Nat} (hd : d < 2 ^ 64) (hsub : n &&& d = n)
    (hne : n ≠ d) :
    d.testBit (ripplerPivot d n) = true ∧
      n.testBit (ripplerPivot d n) = false ∧ ripplerPivot d n < 64 ∧
      (∀ j < ripplerPivot d n, n.testBit j = d.testBit j) := by
  have hn64 : n < 2 ^ 64 := lt_of_le_of_lt (le_of_and_eq hsub) hd
  have he0 : d ^^^ n ≠ 0 := fun h => hne (Nat.xor_eq_zero.mp h).symm
  have he64 : d ^^^ n < 2 ^ 64 := Nat.xor_lt_two_pow hd hn64
  obtain ⟨hp, hplow⟩ := ctzAux_spec 64 (d ^^^ n) he0 he64
  have hpe : ctzAux 64 (d ^^^ n) = ripplerPivot d n := rfl
  rw [hpe] at hp hplow
  have hp64 : ripplerPivot d n < 64 := by
    by_contra hge
    have h1 : 2 ^ ripplerPivot d n ≤ d ^^^ n := Nat.testBit_implies_ge hp
    have h2 : 2 ^ 64 ≤ 2 ^ ripplerPivot d n :=
      Nat.pow_le_pow_right (by omega) (by omega)
    omega
  have hxorp := Nat.testBit_xor d n (ripplerPivot d n)
  rw [hp] at hxorp
  have hdpnp : d.testBit (ripplerPivot d n) = true ∧
      n.testBit (ripplerPivot d n) = false := by
    cases hnp : n.testBit (ripplerPivot d n)
    · cases hdp2 : d.testBit (ripplerPivot d n)
      · rw [hnp, hdp2] at hxorp; simp at hxorp
      · exact ⟨rfl, rfl⟩
    · have hd2 := testBit_of_subset hsub hnp
      rw [hnp, hd2] at hxorp
      simp at hxorp
  refine ⟨hdpnp.1, hdpnp.2, hp64, fun j hj => ?_⟩
  have hej := hplow j hj
  have hxorj := Nat.testBit_xor d n j
  rw [hej] at hxorj
  cases hnj : n.testBit j <;> cases hdj : d.testBit j
  · rfl
  · rw [hnj, hdj] at hxorj; simp at hxorj
  · rw [hnj, hdj] at hxorj; simp at hxorj
  · rfl

/-- Bit-level characterisation of one carry-rippler step
`(n - d) & d` (wrapping) from a strict subset `n` of `d` : the pivot bit turns
on, everything below clears, everything above is kept. -/
theorem ripplerStep_testBit {d n : Nat} (hd : d < 2 ^ 64) (hsub : n &&& d = n)
    (hne : n ≠ d) (j : Nat) :
    (wsub64 n d &&& d).testBit j =
      (if j < ripplerPivot d n then false
       else if j = ripplerPivot d n then true
       else n.testBit j) := by
  obtain ⟨hdp, hnp, hp64, hlowv⟩ := ripplerPivot_spec hd hsub hne
  have hn64 : n < 2 ^ 64 := lt_of_le_of_lt (le_of_and_eq hsub) hd
  have hnlt : n < d := lt_of_le_of_ne (le_of_and_eq hsub) hne
  have he0 : d ^^^ n ≠ 0 := fun h => hne (Nat.xor_eq_zero.mp h).symm
  have he64 : d ^^^ n < 2 ^ 64 := Nat.xor_lt_two_pow hd hn64
  obtain ⟨hp, hplow⟩ := ctzAux_spec 64 (d ^^^ n) he0 he64
  have hpe : ctzAux 64 (d ^^^ n) = ripplerPivot d n := rfl
  rw [hpe] at hp hplow
  have hsube : d - n = d ^^^ n := sub_eq_xor_of_subset hsub
  have hwsub : wsub64 n d = 2 ^ 64 - (d ^^^ n) := by
    show (n + (U64 - d)) % U64 = 2 ^ 64 - (d ^^^ n)
    have hU : U64 = 2 ^ 64 := rfl
    have h1 : n + (U64 - d) = 2 ^ 64 - (d - n) := by
      rw [hU]; omega
    rw [h1, hsube]
    exact Nat.mod_eq_of_lt (by show _ < U64; rw [hU]; omega)
  rw [hwsub, Nat.testBit_and]
  rcases Nat.lt_or_ge j 64 with hj64 | hj64
  · rw [testBit_two_pow_sub_spec he0 he64 hp hplow j hj64]
    rcases Nat.lt_or_ge j (ripplerPivot d n) with hjp | hjp
    · simp [hjp]
    rcases eq_or_ne j (ripplerPivot d n) with rfl | hjne
    · simp [hdp]
    have hjgt : ¬ j < ripplerPivot d n := by omega
    simp only [hjgt, if_false, hjne, if_false]
    have hplj : (d ^^^ n).testBit j = (d.testBit j ^^ n.testBit j) :=
      Nat.testBit_xor d n j
    cases hnj : n.testBit j
    · cases hdj : d.testBit j
      · rw [hplj, hnj, hdj]; rfl
      · rw [hplj, hnj, hdj]; rfl
    · have hdj := testBit_of_subset hsub hnj
      rw [hplj, hnj, hdj]; rfl
  · have hpow : (2 : Nat) ^ 64 ≤ 2 ^ j := Nat.pow_le_pow_right (by omega) hj64
    have hdj : d.testBit j = false :=
      Nat.testBit_lt_two_pow (lt_of_lt_of_le hd hpow)
    have hnj : n.testBit j = false :=
      Nat.testBit_lt_two_pow (lt_of_lt_of_le hn64 hpow)
    have hjp : ¬ j < ripplerPivot d n := by omega
    have hjne : j ≠ ripplerPivot d n := by omega
    simp [hdj, hnj, hjp, hjne]

/-- One rippler step from a strict subset strictly increases. -/
theorem ripplerStep_lt {d n : Nat} (hd : d < 2 ^ 64) (hsub : n &&& d = n)
    (hne : n ≠ d) : n < wsub64 n d &&& d := by
  obtain ⟨hdp, hnp, hp64, hlowv⟩ := ripplerPivot_spec hd hsub hne
  have hchar := ripplerStep_testBit hd hsub hne
  refine Nat.lt_of_testBit (ripplerPivot d n) hnp ?_ (fun j hj => ?_)
  · rw [hchar (ripplerPivot d n)]
    simp
  · rw [hchar j]
    have h1 : ¬ j < ripplerPivot d n := by omega
    have h2 : j ≠ ripplerPivot d n := by omega
    simp [h1, h2]

/-- A rippler step stays inside the mask. -/
theorem ripplerStep_subset (d n : Nat) :
    (wsub64 n d &&& d) &&& d = wsub64 n d &&& d := by
  rw [Nat.and_assoc, Nat.and_self]

/-- No subset of `d` lies strictly between `n` and its rippler successor. -/
theorem ripplerStep_min {d n : Nat} (hd : d < 2 ^ 64) (hsub : n &&& d = n)
    (hne : n ≠ d) {m : Nat} (hm : m &&& d = m) (hnm : n < m) :
    wsub64 n d &&& d ≤ m := by
  by_contra hcon
  push_neg at hcon
  obtain ⟨hdp, hnp, hp64, hlowv⟩ := ripplerPivot_spec hd hsub hne
  have hchar := ripplerStep_testBit hd hsub hne
  -- highest differing bit of m and the successor
  have hx0 : m ^^^ (wsub64 n d &&& d) ≠ 0 := fun h => by
    have := Nat.xor_eq_zero.mp h
    omega
  obtain ⟨q, hq, hqhigh⟩ := Nat.exists_most_significant_bit hx0
  have hagree : ∀ j, q < j → m.testBit j = (wsub64 n d &&& d).testBit j := by
    intro j hj
    have h1 := hqhigh j hj
    have hxorj := Nat.testBit_xor m (wsub64 n d &&& d) j
    rw [h1] at hxorj
    cases hmj : m.testBit j <;> cases hnj : (wsub64 n d &&& d).testBit j
    · rfl
    · rw [hmj, hnj] at hxorj; simp at hxorj
    · rw [hmj, hnj] at hxorj; simp at hxorj
    · rfl
  have hdiff : m.testBit q ≠ (wsub64 n d &&& d).testBit q := by
    have hxorq := Nat.testBit_xor m (wsub64 n d &&& d) q
    rw [hq] at hxorq
    cases hmq : m.testBit q <;> cases hnq : (wsub64 n d &&& d).testBit q
    · rw [hmq, hnq] at hxorq; simp at hxorq
    · simp
    · simp
    · rw [hmq, hnq] at hxorq; simp at hxorq
  have hmq : m.testBit q = false ∧ (wsub64 n d &&& d).testBit q = true := by
    cases hmq2 : m.testBit q <;> cases hnq2 : (wsub64 n d &&& d).testBit q
    · rw [hmq2, hnq2] at hdiff; simp at hdiff
    · exact ⟨rfl, rfl⟩
    · have : wsub64 n d &&& d < m :=
        Nat.lt_of_testBit q hnq2 hmq2 (fun j hj => (hagree j hj).symm)
      omega
    · rw [hmq2, hnq2] at hdiff; simp at hdiff
  have hn'q := hchar q
  rw [hmq.2] at hn'q
  rcases eq_or_ne q (ripplerPivot d n) with hqp | hqp
  · -- q is the pivot : m ≤ n, contradicting n < m
    have hmlen : m ≤ n := by
      refine Nat.le_of_testBit (fun i hi => ?_)
      rcases Nat.lt_or_ge i q with hiq | hiq
      · rw [hqp] at hiq
        rw [hlowv i hiq]
        exact testBit_of_subset hm hi
      rcases eq_or_ne i q with rfl | hine
      · rw [hmq.1] at hi; simp at hi
      · have hgt : q < i := by omega
        have h2 := hagree i hgt
        rw [hi] at h2
        have hn'i := hchar i
        rw [← h2] at hn'i
        have h3 : ¬ i < ripplerPivot d n := by omega
        have h4 : i ≠ ripplerPivot d n := by rw [← hqp]; omega
        simp only [h3, if_false, h4, if_false] at hn'i
        exact hn'i.symm
    omega
  · -- q is above the pivot and n holds it : m < n, contradicting n < m
    have hqgt : ripplerPivot d n < q := by
      by_contra hle
      push_neg at hle
      have hlt : q < ripplerPivot d n := lt_of_le_of_ne hle hqp
      simp only [if_pos hlt] at hn'q
      exact absurd hn'q.symm (by simp)
    have h1 : ¬ q < ripplerPivot d n := by omega
    simp only [h1, if_false, hqp, if_false] at hn'q
    have : m < n := by
      refine Nat.lt_of_testBit q hmq.1 hn'q.symm (fun j hj => ?_)
      have h2 := hagree j hj
      rw [h2, hchar j]
      have h3 : ¬ j < ripplerPivot d n := by omega
      have h4 : j ≠ ripplerPivot d n := by omega
      simp [h3, h4]
    omega

/- ===== Subset enumeration by mask bit positions ===== -/

/-- The positions of the set bits of a `u64` word, lowest first. -/
def maskBitsAux : Nat → Nat → Nat → List Nat
  | 0, _, _ => []
  | f + 1, pos, m =>
    if m = 0 then []
    else (if m % 2 = 1 then [pos] else []) ++ maskBitsAux f (pos + 1) (m / 2)

/-- The set-bit positions of a `u64` word. -/
def maskBits (m : Nat) : List Nat := maskBitsAux 64 0 m

/-- The word with the given bit positions set. -/
def maskOf (bits : List Nat) : Nat := bits.foldr (fun p acc => 2 ^ p ||| acc) 0

/-- All subsets of a set of bit positions, in the carry-rippler order. -/
def subsetsList : List Nat → List Nat
  | [] => [0]
  | p :: rest => (subsetsList rest).flatMap (fun s => [s, s + 2 ^ p])

theorem maskBitsAux_mem : ∀ f pos m q, q ∈ maskBitsAux f pos m ↔
    ∃ i, i < f ∧ q = pos + i ∧ m.testBit i = true := by
  intro f
  induction f with
  | zero => intro pos m q; simp [maskBitsAux]
  | succ f ih =>
    intro pos m q
    rw [maskBitsAux]
    rcases eq_or_ne m 0 with rfl | hm
    · simp
    rw [if_neg hm, List.mem_append, ih]
    constructor
    · rintro (hq | ⟨i, hi, rfl, hbit⟩)
      · by_cases hk : m % 2 = 1
        · rw [if_pos hk] at hq
          simp at hq
          refine ⟨0, by omega, by omega, ?_⟩
          rw [Nat.testBit_zero]
          exact decide_eq_true hk
        · rw [if_neg hk] at hq
          simp at hq
      · refine ⟨i + 1, by omega, by omega, ?_⟩
        rw [Nat.testBit_add_one]
        exact hbit
    · rintro ⟨i, hi, rfl, hbit⟩
      match i with
      | 0 =>
        left
        rw [Nat.testBit_zero] at hbit
        have := of_decide_eq_true hbit
        simp [this]
      | i + 1 =>
        right
        rw [Nat.testBit_add_one] at hbit
        exact ⟨i, by omega, by omega, hbit⟩

theorem maskBitsAux_pairwise : ∀ f pos m,
    List.Pairwise (· < ·) (maskBitsAux f pos m) := by
  intro f
  induction f with
  | zero => intro pos m; simp [maskBitsAux]
  | succ f ih =>
    intro pos m
    rw [maskBitsAux]
    rcases eq_or_ne m 0 with rfl | hm
    · simp
    rw [if_neg hm]
    have hge : ∀ q ∈ maskBitsAux f (pos + 1) (m / 2), pos < q := by
      intro q hq
      obtain ⟨i, _, rfl, _⟩ := (maskBitsAux_mem f (pos + 1) (m / 2) q).mp hq
      omega
    by_cases hk : m % 2 = 1
    · rw [if_pos hk]
      simp only [List.singleton_append, List.pairwise_cons]
      exact ⟨hge, ih (pos + 1) (m / 2)⟩
    · rw [if_neg hk]
      simpa using ih (pos + 1) (m / 2)

theorem popcountAux_zero : ∀ f, popcountAux f 0 = 0 := by
  intro f
  induction f with
  | zero => rfl
  | succ f ih => rw [popcountAux]; simpa using ih

theorem maskBitsAux_length : ∀ f pos m,
    (maskBitsAux f pos m).length = popcountAux f m := by
  intro f
  induction f with
  | zero => intro pos m; simp [maskBitsAux, popcountAux]
  | succ f ih =>
    intro pos m
    rw [maskBitsAux, popcountAux]
    rcases eq_or_ne m 0 with rfl | hm
    · simp [popcountAux_zero]
    rw [if_neg hm, List.length_append, ih]
    by_cases hk : m % 2 = 1
    · simp [hk]
    · have h0 : m % 2 = 0 := by omega
      simp [hk, h0]

theorem maskOf_testBit (bits : List Nat) (v : Nat) :
    (maskOf bits).testBit v = true ↔ v ∈ bits := by
  induction bits with
  | nil => simp [maskOf]
  | cons p rest ih =>
    show ((2 ^ p ||| maskOf rest).testBit v = true) ↔ _
    rw [Nat.testBit_or, Bool.or_eq_true, Nat.testBit_two_pow, ih,
      List.mem_cons]
    constructor
    · rintro (h | h)
      · exact Or.inl (of_decide_eq_true h).symm
      · exact Or.inr h
    · rintro (rfl | h)
      · exact Or.inl (decide_eq_true rfl)
      · exact Or.inr h

theorem maskOf_maskBits {m : Nat} (hm : m < 2 ^ 64) :
    maskOf (maskBits m) = m := by
  refine Nat.eq_of_testBit_eq (fun v => ?_)
  rcases hv : m.testBit v
  · rcases hw : (maskOf (maskBits m)).testBit v
    · rfl
    · exfalso
      have h2 := (maskOf_testBit _ v).mp hw
      obtain ⟨i, _, hvi, hbit⟩ := (maskBitsAux_mem 64 0 m _).mp h2
      rw [Nat.zero_add] at hvi
      rw [← hvi, hv] at hbit
      exact Bool.false_ne_true hbit
  · rw [(maskOf_testBit _ v).mpr ?_]
    have hv64 : v < 64 := by
      by_contra hge
      have hpow : (2 : Nat) ^ 64 ≤ 2 ^ v :=
        Nat.pow_le_pow_right (by omega) (by omega)
      rw [Nat.testBit_lt_two_pow (lt_of_lt_of_le hm hpow)] at hv
      exact Bool.false_ne_true hv
    exact (maskBitsAux_mem 64 0 m v).mpr ⟨v, by omega, by omega, hv⟩

theorem flatMap_pair_length (f g : Nat → Nat) : ∀ l : List Nat,
    (l.flatMap (fun s => [f s, g s])).length = 2 * l.length := by
  intro l
  induction l with
  | nil => rfl
  | cons x l ih =>
    rw [List.flatMap_cons, List.length_append, ih]
    simp
    omega

theorem subsetsList_length : ∀ bits : List Nat,
    (subsetsList bits).length = 2 ^ bits.length := by
  intro bits
  induction bits with
  | nil => simp [subsetsList]
  | cons p rest ih =>
    rw [subsetsList, flatMap_pair_length (fun s => s) (fun s => s + 2 ^ p), ih,
      List.length_cons, Nat.pow_succ]
    omega

/-- Every enumerated subset has bits only at the listed positions. -/
theorem subsetsList_subset (bits : List Nat)
    (hp : List.Pairwise (· < ·) bits) :
    ∀ s ∈ subsetsList bits, s &&& maskOf bits = s := by
  induction bits with
  | nil =>
    intro s hs
    simp [subsetsList] at hs
    simp [hs]
  | cons p rest ih =>
    intro s hs
    rw [subsetsList, List.mem_flatMap] at hs
    obtain ⟨t, ht, hst⟩ := hs
    have hrest := ih (List.Pairwise.sublist (List.sublist_cons_self p rest) hp) t ht
    have hMp : (maskOf rest).testBit p = false := by
      rcases hb : (maskOf rest).testBit p
      · rfl
      · exfalso
        rcases List.pairwise_cons.mp hp with ⟨hpl, _⟩
        have := hpl p ((maskOf_testBit rest p).mp hb)
        omega
    have htp : t.testBit p = false := by
      rcases hb : t.testBit p
      · rfl
      · have h2 := Nat.testBit_and t (maskOf rest) p
        rw [hrest, hb] at h2
        rw [hMp] at h2
        simp at h2
    have hmof : maskOf (p :: rest) = 2 ^ p ||| maskOf rest := rfl
    simp only [List.mem_cons, List.not_mem_nil, or_false] at hst
    have hsubor : t &&& (2 ^ p ||| maskOf rest) = t := by
      refine Nat.eq_of_testBit_eq (fun i => ?_)
      rw [Nat.testBit_and, Nat.testBit_or]
      rcases hti : t.testBit i
      · simp
      · have h2 := Nat.testBit_and t (maskOf rest) i
        rw [hrest, hti] at h2
        rcases hmi : (maskOf rest).testBit i
        · rw [hmi] at h2; simp at h2
        · simp
    rcases hst with rfl | rfl
    · rw [hmof]; exact hsubor
    · rw [hmof]
      have hadd : t + 2 ^ p = t ||| 2 ^ p := by
        refine add_eq_or_of_and_eq_zero t (2 ^ p) ?_
        refine Nat.eq_of_testBit_eq (fun i => ?_)
        rw [Nat.testBit_and, Nat.zero_testBit, Nat.testBit_two_pow]
        rcases eq_or_ne p i with rfl | hne
        · simp [htp]
        · simp [hne]
      rw [hadd, Nat.and_distrib_right, hsubor]
      have h2p : 2 ^ p &&& (2 ^ p ||| maskOf rest) = 2 ^ p := by
        refine Nat.eq_of_testBit_eq (fun i => ?_)
        rw [Nat.testBit_and, Nat.testBit_or, Nat.testBit_two_pow]
        rcases eq_or_ne p i with rfl | hne
        · simp
        · simp [hne]
      rw [h2p]

/-- Every subset of the mask occurs in the enumeration. -/
theorem subsetsList_complete (bits : List Nat)
    (hp : List.Pairwise (· < ·) bits) :
    ∀ b, b &&& maskOf bits = b → b ∈ subsetsList bits := by
  induction bits with
  | nil =>
    intro b hb
    have : maskOf ([] : List Nat) = 0 := rfl
    rw [this, Nat.and_zero] at hb
    simp [subsetsList, ← hb]
  | cons p rest ih =>
    intro b hb
    have hprest := List.Pairwise.sublist (List.sublist_cons_self p rest) hp
    have hMp : (maskOf rest).testBit p = false := by
      rcases hb2 : (maskOf rest).testBit p
      · rfl
      · exfalso
        rcases List.pairwise_cons.mp hp with ⟨hpl, _⟩
        have := hpl p ((maskOf_testBit rest p).mp hb2)
        omega
    have hmof : maskOf (p :: rest) = 2 ^ p ||| maskOf rest := rfl
    rw [hmof] at hb
    set c := b &&& maskOf rest with hcdef
    have hcsub : c &&& maskOf rest = c := by
      rw [hcdef, Nat.and_assoc, Nat.and_self]
    have hcmem := ih hprest c hcsub
    have hsplit : b = (b &&& 2 ^ p) ||| c := by
      rw [hcdef, ← Nat.and_or_distrib_left, hb]
    have hcp : c.testBit p = false := by
      rcases hb2 : c.testBit p
      · rfl
      · have h2 := Nat.testBit_and c (maskOf rest) p
        rw [hcsub, hb2, hMp] at h2
        simp at h2
    rw [subsetsList, List.mem_flatMap]
    refine ⟨c, hcmem, ?_⟩
    rcases hbp : b.testBit p
    · have hzero : b &&& 2 ^ p = 0 := by
        rw [Nat.and_two_pow, hbp]
        simp
      rw [hzero, Nat.zero_or] at hsplit
      simp [hsplit]
    · have hpow : b &&& 2 ^ p = 2 ^ p := by
        rw [Nat.and_two_pow, hbp]
        simp
      rw [hpow] at hsplit
      have hadd : c + 2 ^ p = 2 ^ p ||| c := by
        rw [Nat.add_comm]
        refine (add_eq_or_of_and_eq_zero (2 ^ p) c ?_)
        refine Nat.eq_of_testBit_eq (fun i => ?_)
        rw [Nat.testBit_and, Nat.zero_testBit, Nat.testBit_two_pow]
        rcases eq_or_ne p i with rfl | hne
        · simp [hcp]
        · simp [hne]
      rw [hsplit, ← hadd]
      simp

/-- Interleaving each element with its `+ 2^p` copy keeps a list with clear
`p`-bits duplicate-free. -/
theorem flatMap_pair_nodup (p : Nat) : ∀ l : List Nat, l.Nodup →
    (∀ t ∈ l, t.testBit p = false) →
    (l.flatMap (fun s => [s, s + 2 ^ p])).Nodup := by
  have haddbit : ∀ t : Nat, t.testBit p = false →
      (t + 2 ^ p).testBit p = true := by
    intro t ht
    have hadd : t + 2 ^ p = t ||| 2 ^ p := by
      refine add_eq_or_of_and_eq_zero t (2 ^ p) ?_
      refine Nat.eq_of_testBit_eq (fun i => ?_)
      rw [Nat.testBit_and, Nat.zero_testBit, Nat.testBit_two_pow]
      rcases eq_or_ne p i with rfl | hne
      · simp [ht]
      · simp [hne]
    rw [hadd, Nat.testBit_or, Nat.testBit_two_pow]
    simp
  intro l
  induction l with
  | nil => intro _ _; simp
  | cons s l ihl =>
    intro hnd hbitp
    rw [List.nodup_cons] at hnd
    have hsl := hbitp s (List.mem_cons_self s l)
    have hbitp' : ∀ t ∈ l, t.testBit p = false := fun t ht =>
      hbitp t (List.mem_cons_of_mem s ht)
    simp only [List.flatMap_cons, List.cons_append, List.nil_append]
    rw [List.nodup_cons, List.nodup_cons]
    refine ⟨?_, ?_, ihl hnd.2 hbitp'⟩
    · intro hc
      rcases List.mem_cons.mp hc with hc1 | hc2
      · have h1 := haddbit s hsl
        rw [← hc1, hsl] at h1
        exact Bool.false_ne_true h1
      · rw [List.mem_flatMap] at hc2
        obtain ⟨t, ht, hmem⟩ := hc2
        simp only [List.mem_cons, List.not_mem_nil, or_false] at hmem
        rcases hmem with rfl | heq
        · exact hnd.1 ht
        · have h1 := haddbit t (hbitp' t ht)
          rw [← heq, hsl] at h1
          exact Bool.false_ne_true h1
    · intro hc
      rw [List.mem_flatMap] at hc
      obtain ⟨t, ht, hmem⟩ := hc
      simp only [List.mem_cons, List.not_mem_nil, or_false] at hmem
      rcases hmem with heq | heq
      · have h1 := haddbit s hsl
        rw [heq, hbitp' t ht] at h1
        exact Bool.false_ne_true h1
      · have hst : s = t := by omega
        rw [hst] at hnd
        exact hnd.1 ht

/-- The enumeration never repeats a subset. -/
theorem subsetsList_nodup (bits : List Nat)
    (hp : List.Pairwise (· < ·) bits) : (subsetsList bits).Nodup := by
  induction bits with
  | nil => simp [subsetsList]
  | cons p rest ih =>
    have hprest := List.Pairwise.sublist (List.sublist_cons_self p rest) hp
    have hnd := ih hprest
    have hMp : (maskOf rest).testBit p = false := by
      rcases hb2 : (maskOf rest).testBit p
      · rfl
      · exfalso
        rcases List.pairwise_cons.mp hp with ⟨hpl, _⟩
        have := hpl p ((maskOf_testBit rest p).mp hb2)
        omega
    have hbitp : ∀ s ∈ subsetsList rest, s.testBit p = false := by
      intro s hs
      have hsub := subsetsList_subset rest hprest s hs
      rcases hb2 : s.testBit p
      · rfl
      · have h2 := Nat.testBit_and s (maskOf rest) p
        rw [hsub, hb2, hMp] at h2
        simp at h2
    rw [subsetsList]
    exact flatMap_pair_nodup p (subsetsList rest) hnd hbitp

/- ===== The carry-rippler enumeration is exactly the subsets ===== -/

/-- The rippler of the full mask wraps to 0. -/
theorem ripplerStep_self (d : Nat) (hd : d < 2 ^ 64) :
    wsub64 d d &&& d = 0 := by
  have h1 : wsub64 d d = 0 := by
    show (d + (U64 - d)) % U64 = 0
    have hU : d ≤ U64 := by
      show d ≤ 2 ^ 64
      omega
    have : d + (U64 - d) = U64 := by omega
    rw [this, Nat.mod_self]
  rw [h1, Nat.zero_and]

/-- A non-full subset steps to a non-zero successor. -/
theorem ripplerStep_ne_zero {d n : Nat} (hd : d < 2 ^ 64) (hsub : n &&& d = n)
    (hne : n ≠ d) : wsub64 n d &&& d ≠ 0 := by
  intro h0
  have hchar := ripplerStep_testBit hd hsub hne (ripplerPivot d n)
  rw [h0, Nat.zero_testBit] at hchar
  simp at hchar

theorem blockerBoardsAux_subset (d : Nat) : ∀ fuel n, n &&& d = n →
    ∀ m ∈ blockerBoardsAux d fuel n, m &&& d = m := by
  intro fuel
  induction fuel with
  | zero => intro n _ m hm; simp [blockerBoardsAux] at hm
  | succ fuel ih =>
    intro n hn m hm
    rw [blockerBoardsAux] at hm
    rcases List.mem_cons.mp hm with rfl | hm2
    · exact hn
    · by_cases h0 : wsub64 n d &&& d = 0
      · rw [if_pos h0] at hm2
        simp at hm2
      · rw [if_neg h0] at hm2
        exact ih (wsub64 n d &&& d) (ripplerStep_subset d n) m hm2

theorem blockerBoardsAux_min (d : Nat) (hd : d < 2 ^ 64) : ∀ fuel n,
    n &&& d = n → ∀ m ∈ blockerBoardsAux d fuel n, n ≤ m := by
  intro fuel
  induction fuel with
  | zero => intro n _ m hm; simp [blockerBoardsAux] at hm
  | succ fuel ih =>
    intro n hn m hm
    rw [blockerBoardsAux] at hm
    rcases List.mem_cons.mp hm with rfl | hm2
    · exact Nat.le_refl m
    · by_cases h0 : wsub64 n d &&& d = 0
      · rw [if_pos h0] at hm2
        simp at hm2
      · rw [if_neg h0] at hm2
        have hne : n ≠ d := by
          intro h
          rw [h] at h0
          exact h0 (ripplerStep_self d hd)
        have hlt := ripplerStep_lt hd hn hne
        have := ih (wsub64 n d &&& d) (ripplerStep_subset d n) m hm2
        omega

theorem blockerBoardsAux_pairwise (d : Nat) (hd : d < 2 ^ 64) : ∀ fuel n,
    n &&& d = n → List.Pairwise (· < ·) (blockerBoardsAux d fuel n) := by
  intro fuel
  induction fuel with
  | zero => intro n _; simp [blockerBoardsAux]
  | succ fuel ih =>
    intro n hn
    rw [blockerBoardsAux]
    by_cases h0 : wsub64 n d &&& d = 0
    · rw [if_pos h0]
      simp
    · rw [if_neg h0]
      rw [List.pairwise_cons]
      have hne : n ≠ d := by
        intro h
        rw [h] at h0
        exact h0 (ripplerStep_self d hd)
      have hlt := ripplerStep_lt hd hn hne
      refine ⟨fun m hm => ?_, ih _ (ripplerStep_subset d n)⟩
      have := blockerBoardsAux_min d hd fuel (wsub64 n d &&& d)
        (ripplerStep_subset d n) m hm
      omega

/-- The subsets of `d` that are at least `n`, as a finite set. -/
def Sfin (d n : Nat) : Finset Nat :=
  (Finset.range (d + 1)).filter (fun m => m &&& d = m ∧ n ≤ m)

theorem Sfin_mem {d n m : Nat} : m ∈ Sfin d n ↔ m &&& d = m ∧ n ≤ m := by
  rw [Sfin, Finset.mem_filter, Finset.mem_range]
  constructor
  · rintro ⟨_, h⟩; exact h
  · rintro ⟨h1, h2⟩
    have := le_of_and_eq h1
    exact ⟨by omega, h1, h2⟩

theorem Sfin_card_step {d n : Nat} (hd : d < 2 ^ 64) (hsub : n &&& d = n)
    (hne : n ≠ d) :
    (Sfin d n).card = (Sfin d (wsub64 n d &&& d)).card + 1 := by
  have hlt := ripplerStep_lt hd hsub hne
  have hins : Sfin d n = insert n (Sfin d (wsub64 n d &&& d)) := by
    apply Finset.ext
    intro m
    rw [Finset.mem_insert, Sfin_mem, Sfin_mem]
    constructor
    · rintro ⟨h1, h2⟩
      rcases eq_or_ne m n with rfl | hmn
      · exact Or.inl rfl
      · exact Or.inr ⟨h1, ripplerStep_min hd hsub hne h1 (by omega)⟩
    · rintro (rfl | ⟨h1, h2⟩)
      · exact ⟨hsub, Nat.le_refl _⟩
      · exact ⟨h1, by omega⟩
  rw [hins, Finset.card_insert_of_not_mem]
  intro hmem
  have := (Sfin_mem.mp hmem).2
  omega

theorem blockerBoardsAux_complete (d : Nat) (hd : d < 2 ^ 64) : ∀ fuel n,
    n &&& d = n → (Sfin d n).card ≤ fuel →
    ∀ m, m &&& d = m → n ≤ m → m ∈ blockerBoardsAux d fuel n := by
  intro fuel
  induction fuel with
  | zero =>
    intro n hn hcard m hm hnm
    exfalso
    have : n ∈ Sfin d n := Sfin_mem.mpr ⟨hn, Nat.le_refl n⟩
    have := Finset.card_pos.mpr ⟨n, this⟩
    omega
  | succ fuel ih =>
    intro n hn hcard m hm hnm
    rw [blockerBoardsAux]
    rcases eq_or_ne m n with hmn | hmn
    · rw [hmn]; exact List.mem_cons_self _ _
    have hlt : n < m := by omega
    have hne : n ≠ d := by
      intro h
      have := le_of_and_eq hm
      omega
    have h0 : wsub64 n d &&& d ≠ 0 := ripplerStep_ne_zero hd hn hne
    rw [if_neg h0]
    refine List.mem_cons_of_mem n ?_
    have hstep := Sfin_card_step hd hn hne
    exact ih (wsub64 n d &&& d) (ripplerStep_subset d n) (by omega) m hm
      (ripplerStep_min hd hn hne hm hlt)

theorem Sfin_zero_eq (d : Nat) (hd : d < 2 ^ 64) :
    Sfin d 0 = (subsetsList (maskBits d)).toFinset := by
  have hpw := maskBitsAux_pairwise 64 0 d
  have hmof := maskOf_maskBits hd
  apply Finset.ext
  intro m
  rw [Sfin_mem, List.mem_toFinset]
  constructor
  · rintro ⟨h1, _⟩
    refine subsetsList_complete (maskBits d) hpw m ?_
    rw [hmof]
    exact h1
  · intro h
    have := subsetsList_subset (maskBits d) hpw m h
    rw [hmof] at this
    exact ⟨this, Nat.zero_le m⟩

theorem Sfin_zero_card (d : Nat) (hd : d < 2 ^ 64) :
    (Sfin d 0).card = 2 ^ count_ones d := by
  rw [Sfin_zero_eq d hd]
  have hpw : List.Pairwise (· < ·) (maskBits d) := maskBitsAux_pairwise 64 0 d
  rw [List.toFinset_card_of_nodup (subsetsList_nodup _ hpw)]
  rw [subsetsList_length]
  have hlen : (maskBits d).length = count_ones d := maskBitsAux_length 64 0 d
  rw [hlen]

/-- Every subset of the mask appears in `blocker_boards` (the carry-rippler
enumeration is complete). -/
theorem blocker_boards_complete {mask : Nat} (hm : mask < 2 ^ 64) :
    ∀ b, b &&& mask = b → b ∈ blocker_boards mask := by
  intro b hb
  refine blockerBoardsAux_complete mask hm (2 ^ count_ones mask) 0
    (Nat.zero_and mask) ?_ b hb (Nat.zero_le b)
  rw [Sfin_zero_card mask hm]

/-- The blocker enumeration never repeats. -/
theorem blocker_boards_nodup {mask : Nat} (hm : mask < 2 ^ 64) :
    (blocker_boards mask).Nodup :=
  List.Pairwise.imp Nat.ne_of_lt
    (blockerBoardsAux_pairwise mask hm _ 0 (Nat.zero_and mask))

/-- Every enumerated blocker board is a subset of the mask. -/
theorem blocker_boards_subset (mask : Nat) :
    ∀ b ∈ blocker_boards mask, b &&& mask = b :=
  blockerBoardsAux_subset mask _ 0 (Nat.zero_and mask)

/- ===== The magic hash is a bijection on each square's blocker set ===== -/

/-- Log-depth OR of `g` over all subsets of the listed bit positions (kernel
evaluation stays shallow, unlike a fold over the 4096-element list). -/
def subsetTreeOr (g : Nat → Nat) (bits : List Nat) : Nat → Nat :=
  @List.rec Nat (fun _ => Nat → Nat) (fun acc => g acc)
    (fun p _ ih => fun acc => ih acc ||| ih (acc + 2 ^ p)) bits

theorem subsetTreeOr_nil (g : Nat → Nat) (acc : Nat) :
    subsetTreeOr g [] acc = g acc := rfl

theorem subsetTreeOr_cons (g : Nat → Nat) (p : Nat) (rest : List Nat)
    (acc : Nat) :
    subsetTreeOr g (p :: rest) acc =
      (subsetTreeOr g rest acc ||| subsetTreeOr g rest (acc + 2 ^ p)) := rfl

theorem subsetTreeOr_testBit (g : Nat → Nat) : ∀ (bits : List Nat) (acc v : Nat),
    (subsetTreeOr g bits acc).testBit v = true ↔
      ∃ s ∈ subsetsList bits, (g (acc + s)).testBit v = true := by
  intro bits
  induction bits with
  | nil =>
    intro acc v
    rw [subsetTreeOr_nil]
    simp [subsetsList]
  | cons p rest ih =>
    intro acc v
    rw [subsetTreeOr_cons, Nat.testBit_or, Bool.or_eq_true, ih, ih, subsetsList]
    simp only [List.mem_flatMap]
    constructor
    · rintro (⟨s, hs, hbit⟩ | ⟨s, hs, hbit⟩)
      · exact ⟨s, ⟨s, hs, by simp⟩, hbit⟩
      · refine ⟨s + 2 ^ p, ⟨s, hs, by simp⟩, ?_⟩
        have : acc + (s + 2 ^ p) = acc + 2 ^ p + s := by omega
        rw [this]
        exact hbit
    · rintro ⟨s', ⟨s, hs, hmem⟩, hbit⟩
      simp only [List.mem_cons, List.not_mem_nil, or_false] at hmem
      rcases hmem with h | h
      · rw [h] at hbit
        exact Or.inl ⟨s, hs, hbit⟩
      · rw [h] at hbit
        refine Or.inr ⟨s, hs, ?_⟩
        have he : acc + 2 ^ p + s = acc + (s + 2 ^ p) := by omega
        rw [he]
        exact hbit

/-- The relative magic index of a blocker board (`get_index` without the
offset, with the shift `64 - bits` used by the initialiser). -/
def magicRel (mask num b : Nat) : Nat :=
  wmul64 (b &&& mask) num >>> (64 - count_ones mask)

theorem get_index_magicRel (mask offset num b : Nat) :
    (Magic.mk mask (64 - count_ones mask) offset num).get_index b =
      magicRel mask num b + offset := rfl

theorem popcountAux_le : ∀ f n, popcountAux f n ≤ f := by
  intro f
  induction f with
  | zero => intro n; simp [popcountAux]
  | succ f ih =>
    intro n
    rw [popcountAux]
    have h1 : n % 2 ≤ 1 := by omega
    have := ih (n / 2)
    omega

theorem count_ones_le (n : Nat) : count_ones n ≤ 64 := popcountAux_le 64 n

theorem magicRel_lt (mask num b : Nat) :
    magicRel mask num b < 2 ^ count_ones mask := by
  have hpc := count_ones_le mask
  rw [magicRel]
  generalize hc : count_ones mask = c
  rw [hc] at hpc
  rw [Nat.shiftRight_eq_div_pow]
  have hx : wmul64 (b &&& mask) num < 2 ^ 64 := by
    rw [wmul64]
    have hU : 0 < U64 := by decide
    have := Nat.mod_lt ((b &&& mask) * num) hU
    have hUe : U64 = 2 ^ 64 := rfl
    omega
  have hsplit : 2 ^ (64 - c) * 2 ^ c = 2 ^ 64 := by
    rw [← Nat.pow_add]
    have h64 : 64 - c + c = 64 := by omega
    rw [h64]
  refine Nat.div_lt_of_lt_mul ?_
  rw [hsplit]
  exact hx

/-- The surjectivity bitmap check: or together `2 ^ relative-index` over every
blocker subset of the square's mask and compare with the all-ones word of
width `2 ^ popcount(mask)`. -/
def magicSurjCheck (maskFn : Nat → Nat) (numbers : Nat → Nat) (sq : Nat) :
    Bool :=
  let mask := maskFn sq
  subsetTreeOr (fun b => 2 ^ magicRel mask (numbers sq) b) (maskBits mask) 0 =
    2 ^ (2 ^ count_ones mask) - 1

/-- A passing check gives surjectivity of the relative index onto
`[0, 2^popcount(mask))` over the subsets of the mask. -/
theorem magic_surj_of_check {maskFn numbers : Nat → Nat} {sq : Nat}
    (hchk : magicSurjCheck maskFn numbers sq = true)
    (hmask : maskFn sq < 2 ^ 64) :
    ∀ v < 2 ^ count_ones (maskFn sq),
      ∃ b, b &&& maskFn sq = b ∧ magicRel (maskFn sq) (numbers sq) b = v := by
  intro v hv
  have heq : subsetTreeOr
      (fun b => 2 ^ magicRel (maskFn sq) (numbers sq) b)
      (maskBits (maskFn sq)) 0 = 2 ^ (2 ^ count_ones (maskFn sq)) - 1 :=
    of_decide_eq_true hchk
  have hbit : (2 ^ (2 ^ count_ones (maskFn sq)) - 1).testBit v = true := by
    rw [Nat.testBit_two_pow_sub_one]
    exact decide_eq_true hv
  rw [← heq] at hbit
  obtain ⟨s, hs, hsbit⟩ := (subsetTreeOr_testBit _ _ 0 v).mp hbit
  rw [Nat.zero_add] at hsbit
  rw [Nat.testBit_two_pow] at hsbit
  have hrel := of_decide_eq_true hsbit
  have hpw : List.Pairwise (· < ·) (maskBits (maskFn sq)) :=
    maskBitsAux_pairwise 64 0 (maskFn sq)
  have hsub := subsetsList_subset (maskBits (maskFn sq)) hpw s hs
  rw [maskOf_maskBits hmask] at hsub
  exact ⟨s, hsub, hrel⟩

/-- A passing check gives injectivity of the relative index over the subsets
of the mask (surjectivity onto a set of the same size). -/
theorem magic_inj_of_check {maskFn numbers : Nat → Nat} {sq : Nat}
    (hchk : magicSurjCheck maskFn numbers sq = true)
    (hmask : maskFn sq < 2 ^ 64) :
    ∀ b1 b2, b1 &&& maskFn sq = b1 → b2 &&& maskFn sq = b2 →
      magicRel (maskFn sq) (numbers sq) b1 =
        magicRel (maskFn sq) (numbers sq) b2 → b1 = b2 := by
  intro b1 b2 hb1 hb2 hrel
  have hpw : List.Pairwise (· < ·) (maskBits (maskFn sq)) :=
    maskBitsAux_pairwise 64 0 (maskFn sq)
  set F := (subsetsList (maskBits (maskFn sq))).toFinset with hF
  have hcard : F.card = 2 ^ count_ones (maskFn sq) := by
    rw [hF, List.toFinset_card_of_nodup (subsetsList_nodup _ hpw),
      subsetsList_length]
    have hlen : (maskBits (maskFn sq)).length = count_ones (maskFn sq) :=
      maskBitsAux_length 64 0 (maskFn sq)
    rw [hlen]
  have hmemF : ∀ b, b &&& maskFn sq = b → b ∈ F := by
    intro b hb
    rw [hF, List.mem_toFinset]
    refine subsetsList_complete _ hpw b ?_
    rw [maskOf_maskBits hmask]
    exact hb
  have himg : F.image (magicRel (maskFn sq) (numbers sq)) =
      Finset.range (2 ^ count_ones (maskFn sq)) := by
    apply Finset.ext
    intro v
    rw [Finset.mem_image, Finset.mem_range]
    constructor
    · rintro ⟨b, _, rfl⟩
      exact magicRel_lt _ _ _
    · intro hv
      obtain ⟨b, hbsub, hbrel⟩ := magic_surj_of_check hchk hmask v hv
      exact ⟨b, hmemF b hbsub, hbrel⟩
  have hinj : Set.InjOn (magicRel (maskFn sq) (numbers sq)) F := by
    apply Finset.injOn_of_card_image_eq
    rw [himg, Finset.card_range, hcard]
  exact hinj (hmemF b1 hb1) (hmemF b2 hb2) hrel

/-- With a passing check, the indices of a square's write list are distinct. -/
theorem squareWrites_nodup {maskFn numbers : Nat → Nat}
    (attackFn : Nat → Nat → Nat) {sq : Nat} (offset : Nat)
    (hchk : magicSurjCheck maskFn numbers sq = true)
    (hmask : maskFn sq < 2 ^ 64) :
    ((squareWrites maskFn attackFn numbers sq offset).map Prod.fst).Nodup := by
  have hlist : (squareWrites maskFn attackFn numbers sq offset).map Prod.fst =
      (blocker_boards (maskFn sq)).map
        (fun b => magicRel (maskFn sq) (numbers sq) b + offset) := by
    rw [squareWrites, List.map_map]
    rfl
  rw [hlist]
  refine List.Nodup.map_on ?_ (blocker_boards_nodup hmask)
  intro b1 h1 b2 h2 heq
  have hs1 := blocker_boards_subset (maskFn sq) b1 h1
  have hs2 := blocker_boards_subset (maskFn sq) b2 h2
  exact magic_inj_of_check hchk hmask b1 b2 hs1 hs2 (by omega)

/- ===== Filling the tables succeeds and stores every attack board ===== -/

/-- `fillTable` on distinct, in-range indices over empty slots succeeds,
stores each write, and leaves every other slot unchanged. -/
theorem fillTable_spec : ∀ (writes : List (Nat × Nat)) (lo hi : Nat)
    (t : Nat → Nat),
    (writes.map Prod.fst).Nodup →
    (∀ w ∈ writes, lo ≤ w.1 ∧ w.1 ≤ hi) →
    (∀ w ∈ writes, t w.1 = 0) →
    ∃ t2, fillTable writes lo hi t = some t2 ∧
      (∀ w ∈ writes, t2 w.1 = w.2) ∧
      (∀ j, (∀ w ∈ writes, j ≠ w.1) → t2 j = t j) := by
  intro writes
  induction writes with
  | nil =>
    intro lo hi t _ _ _
    exact ⟨t, rfl, by simp, fun j _ => rfl⟩
  | cons w rest ih =>
    intro lo hi t hnd hbnd hz
    have hzw : t w.1 = 0 := hz w (List.mem_cons_self w rest)
    have hbw := hbnd w (List.mem_cons_self w rest)
    rw [List.map_cons, List.nodup_cons] at hnd
    simp only [fillTable]
    rw [if_pos hzw, if_neg (by omega : ¬(w.1 < lo ∨ hi < w.1))]
    have hz2 : ∀ w2 ∈ rest, (fun j => if j = w.1 then w.2 else t j) w2.1 = 0 := by
      intro w2 hw2
      have hne : w2.1 ≠ w.1 := by
        intro he
        exact hnd.1 (he ▸ List.mem_map.mpr ⟨w2, hw2, rfl⟩)
      show (if w2.1 = w.1 then w.2 else t w2.1) = 0
      rw [if_neg hne]
      exact hz w2 (List.mem_cons_of_mem w hw2)
    obtain ⟨t2, heq, hlook, hframe⟩ := ih lo hi
      (fun j => if j = w.1 then w.2 else t j) hnd.2
      (fun w2 h => hbnd w2 (List.mem_cons_of_mem w h)) hz2
    refine ⟨t2, heq, ?_, ?_⟩
    · intro w2 hw2
      rcases List.mem_cons.mp hw2 with he | h
      · have hnotin : ∀ w3 ∈ rest, w.1 ≠ w3.1 := by
          intro w3 hw3 he3
          exact hnd.1 (he3 ▸ List.mem_map.mpr ⟨w3, hw3, rfl⟩)
        rw [he]
        rw [hframe w.1 hnotin]
        show (if w.1 = w.1 then w.2 else t w.1) = w.2
        rw [if_pos rfl]
      · exact hlook w2 h
    · intro j hj
      rw [hframe j (fun w2 h => hj w2 (List.mem_cons_of_mem w h))]
      show (if j = w.1 then w.2 else t j) = t j
      rw [if_neg (hj w (List.mem_cons_self w rest))]

/-- The accumulated offset is monotone in the square index. -/
theorem tableOffset_mono (maskFn : Nat → Nat) {a b : Nat} (h : a ≤ b) :
    tableOffset maskFn a ≤ tableOffset maskFn b := by
  obtain ⟨k, rfl⟩ := Nat.le.dest h
  clear h
  induction k with
  | zero => exact Nat.le_refl _
  | succ k ih =>
    have he : a + (k + 1) = (a + k) + 1 := by omega
    rw [he]
    have hstep : tableOffset maskFn (a + k) ≤ tableOffset maskFn ((a + k) + 1) := by
      simp only [tableOffset]
      exact Nat.le_add_right _ _
    exact Nat.le_trans ih hstep

/-- Unfolding `initTableAux` on a non-empty square list. -/
theorem initTableAux_cons (maskFn : Nat → Nat) (attackFn : Nat → Nat → Nat)
    (numbers : Nat → Nat) (tableSize sq : Nat) (rest : List Nat)
    (offset : Nat) (t : Nat → Nat) :
    initTableAux maskFn attackFn numbers tableSize (sq :: rest) offset t =
      Option.elim
        (fillTable (squareWrites maskFn attackFn numbers sq offset) offset
          (offset + 2 ^ count_ones (maskFn sq) - 1) t)
        none
        (fun t2 => initTableAux maskFn attackFn numbers tableSize rest
          (offset + 2 ^ count_ones (maskFn sq)) t2) := by
  simp only [initTableAux]
  cases fillTable (squareWrites maskFn attackFn numbers sq offset) offset
      (offset + 2 ^ count_ones (maskFn sq) - 1) t with
  | none => rfl
  | some t2 => rfl

/-- The index of every write of a square lies in the square's slot range. -/
theorem squareWrites_bounds {maskFn numbers : Nat → Nat}
    (attackFn : Nat → Nat → Nat) (sq offset : Nat) :
    ∀ w ∈ squareWrites maskFn attackFn numbers sq offset,
      offset ≤ w.1 ∧ w.1 ≤ offset + 2 ^ count_ones (maskFn sq) - 1 := by
  intro w hw
  simp only [squareWrites] at hw
  obtain ⟨b, hbmem, heqw⟩ := List.mem_map.mp hw
  have h1 : w.1 = magicRel (maskFn sq) (numbers sq) b + offset := by
    rw [← heqw]
    exact get_index_magicRel (maskFn sq) offset (numbers sq) b
  have h2 := magicRel_lt (maskFn sq) (numbers sq) b
  have h3 := Nat.two_pow_pos (count_ones (maskFn sq))
  omega

/-- The per-square loop of the initialiser, run from square `a` to the end
with the accumulated offset, succeeds and ends with a table answering every
blocker subset of every remaining square. -/
theorem initTableAux_spec (maskFn : Nat → Nat) (attackFn : Nat → Nat → Nat)
    (numbers : Nat → Nat)
    (hchk : ∀ sq, sq < 64 → magicSurjCheck maskFn numbers sq = true)
    (hmask : ∀ sq, sq < 64 → maskFn sq < 2 ^ 64) :
    ∀ (n a : Nat), a + n = 64 →
    ∀ t : Nat → Nat, (∀ j, tableOffset maskFn a ≤ j → t j = 0) →
    ∃ t2, initTableAux maskFn attackFn numbers (tableOffset maskFn 64)
        (List.range' a n) (tableOffset maskFn a) t = some t2 ∧
      (∀ j, j < tableOffset maskFn a → t2 j = t j) ∧
      (∀ sq, a ≤ sq → sq < 64 → ∀ b, b &&& maskFn sq = b →
        t2 (magicRel (maskFn sq) (numbers sq) b + tableOffset maskFn sq) =
          attackFn sq b) := by
  intro n
  induction n with
  | zero =>
    intro a ha t hz
    have ha64 : a = 64 := by omega
    subst ha64
    refine ⟨t, ?_, fun j _ => rfl, fun sq h1 h2 => absurd h2 (by omega)⟩
    simp [List.range', initTableAux]
  | succ n ih =>
    intro a ha t hz
    have ha64 : a < 64 := by omega
    rw [List.range'_succ, initTableAux_cons]
    obtain ⟨t2, hfil, hlook2, hframe2⟩ := fillTable_spec
      (squareWrites maskFn attackFn numbers a (tableOffset maskFn a))
      (tableOffset maskFn a)
      (tableOffset maskFn a + 2 ^ count_ones (maskFn a) - 1) t
      (squareWrites_nodup attackFn (tableOffset maskFn a)
        (hchk a ha64) (hmask a ha64))
      (squareWrites_bounds attackFn a (tableOffset maskFn a))
      (fun w hw => hz w.1 (squareWrites_bounds attackFn a _ w hw).1)
    rw [hfil]
    simp only [Option.elim]
    have hoff : tableOffset maskFn a + 2 ^ count_ones (maskFn a) =
        tableOffset maskFn (a + 1) := rfl
    have hz2 : ∀ j, tableOffset maskFn (a + 1) ≤ j → t2 j = 0 := by
      intro j hj
      rw [← hoff] at hj
      have hpos := Nat.two_pow_pos (count_ones (maskFn a))
      have hne : ∀ w ∈ squareWrites maskFn attackFn numbers a
          (tableOffset maskFn a), j ≠ w.1 := by
        intro w hw
        have := (squareWrites_bounds attackFn a (tableOffset maskFn a) w hw).2
        omega
      rw [hframe2 j hne]
      exact hz j (by omega)
    rw [hoff]
    obtain ⟨t3, heq3, hframe3, hlook3⟩ := ih (a + 1) (by omega) t2 hz2
    refine ⟨t3, heq3, ?_, ?_⟩
    · intro j hj
      have hja : j < tableOffset maskFn (a + 1) :=
        Nat.lt_of_lt_of_le hj (tableOffset_mono maskFn (Nat.le_succ a))
      rw [hframe3 j hja]
      have hne : ∀ w ∈ squareWrites maskFn attackFn numbers a
          (tableOffset maskFn a), j ≠ w.1 := by
        intro w hw
        have := (squareWrites_bounds attackFn a (tableOffset maskFn a) w hw).1
        omega
      exact hframe2 j hne
    · intro sq hsq1 hsq2 b hb
      rcases Nat.eq_or_lt_of_le hsq1 with he | hlt
      · rw [← he] at hb hsq2 ⊢
        have hidx : magicRel (maskFn a) (numbers a) b + tableOffset maskFn a
            < tableOffset maskFn (a + 1) := by
          have h2 := magicRel_lt (maskFn a) (numbers a) b
          rw [← hoff]
          omega
        rw [hframe3 _ hidx]
        have hwmem : ((Magic.mk (maskFn a) (64 - count_ones (maskFn a))
              (tableOffset maskFn a) (numbers a)).get_index b,
              attackFn a b) ∈
            squareWrites maskFn attackFn numbers a (tableOffset maskFn a) := by
          simp only [squareWrites]
          exact List.mem_map.mpr ⟨b, blocker_boards_complete (hmask a ha64) b hb,
            rfl⟩
        have hl := hlook2 _ hwmem
        rw [get_index_magicRel] at hl
        exact hl
      · exact hlook3 sq hlt hsq2 b hb


/- ===== The precalculated magic numbers pass the check on every square ===== -/

set_option maxHeartbeats 0 in
theorem rook_checks_dec :
    ((List.range 64).all (fun sq => magicSurjCheck rook_mask rookNumber sq)) =
      true := by decide

set_option maxHeartbeats 0 in
theorem bishop_checks_dec :
    ((List.range 64).all
      (fun sq => magicSurjCheck bishop_mask bishopNumber sq)) = true := by
  decide

theorem rook_checks_all :
    ∀ sq, sq < 64 → magicSurjCheck rook_mask rookNumber sq = true := by
  intro sq h
  have := List.all_eq_true.mp rook_checks_dec sq (List.mem_range.mpr h)
  simpa using this

theorem bishop_checks_all :
    ∀ sq, sq < 64 → magicSurjCheck bishop_mask bishopNumber sq = true := by
  intro sq h
  have := List.all_eq_true.mp bishop_checks_dec sq (List.mem_range.mpr h)
  simpa using this

set_option maxHeartbeats 1000000 in
theorem rook_mask_lt_dec :
    ((List.range 64).all (fun sq => decide (rook_mask sq < 2 ^ 64))) = true := by
  decide

set_option maxHeartbeats 1000000 in
theorem bishop_mask_lt_dec :
    ((List.range 64).all (fun sq => decide (bishop_mask sq < 2 ^ 64))) =
      true := by decide

theorem rook_mask_lt : ∀ sq, sq < 64 → rook_mask sq < 2 ^ 64 := by
  intro sq h
  have := List.all_eq_true.mp rook_mask_lt_dec sq (List.mem_range.mpr h)
  simpa using this

theorem bishop_mask_lt : ∀ sq, sq < 64 → bishop_mask sq < 2 ^ 64 := by
  intro sq h
  have := List.all_eq_true.mp bishop_mask_lt_dec sq (List.mem_range.mpr h)
  simpa using this

set_option maxHeartbeats 1000000 in
theorem rook_tableOffset_64 : tableOffset rook_mask 64 = ROOK_TABLE_SIZE := by
  decide

set_option maxHeartbeats 1000000 in
theorem bishop_tableOffset_64 :
    tableOffset bishop_mask 64 = BISHOP_TABLE_SIZE := by decide

/- ===== The built tables answer every blocker subset with the ray cast ===== -/

/-- The rook table builds successfully, and at the magic index of any blocker
subset of a square's mask it stores that square's ray-cast rook attacks. -/
theorem rookTable_spec :
    ∃ rt, rookTableOpt = some rt ∧
      ∀ sq, sq < 64 → ∀ b, b &&& rook_mask sq = b →
        rt (magicRel (rook_mask sq) (rookNumber sq) b +
            tableOffset rook_mask sq) = rook_attack_board sq b := by
  obtain ⟨t2, heq, _, hlook⟩ := initTableAux_spec rook_mask rook_attack_board
    rookNumber rook_checks_all rook_mask_lt 64 0 rfl (fun _ => 0)
    (fun j _ => rfl)
  refine ⟨t2, ?_, fun sq h1 b hb => hlook sq (Nat.zero_le _) h1 b hb⟩
  rw [rook_tableOffset_64] at heq
  have h0 : tableOffset rook_mask 0 = 0 := rfl
  rw [h0] at heq
  rw [rookTableOpt, List.range_eq_range']
  exact heq

/-- The bishop table builds successfully, and at the magic index of any
blocker subset of a square's mask it stores that square's ray-cast bishop
attacks. -/
theorem bishopTable_spec :
    ∃ bt, bishopTableOpt = some bt ∧
      ∀ sq, sq < 64 → ∀ b, b &&& bishop_mask sq = b →
        bt (magicRel (bishop_mask sq) (bishopNumber sq) b +
            tableOffset bishop_mask sq) = bishop_attack_board sq b := by
  obtain ⟨t2, heq, _, hlook⟩ := initTableAux_spec bishop_mask
    bishop_attack_board bishopNumber bishop_checks_all bishop_mask_lt 64 0 rfl
    (fun _ => 0) (fun j _ => rfl)
  refine ⟨t2, ?_, fun sq h1 b hb => hlook sq (Nat.zero_le _) h1 b hb⟩
  rw [bishop_tableOffset_64] at heq
  have h0 : tableOffset bishop_mask 0 = 0 := rfl
  rw [h0] at heq
  rw [bishopTableOpt, List.range_eq_range']
  exact heq

/-- `get_index` of a descriptor with shift `64 - bits`, through `magicRel`. -/
theorem get_index_eq (mask offset num occ : Nat) :
    (Magic.mk mask (64 - count_ones mask) offset num).get_index occ =
      magicRel mask num (occ &&& mask) + offset := by
  show wmul64 (occ &&& mask) num >>> (64 - count_ones mask) + offset = _
  rw [magicRel, Nat.and_assoc, Nat.and_self]

/-- The stored rook descriptor always produces an index inside the table. -/
theorem rookMagicAt_index_lt (sq occ : Nat) (h : sq < 64) :
    (rookMagicAt sq).get_index occ < ROOK_TABLE_SIZE := by
  have h1 := magicRel_lt (rook_mask sq) (rookNumber sq) (occ &&& rook_mask sq)
  have h2 : tableOffset rook_mask (sq + 1) ≤ tableOffset rook_mask 64 :=
    tableOffset_mono rook_mask (by omega)
  have h3 : tableOffset rook_mask (sq + 1) =
      tableOffset rook_mask sq + 2 ^ count_ones (rook_mask sq) := rfl
  have h5 : (rookMagicAt sq).get_index occ =
      magicRel (rook_mask sq) (rookNumber sq) (occ &&& rook_mask sq) +
        tableOffset rook_mask sq :=
    get_index_eq (rook_mask sq) (tableOffset rook_mask sq) (rookNumber sq) occ
  rw [h5, ← rook_tableOffset_64]
  omega

/-- The stored bishop descriptor always produces an index inside the table. -/
theorem bishopMagicAt_index_lt (sq occ : Nat) (h : sq < 64) :
    (bishopMagicAt sq).get_index occ < BISHOP_TABLE_SIZE := by
  have h1 := magicRel_lt (bishop_mask sq) (bishopNumber sq)
    (occ &&& bishop_mask sq)
  have h2 : tableOffset bishop_mask (sq + 1) ≤ tableOffset bishop_mask 64 :=
    tableOffset_mono bishop_mask (by omega)
  have h3 : tableOffset bishop_mask (sq + 1) =
      tableOffset bishop_mask sq + 2 ^ count_ones (bishop_mask sq) := rfl
  have h5 : (bishopMagicAt sq).get_index occ =
      magicRel (bishop_mask sq) (bishopNumber sq) (occ &&& bishop_mask sq) +
        tableOffset bishop_mask sq :=
    get_index_eq (bishop_mask sq) (tableOffset bishop_mask sq)
      (bishopNumber sq) occ
  rw [h5, ← bishop_tableOffset_64]
  omega

/-- Unfolding of `get_slider_attacks` at `Pieces::ROOK`. -/
theorem get_slider_attacks_rook (mg : MoveGen) (sq occ : Nat) :
    get_slider_attacks mg Pieces.ROOK sq occ =
      if (mg.rook_magics sq).get_index occ < ROOK_TABLE_SIZE
      then some (mg.rook ((mg.rook_magics sq).get_index occ)) else none := rfl

/-- Unfolding of `get_slider_attacks` at `Pieces::BISHOP`. -/
theorem get_slider_attacks_bishop (mg : MoveGen) (sq occ : Nat) :
    get_slider_attacks mg Pieces.BISHOP sq occ =
      if (mg.bishop_magics sq).get_index occ < BISHOP_TABLE_SIZE
      then some (mg.bishop ((mg.bishop_magics sq).get_index occ)) else none :=
  rfl

/-- Unfolding of `get_slider_attacks` at `Pieces::QUEEN`. -/
theorem get_slider_attacks_queen (mg : MoveGen) (sq occ : Nat) :
    get_slider_attacks mg Pieces.QUEEN sq occ =
      if (mg.rook_magics sq).get_index occ < ROOK_TABLE_SIZE then
        if (mg.bishop_magics sq).get_index occ < BISHOP_TABLE_SIZE then
          some (mg.rook ((mg.rook_magics sq).get_index occ) ^^^
            mg.bishop ((mg.bishop_magics sq).get_index occ))
        else none
      else none := rfl

/-- `get_index` of the stored rook descriptor, through `magicRel`. -/
theorem rookMagicAt_get_index (sq occ : Nat) :
    (rookMagicAt sq).get_index occ =
      magicRel (rook_mask sq) (rookNumber sq) (occ &&& rook_mask sq) +
        tableOffset rook_mask sq :=
  get_index_eq (rook_mask sq) (tableOffset rook_mask sq) (rookNumber sq) occ

/-- `get_index` of the stored bishop descriptor, through `magicRel`. -/
theorem bishopMagicAt_get_index (sq occ : Nat) :
    (bishopMagicAt sq).get_index occ =
      magicRel (bishop_mask sq) (bishopNumber sq) (occ &&& bishop_mask sq) +
        tableOffset bishop_mask sq :=
  get_index_eq (bishop_mask sq) (tableOffset bishop_mask sq)
    (bishopNumber sq) occ

/-- `MoveGenerator::new()` succeeds, and on the generator it builds every
slider lookup answers with the ray cast against the relevant blockers. -/
theorem MoveGenerator_new_spec :
    ∃ mg, MoveGenerator.new = some mg ∧
      (∀ sq occ, sq < 64 →
        get_slider_attacks mg Pieces.ROOK sq occ =
          some (rook_attack_board sq (occ &&& rook_mask sq))) ∧
      (∀ sq occ, sq < 64 →
        get_slider_attacks mg Pieces.BISHOP sq occ =
          some (bishop_attack_board sq (occ &&& bishop_mask sq))) ∧
      (∀ sq occ, sq < 64 →
        get_slider_attacks mg Pieces.QUEEN sq occ =
          some (rook_attack_board sq (occ &&& rook_mask sq) ^^^
            bishop_attack_board sq (occ &&& bishop_mask sq))) := by
  obtain ⟨rt, hrt, hrlook⟩ := rookTable_spec
  obtain ⟨bt, hbt, hblook⟩ := bishopTable_spec
  have hrsub : ∀ sq occ : Nat, (occ &&& rook_mask sq) &&& rook_mask sq =
      occ &&& rook_mask sq := by
    intro sq occ
    rw [Nat.and_assoc, Nat.and_self]
  have hbsub : ∀ sq occ : Nat, (occ &&& bishop_mask sq) &&& bishop_mask sq =
      occ &&& bishop_mask sq := by
    intro sq occ
    rw [Nat.and_assoc, Nat.and_self]
  refine ⟨⟨rt, bt, rookMagicAt, bishopMagicAt⟩, ?_, ?_, ?_, ?_⟩
  · show mkMoveGen rookTableOpt bishopTableOpt = _
    rw [hrt, hbt]
    rfl
  · intro sq occ h
    rw [get_slider_attacks_rook]
    show (if (rookMagicAt sq).get_index occ < ROOK_TABLE_SIZE
      then some (rt ((rookMagicAt sq).get_index occ)) else none) = _
    rw [if_pos (rookMagicAt_index_lt sq occ h)]
    rw [rookMagicAt_get_index]
    rw [hrlook sq h (occ &&& rook_mask sq) (hrsub sq occ)]
  · intro sq occ h
    rw [get_slider_attacks_bishop]
    show (if (bishopMagicAt sq).get_index occ < BISHOP_TABLE_SIZE
      then some (bt ((bishopMagicAt sq).get_index occ)) else none) = _
    rw [if_pos (bishopMagicAt_index_lt sq occ h)]
    rw [bishopMagicAt_get_index]
    rw [hblook sq h (occ &&& bishop_mask sq) (hbsub sq occ)]
  · intro sq occ h
    rw [get_slider_attacks_queen]
    show (if (rookMagicAt sq).get_index occ < ROOK_TABLE_SIZE then
        if (bishopMagicAt sq).get_index occ < BISHOP_TABLE_SIZE then
          some (rt ((rookMagicAt sq).get_index occ) ^^^
            bt ((bishopMagicAt sq).get_index occ))
        else none
      else none) = _
    rw [if_pos (rookMagicAt_index_lt sq occ h)]
    rw [if_pos (bishopMagicAt_index_lt sq occ h)]
    rw [rookMagicAt_get_index, bishopMagicAt_get_index]
    rw [hrlook sq h (occ &&& rook_mask sq) (hrsub sq occ)]
    rw [hblook sq h (occ &&& bishop_mask sq) (hbsub sq occ)]

/-- C1: for every square and slider kind (rook or bishop), and for every
blocker subset of that square's relevant-occupancy mask, the attack bitboard
returned by the magic-table lookup (`get_slider_attacks` via
`Magic::get_index` into the table built by `init_magics_with_precalc`) equals
the attack bitboard obtained by direct ray casting (union of the four rook
rays, respectively four bishop diagonal rays, via `bb_ray`) against that
blocker subset: the magic table is a lossless cache of the naive ray-cast
computation. -/
theorem c1_magic_tables_losslessly_cache_ray_casts :
    ∃ mg, MoveGenerator.new = some mg ∧
      (∀ sq, sq < 64 → ∀ b, b &&& rook_mask sq = b →
        get_slider_attacks mg Pieces.ROOK sq b =
          some (rook_attack_board sq b)) ∧
      (∀ sq, sq < 64 → ∀ b, b &&& bishop_mask sq = b →
        get_slider_attacks mg Pieces.BISHOP sq b =
          some (bishop_attack_board sq b)) := by
  obtain ⟨mg, hmg, hr, hb, _⟩ := MoveGenerator_new_spec
  refine ⟨mg, hmg, ?_, ?_⟩
  · intro sq h b hbsub
    rw [hr sq b h, hbsub]
  · intro sq h b hbsub
    rw [hb sq b h, hbsub]

/-- Witness for C1 at square 0 and the empty blocker board. -/
theorem c1_witness :
    Option.map (fun mg => (get_slider_attacks mg Pieces.ROOK 0 0,
        get_slider_attacks mg Pieces.BISHOP 0 0)) MoveGenerator.new =
      some (some (rook_attack_board 0 0), some (bishop_attack_board 0 0)) := by
  obtain ⟨mg, hmg, hr, hb⟩ := c1_magic_tables_losslessly_cache_ray_casts
  rw [hmg, Option.map_some']
  rw [hr 0 (by omega) 0 (Nat.zero_and _), hb 0 (by omega) 0 (Nat.zero_and _)]

/-- C2: perfect-hash invariant of every constructed `Magic` descriptor: for
each square and slider kind, for every blocker subset of the square's mask,
the index `((occupancy & mask) * number >> shift) + offset` computed by
`Magic::get_index` lies within `[offset, offset + 2^popcount(mask))`, and no
two distinct blocker subsets of the mask map to the same table index unless
their ray-cast attack values are identical (in fact the index map is
injective on the subsets). -/
theorem c2_magic_get_index_perfect_hash :
    (∀ sq, sq < 64 → ∀ b, b &&& rook_mask sq = b →
      tableOffset rook_mask sq ≤ (rookMagicAt sq).get_index b ∧
      (rookMagicAt sq).get_index b <
        tableOffset rook_mask sq + 2 ^ count_ones (rook_mask sq)) ∧
    (∀ sq, sq < 64 → ∀ b1 b2, b1 &&& rook_mask sq = b1 →
      b2 &&& rook_mask sq = b2 →
      (rookMagicAt sq).get_index b1 = (rookMagicAt sq).get_index b2 →
      b1 = b2 ∨ rook_attack_board sq b1 = rook_attack_board sq b2) ∧
    (∀ sq, sq < 64 → ∀ b, b &&& bishop_mask sq = b →
      tableOffset bishop_mask sq ≤ (bishopMagicAt sq).get_index b ∧
      (bishopMagicAt sq).get_index b <
        tableOffset bishop_mask sq + 2 ^ count_ones (bishop_mask sq)) ∧
    (∀ sq, sq < 64 → ∀ b1 b2, b1 &&& bishop_mask sq = b1 →
      b2 &&& bishop_mask sq = b2 →
      (bishopMagicAt sq).get_index b1 = (bishopMagicAt sq).get_index b2 →
      b1 = b2 ∨ bishop_attack_board sq b1 = bishop_attack_board sq b2) := by
  refine ⟨?_, ?_, ?_, ?_⟩
  · intro sq h b hb
    have h5 : (rookMagicAt sq).get_index b =
        magicRel (rook_mask sq) (rookNumber sq) (b &&& rook_mask sq) +
          tableOffset rook_mask sq :=
      get_index_eq (rook_mask sq) (tableOffset rook_mask sq) (rookNumber sq) b
    rw [h5, hb]
    have h1 := magicRel_lt (rook_mask sq) (rookNumber sq) b
    omega
  · intro sq h b1 b2 hb1 hb2 heq
    have h51 : (rookMagicAt sq).get_index b1 =
        magicRel (rook_mask sq) (rookNumber sq) (b1 &&& rook_mask sq) +
          tableOffset rook_mask sq :=
      get_index_eq (rook_mask sq) (tableOffset rook_mask sq) (rookNumber sq) b1
    have h52 : (rookMagicAt sq).get_index b2 =
        magicRel (rook_mask sq) (rookNumber sq) (b2 &&& rook_mask sq) +
          tableOffset rook_mask sq :=
      get_index_eq (rook_mask sq) (tableOffset rook_mask sq) (rookNumber sq) b2
    rw [h51, h52, hb1, hb2] at heq
    have hrel : magicRel (rook_mask sq) (rookNumber sq) b1 =
        magicRel (rook_mask sq) (rookNumber sq) b2 := by omega
    exact Or.inl (magic_inj_of_check (rook_checks_all sq h)
      (rook_mask_lt sq h) b1 b2 hb1 hb2 hrel)
  · intro sq h b hb
    have h5 : (bishopMagicAt sq).get_index b =
        magicRel (bishop_mask sq) (bishopNumber sq) (b &&& bishop_mask sq) +
          tableOffset bishop_mask sq :=
      get_index_eq (bishop_mask sq) (tableOffset bishop_mask sq)
        (bishopNumber sq) b
    rw [h5, hb]
    have h1 := magicRel_lt (bishop_mask sq) (bishopNumber sq) b
    omega
  · intro sq h b1 b2 hb1 hb2 heq
    have h51 : (bishopMagicAt sq).get_index b1 =
        magicRel (bishop_mask sq) (bishopNumber sq) (b1 &&& bishop_mask sq) +
          tableOffset bishop_mask sq :=
      get_index_eq (bishop_mask sq) (tableOffset bishop_mask sq)
        (bishopNumber sq) b1
    have h52 : (bishopMagicAt sq).get_index b2 =
        magicRel (bishop_mask sq) (bishopNumber sq) (b2 &&& bishop_mask sq) +
          tableOffset bishop_mask sq :=
      get_index_eq (bishop_mask sq) (tableOffset bishop_mask sq)
        (bishopNumber sq) b2
    rw [h51, h52, hb1, hb2] at heq
    have hrel : magicRel (bishop_mask sq) (bishopNumber sq) b1 =
        magicRel (bishop_mask sq) (bishopNumber sq) b2 := by omega
    exact Or.inl (magic_inj_of_check (bishop_checks_all sq h)
      (bishop_mask_lt sq h) b1 b2 hb1 hb2 hrel)

/-- Witness for C2 at square 0, blocker boards 0. -/
theorem c2_witness :
    (tableOffset rook_mask 0 ≤ (rookMagicAt 0).get_index 0 ∧
      (rookMagicAt 0).get_index 0 <
        tableOffset rook_mask 0 + 2 ^ count_ones (rook_mask 0)) ∧
    ((0 : Nat) = 0 ∨ rook_attack_board 0 0 = rook_attack_board 0 0) ∧
    (tableOffset bishop_mask 0 ≤ (bishopMagicAt 0).get_index 0 ∧
      (bishopMagicAt 0).get_index 0 <
        tableOffset bishop_mask 0 + 2 ^ count_ones (bishop_mask 0)) ∧
    ((0 : Nat) = 0 ∨ bishop_attack_board 0 0 = bishop_attack_board 0 0) :=
  ⟨c2_magic_get_index_perfect_hash.1 0 (by omega) 0 (Nat.zero_and _),
   c2_magic_get_index_perfect_hash.2.1 0 (by omega) 0 0 (Nat.zero_and _)
     (Nat.zero_and _) rfl,
   c2_magic_get_index_perfect_hash.2.2.1 0 (by omega) 0 (Nat.zero_and _),
   c2_magic_get_index_perfect_hash.2.2.2 0 (by omega) 0 0 (Nat.zero_and _)
     (Nat.zero_and _) rfl⟩

/-- C9: Move encoding round trip: for all representable field values (piece
kind in 0..7, from-square in 0..63, to-square in 0..63, captured piece in
0..7, promoted piece in 0..7, and one-bit en-passant, double-step and
castling flags), packing them into the `Move` data word at the documented
shifts and reading each field back through the accessors `piece()`, `from()`,
`to()`, `captured()`, `promoted()`, `en_passant()`, `double_step()`,
`castling()` returns the original values. -/
theorem c9_move_encoding_round_trip (piece fromSq toSq captured promoted : Nat)
    (ep ds ca : Bool) (hp : piece < 8) (hf : fromSq < 64) (ht : toSq < 64)
    (hc : captured < 8) (hpr : promoted < 8) :
    (Move.new (moveData piece fromSq toSq captured promoted ep ds ca)).piece
        = piece ∧
    (Move.new (moveData piece fromSq toSq captured promoted ep ds ca)).from
        = fromSq ∧
    (Move.new (moveData piece fromSq toSq captured promoted ep ds ca)).to
        = toSq ∧
    (Move.new (moveData piece fromSq toSq captured promoted ep ds ca)).captured
        = captured ∧
    (Move.new (moveData piece fromSq toSq captured promoted ep ds ca)).promoted
        = promoted ∧
    (Move.new (moveData piece fromSq toSq captured promoted ep ds ca)).en_passant
        = ep.toNat ∧
    (Move.new (moveData piece fromSq toSq captured promoted ep ds ca)).double_step
        = ds.toNat ∧
    (Move.new (moveData piece fromSq toSq captured promoted ep ds ca)).castling
        = ca.toNat :=
  move_fields_of_sum piece fromSq toSq captured promoted ep ds ca hp hf ht hc
    hpr

/-- Witness for C9 at a concrete field assignment. -/
theorem c9_witness :
    (Move.new (moveData 5 12 28 3 2 true false true)).piece = 5 ∧
    (Move.new (moveData 5 12 28 3 2 true false true)).from = 12 ∧
    (Move.new (moveData 5 12 28 3 2 true false true)).to = 28 ∧
    (Move.new (moveData 5 12 28 3 2 true false true)).captured = 3 ∧
    (Move.new (moveData 5 12 28 3 2 true false true)).promoted = 2 ∧
    (Move.new (moveData 5 12 28 3 2 true false true)).en_passant =
      Bool.toNat true ∧
    (Move.new (moveData 5 12 28 3 2 true false true)).double_step =
      Bool.toNat false ∧
    (Move.new (moveData 5 12 28 3 2 true false true)).castling =
      Bool.toNat true :=
  c9_move_encoding_round_trip 5 12 28 3 2 true false true (by omega) (by omega)
    (by omega) (by omega) (by omega)

/-- The concrete board used to exhibit the missing promotion handling: a
single white pawn on d7 (square 51), White to move, no castling rights, no
en-passant square. -/
def c3Board : Board :=
  ⟨fun s p => if s = 0 ∧ p = 5 then BB_SQUARES 51 else 0,
   fun s => if s = 0 then BB_SQUARES 51 else 0,
   ⟨0, 0, none, 0, 0, fun _ => 0⟩⟩

theorem c3Board_wf : c3Board.wf := by
  refine ⟨fun s p => ?_, fun s => ?_, by decide, fun e he => ?_⟩
  · show (if s = 0 ∧ p = 5 then BB_SQUARES 51 else 0) < U64
    split <;> decide
  · show (if s = 0 then BB_SQUARES 51 else 0) < U64
    split <;> decide
  · exact absurd he (by simp [c3Board])

/-- C3: in `add_moves`, for every board and every pawn move whose destination
square lies on the mover's final rank, the generator pushes one `Move` per
promotion choice (queen, rook, bishop, knight) with the corresponding
promoted-piece field set, instead of a single non-promotion `Move`.
REFUTED: `add_moves` hardcodes `promotion = false`, so a white pawn moving
d7→d8 yields exactly one move whose promoted-piece field is 0, and
`generate_moves` emits exactly that single move for the board above. -/
theorem c3_promotion_family_not_generated :
    c3Board.wf ∧
    add_moves c3Board Pieces.PAWN 51 (BB_SQUARES 59) =
      [Move.new (Pieces.PAWN ||| (51 <<< Shift.FROM_SQ) |||
        (59 <<< Shift.TO_SQ))] ∧
    (add_moves c3Board Pieces.PAWN 51 (BB_SQUARES 59)).length = 1 ∧
    (∀ m ∈ add_moves c3Board Pieces.PAWN 51 (BB_SQUARES 59), m.promoted = 0) ∧
    ∀ mg : MoveGen, generate_moves mg c3Board =
      some [Move.new (Pieces.PAWN ||| (51 <<< Shift.FROM_SQ) |||
        (59 <<< Shift.TO_SQ))] := by
  refine ⟨c3Board_wf, by decide, by decide, by decide, fun mg => rfl⟩

/- ===== Every generated move has an empty captured-piece field ===== -/

theorem shiftRight_le (a k : Nat) : a >>> k ≤ a := by
  rw [Nat.shiftRight_eq_div_pow]
  exact Nat.div_le_self a (2 ^ k)

theorem ctzAux_le : ∀ f n, ctzAux f n ≤ f := by
  intro f
  induction f with
  | zero => intro n; simp [ctzAux]
  | succ f ih =>
    intro n
    simp only [ctzAux]
    by_cases h : n % 2 = 1
    · rw [if_pos h]
      omega
    · rw [if_neg h]
      have := ih (n / 2)
      omega

theorem trailing_zeros_le (n : Nat) : trailing_zeros n ≤ 64 := ctzAux_le 64 n

theorem trailing_zeros_lt {n : Nat} (h0 : n ≠ 0) (h64 : n < 2 ^ 64) :
    trailing_zeros n < 64 := by
  obtain ⟨ht, _⟩ := ctzAux_spec 64 n h0 h64
  have ht2 : n.testBit (trailing_zeros n) = true := ht
  by_contra hge
  push_neg at hge
  have hb : n.testBit (trailing_zeros n) = false :=
    Nat.testBit_lt_two_pow
      (lt_of_lt_of_le h64 (Nat.pow_le_pow_right (by omega) hge))
  rw [ht2] at hb
  exact Bool.noConfusion hb

theorem squaresOfAux_le : ∀ fuel bb, ∀ s ∈ squaresOfAux fuel bb, s ≤ 64 := by
  intro fuel
  induction fuel with
  | zero => intro bb s hs; exact absurd hs (List.not_mem_nil s)
  | succ fuel ih =>
    intro bb s hs
    simp only [squaresOfAux] at hs
    by_cases h0 : bb = 0
    · rw [if_pos h0] at hs
      exact absurd hs (List.not_mem_nil s)
    · rw [if_neg h0] at hs
      rcases List.mem_cons.mp hs with he | hm
      · rw [he]
        exact trailing_zeros_le bb
      · exact ih _ s hm

theorem bitSquares_le (bb : Nat) : ∀ s ∈ bitSquares bb, s ≤ 64 :=
  squaresOfAux_le 64 bb

theorem squaresOfAux_lt : ∀ fuel bb, bb < 2 ^ 64 →
    ∀ s ∈ squaresOfAux fuel bb, s < 64 := by
  intro fuel
  induction fuel with
  | zero => intro bb _ s hs; exact absurd hs (List.not_mem_nil s)
  | succ fuel ih =>
    intro bb hbb s hs
    simp only [squaresOfAux] at hs
    by_cases h0 : bb = 0
    · rw [if_pos h0] at hs
      exact absurd hs (List.not_mem_nil s)
    · rw [if_neg h0] at hs
      rcases List.mem_cons.mp hs with he | hm
      · rw [he]
        exact trailing_zeros_lt h0 hbb
      · have hlt : 1 <<< trailing_zeros bb < 2 ^ 64 := by
          rw [Nat.shiftLeft_eq, Nat.one_mul]
          exact Nat.pow_lt_pow_right (by omega) (trailing_zeros_lt h0 hbb)
        exact ih _ (Nat.xor_lt_two_pow hbb hlt) s hm

theorem bitSquares_lt {bb : Nat} (h : bb < 2 ^ 64) :
    ∀ s ∈ bitSquares bb, s < 64 :=
  squaresOfAux_lt 64 bb h

/-- Decomposing membership in a successful `genConcat` run. -/
theorem genConcat_mem : ∀ (xs : List Nat) (f : Nat → Option (List Move))
    (ms : List Move), genConcat f xs = some ms →
    ∀ m ∈ ms, ∃ x ∈ xs, ∃ l, f x = some l ∧ m ∈ l := by
  intro xs
  induction xs with
  | nil =>
    intro f ms h m hm
    have : ms = [] := (Option.some.inj h).symm
    rw [this] at hm
    exact absurd hm (List.not_mem_nil m)
  | cons x rest ih =>
    intro f ms h m hm
    simp only [genConcat] at h
    cases hfx : f x with
    | none => rw [hfx] at h; exact Option.noConfusion h
    | some ms1 =>
      cases hrest : genConcat f rest with
      | none => rw [hfx, hrest] at h; exact Option.noConfusion h
      | some ms2 =>
        rw [hfx, hrest] at h
        have hms : ms1 ++ ms2 = ms := Option.some.inj h
        rw [← hms] at hm
        rcases List.mem_append.mp hm with h1 | h2
        · exact ⟨x, List.mem_cons_self x rest, ms1, hfx, h1⟩
        · obtain ⟨y, hy, l, hfl, hml⟩ := ih f ms2 hrest m h2
          exact ⟨y, List.mem_cons_of_mem x hy, l, hfl, hml⟩

/-- A value below `2^k` is bitwise disjoint from a multiple of `2^k`. -/
theorem and_eq_zero_of_bounds {a b k : Nat} (ha : a < 2 ^ k)
    (hb : b % 2 ^ k = 0) : a &&& b = 0 := by
  obtain ⟨m, hm⟩ := Nat.dvd_of_mod_eq_zero hb
  apply Nat.eq_of_testBit_eq
  intro i
  rw [Nat.testBit_and, Nat.zero_testBit]
  rcases Nat.lt_or_ge i k with hik | hik
  · have hbbit : b.testBit i = false := by
      have hbm : b = m <<< k := by
        rw [Nat.shiftLeft_eq, hm]
        exact Nat.mul_comm _ _
      rw [hbm, Nat.testBit_shiftLeft]
      have : decide (i ≥ k) = false := by
        rw [decide_eq_false_iff_not]
        omega
      rw [this, Bool.false_and]
    rw [hbbit, Bool.and_false]
  · have habit : a.testBit i = false :=
      Nat.testBit_lt_two_pow
        (lt_of_lt_of_le ha (Nat.pow_le_pow_right (by omega) hik))
    rw [habit, Bool.false_and]

/-- Two bitboards that cannot share a set bit or like they add. -/
theorem or_step {a b k : Nat} (ha : a < 2 ^ k) (hb : b % 2 ^ k = 0) :
    a ||| b = a + b :=
  (add_eq_or_of_and_eq_zero a b (and_eq_zero_of_bounds ha hb)).symm

/-- The captured-piece field of the word `add_moves` assembles is always 0:
nothing is or-ed in between bits 15 and 17. -/
theorem captured_zero_word (piece f t : Nat) (e d c : Bool)
    (hp : piece < 8) (hf : f ≤ 64) (ht : t < 64) :
    (Move.new (piece ||| (f <<< 3) ||| (t <<< 9) ||| (0 <<< 15) |||
      (e.toNat <<< 21) ||| (d.toNat <<< 22) |||
      (c.toNat <<< 23))).captured = 0 := by
  show ((piece ||| (f <<< 3) ||| (t <<< 9) ||| (0 <<< 15) |||
    (e.toNat <<< 21) ||| (d.toNat <<< 22) ||| (c.toNat <<< 23)) >>> 15) &&&
    7 = 0
  rw [Nat.shiftRight_eq_div_pow, and7_eq_mod]
  have he : e.toNat ≤ 1 := Bool.toNat_le e
  have hd : d.toNat ≤ 1 := Bool.toNat_le d
  have hc : c.toNat ≤ 1 := Bool.toNat_le c
  have hlow : piece ||| (f <<< 3) ||| (t <<< 9) ||| (0 <<< 15) < 2 ^ 15 := by
    have hb : f <<< 3 < 2 ^ 15 := by
      rw [Nat.shiftLeft_eq]
      have h8 : (2 : Nat) ^ 3 = 8 := rfl
      have h15 : (2 : Nat) ^ 15 = 32768 := rfl
      omega
    have hcb : t <<< 9 < 2 ^ 15 := by
      rw [Nat.shiftLeft_eq]
      have h9 : (2 : Nat) ^ 9 = 512 := rfl
      have h15 : (2 : Nat) ^ 15 = 32768 := rfl
      omega
    have hz : (0 : Nat) <<< 15 < 2 ^ 15 := by
      rw [Nat.zero_shiftLeft]
      exact Nat.two_pow_pos 15
    exact Nat.or_lt_two_pow
      (Nat.or_lt_two_pow (Nat.or_lt_two_pow (by omega) hb) hcb) hz
  have h15 : (2 : Nat) ^ 15 = 32768 := rfl
  have h21 : (2 : Nat) ^ 21 = 2097152 := rfl
  have h22 : (2 : Nat) ^ 22 = 4194304 := rfl
  have h23 : (2 : Nat) ^ 23 = 8388608 := rfl
  rw [Nat.shiftLeft_eq e.toNat 21, Nat.shiftLeft_eq d.toNat 22,
    Nat.shiftLeft_eq c.toNat 23]
  rw [or_step (k := 21) (by omega) (Nat.mul_mod_left _ _)]
  rw [or_step (k := 22) (by omega) (Nat.mul_mod_left _ _)]
  rw [or_step (k := 23) (by omega) (Nat.mul_mod_left _ _)]
  omega

/-- The en-passant flag `add_moves` computes for one destination square. -/
def epFlag (board : Board) (piece toSquare : Nat) : Bool :=
  match board.state.en_passant with
  | some square => decide (piece = Pieces.PAWN) && decide (square = toSquare)
  | none => false

/-- `addMovesAt` always emits exactly one move, with this data word. -/
theorem addMovesAt_eq (board : Board) (piece fromSq t : Nat) :
    addMovesAt board piece fromSq t =
      [Move.new (piece ||| (fromSq <<< 3) ||| (t <<< 9) ||| (0 <<< 15) |||
        ((epFlag board piece t).toNat <<< 21) |||
        ((false : Bool).toNat <<< 22) ||| ((false : Bool).toNat <<< 23))] :=
  rfl

/-- Every move emitted by `add_moves` has captured-piece field 0. -/
theorem add_moves_captured {board : Board} {piece fromSq toBB : Nat}
    (hp : piece < 8) (hf : fromSq ≤ 64) (ht : toBB < 2 ^ 64) :
    ∀ m ∈ add_moves board piece fromSq toBB, m.captured = 0 := by
  intro m hm
  simp only [add_moves] at hm
  obtain ⟨t, htmem, hmt⟩ := List.mem_flatMap.mp hm
  rw [addMovesAt_eq] at hmt
  have hm1 : m = Move.new (piece ||| (fromSq <<< 3) ||| (t <<< 9) |||
      (0 <<< 15) ||| ((epFlag board piece t).toNat <<< 21) |||
      ((false : Bool).toNat <<< 22) ||| ((false : Bool).toNat <<< 23)) := by
    simp only [List.mem_cons, List.not_mem_nil, or_false] at hmt
    exact hmt
  rw [hm1]
  exact captured_zero_word piece fromSq t (epFlag board piece t) false false hp
    hf (bitSquares_lt ht t htmem)

theorem bbSquaresOpt_lt {i bb : Nat} (h : bbSquaresOpt i = some bb) :
    bb < 2 ^ 64 := by
  simp only [bbSquaresOpt] at h
  by_cases hi : i < 64
  · rw [if_pos hi] at h
    rw [← Option.some.inj h, Nat.shiftLeft_eq, Nat.one_mul]
    exact Nat.pow_lt_pow_right (by omega) hi
  · rw [if_neg hi] at h
    exact Option.noConfusion h

theorem bbSquaresOpt_sq_lt {i bb : Nat} (h : bbSquaresOpt i = some bb) :
    i < 64 := by
  simp only [bbSquaresOpt] at h
  by_cases hi : i < 64
  · exact hi
  · rw [if_neg hi] at h
    exact Option.noConfusion h

theorem BB_SQUARES_shr2_lt {f : Nat} (hf : f ≤ 64) :
    BB_SQUARES f >>> 2 < 2 ^ 64 := by
  show (1 <<< f) >>> 2 < 2 ^ 64
  rw [Nat.shiftLeft_eq, Nat.one_mul, Nat.shiftRight_eq_div_pow]
  have h1 : (2 : Nat) ^ f ≤ 2 ^ 64 := Nat.pow_le_pow_right (by omega) hf
  have h2 : (2 : Nat) ^ f / 2 ^ 2 ≤ 2 ^ 64 / 2 ^ 2 := Nat.div_le_div_right h1
  have h3 : (2 : Nat) ^ 64 / 2 ^ 2 < 2 ^ 64 := by decide
  omega

theorem kingTable_lt (sq : Nat) : kingTable sq < 2 ^ 64 := by
  refine Nat.or_lt_two_pow (Nat.or_lt_two_pow (Nat.or_lt_two_pow
    (Nat.or_lt_two_pow (Nat.or_lt_two_pow (Nat.or_lt_two_pow
      (Nat.or_lt_two_pow ?_ ?_) ?_) ?_) ?_) ?_) ?_) ?_
  · exact Nat.mod_lt _ (by decide)
  · exact Nat.mod_lt _ (by decide)
  · exact Nat.mod_lt _ (by decide)
  · exact lt_of_le_of_lt (le_trans (shiftRight_le _ _) Nat.and_le_right)
      (by decide)
  · exact Nat.mod_lt _ (by decide)
  · exact lt_of_le_of_lt (le_trans (shiftRight_le _ _) Nat.and_le_right)
      (by decide)
  · exact lt_of_le_of_lt (le_trans (shiftRight_le _ _) Nat.and_le_right)
      (by decide)
  · exact lt_of_le_of_lt (le_trans (shiftRight_le _ _) Nat.and_le_right)
      (by decide)

theorem knightTable_lt (sq : Nat) : knightTable sq < 2 ^ 64 := by
  refine Nat.or_lt_two_pow (Nat.or_lt_two_pow (Nat.or_lt_two_pow
    (Nat.or_lt_two_pow (Nat.or_lt_two_pow (Nat.or_lt_two_pow
      (Nat.or_lt_two_pow ?_ ?_) ?_) ?_) ?_) ?_) ?_) ?_
  · exact Nat.mod_lt _ (by decide)
  · exact Nat.mod_lt _ (by decide)
  · exact Nat.mod_lt _ (by decide)
  · exact Nat.mod_lt _ (by decide)
  · exact lt_of_le_of_lt (le_trans (shiftRight_le _ _) Nat.and_le_right)
      (by decide)
  · exact lt_of_le_of_lt (le_trans (shiftRight_le _ _) Nat.and_le_right)
      (by decide)
  · exact lt_of_le_of_lt (le_trans (shiftRight_le _ _) Nat.and_le_right)
      (by decide)
  · exact lt_of_le_of_lt (le_trans (shiftRight_le _ _) Nat.and_le_right)
      (by decide)

theorem pawnTable_lt (side sq : Nat) : pawnTable side sq < 2 ^ 64 := by
  rcases side with _ | side
  · refine Nat.or_lt_two_pow ?_ ?_ <;> exact Nat.mod_lt _ (by decide)
  · rcases side with _ | side
    · refine Nat.or_lt_two_pow ?_ ?_ <;>
        exact lt_of_le_of_lt (le_trans (shiftRight_le _ _) Nat.and_le_right)
          (by decide)
    · show (0 : Nat) < 2 ^ 64
      decide

theorem get_non_slider_attacks_lt {piece square bb : Nat}
    (h : get_non_slider_attacks piece square = some bb) : bb < 2 ^ 64 := by
  rcases piece with _ | _ | _ | _ | _ | p
  · have h2 : some (kingTable square) = some bb := h
    rw [← Option.some.inj h2]
    exact kingTable_lt square
  · exact Option.noConfusion h
  · exact Option.noConfusion h
  · exact Option.noConfusion h
  · have h2 : some (knightTable square) = some bb := h
    rw [← Option.some.inj h2]
    exact knightTable_lt square
  · exact Option.noConfusion h

theorem get_slider_attacks_lt {mg : MoveGen}
    (hrt : ∀ i, mg.rook i < 2 ^ 64) (hbt : ∀ i, mg.bishop i < 2 ^ 64)
    {piece square occ bb : Nat}
    (h : get_slider_attacks mg piece square occ = some bb) : bb < 2 ^ 64 := by
  rcases piece with _ | _ | _ | _ | p
  · exact Option.noConfusion h
  · replace h : get_slider_attacks mg Pieces.QUEEN square occ = some bb := h
    rw [get_slider_attacks_queen] at h
    by_cases h1 : (mg.rook_magics square).get_index occ < ROOK_TABLE_SIZE
    · rw [if_pos h1] at h
      by_cases h2 : (mg.bishop_magics square).get_index occ < BISHOP_TABLE_SIZE
      · rw [if_pos h2] at h
        rw [← Option.some.inj h]
        exact Nat.xor_lt_two_pow (hrt _) (hbt _)
      · rw [if_neg h2] at h
        exact Option.noConfusion h
    · rw [if_neg h1] at h
      exact Option.noConfusion h
  · replace h : get_slider_attacks mg Pieces.ROOK square occ = some bb := h
    rw [get_slider_attacks_rook] at h
    by_cases h1 : (mg.rook_magics square).get_index occ < ROOK_TABLE_SIZE
    · rw [if_pos h1] at h
      rw [← Option.some.inj h]
      exact hrt _
    · rw [if_neg h1] at h
      exact Option.noConfusion h
  · replace h : get_slider_attacks mg Pieces.BISHOP square occ = some bb := h
    rw [get_slider_attacks_bishop] at h
    by_cases h1 : (mg.bishop_magics square).get_index occ < BISHOP_TABLE_SIZE
    · rw [if_pos h1] at h
      rw [← Option.some.inj h]
      exact hbt _
    · rw [if_neg h1] at h
      exact Option.noConfusion h
  · exact Option.noConfusion h

theorem optAppend_eq_some {o1 o2 : Option (List Move)} {ms : List Move}
    (h : optAppend o1 o2 = some ms) :
    ∃ a b, o1 = some a ∧ o2 = some b ∧ ms = a ++ b := by
  cases o1 with
  | none => cases o2 <;> exact Option.noConfusion h
  | some a =>
    cases o2 with
    | none => exact Option.noConfusion h
    | some b => exact ⟨a, b, rfl, rfl, (Option.some.inj h).symm⟩

theorem pieceMovesFrom_captured {mg : MoveGen} {board : Board}
    {piece bb_occupied bb_own fromSq : Nat} {l : List Move}
    (hrt : ∀ i, mg.rook i < 2 ^ 64) (hbt : ∀ i, mg.bishop i < 2 ^ 64)
    (hp : piece < 8) (hf : fromSq ≤ 64)
    (h : pieceMovesFrom mg board piece bb_occupied bb_own fromSq = some l) :
    ∀ m ∈ l, m.captured = 0 := by
  have key : ∀ (tgt : Option Nat), (∀ bb, tgt = some bb → bb < 2 ^ 64) →
      Option.map (fun bb_target => add_moves board piece fromSq
        (bb_target &&& compl64 bb_own)) tgt = some l →
      ∀ m ∈ l, m.captured = 0 := by
    intro tgt htb hmap
    obtain ⟨bbt, hbbt, hl⟩ := Option.map_eq_some'.mp hmap
    intro m hm
    rw [← hl] at hm
    exact add_moves_captured hp hf
      (lt_of_le_of_lt Nat.and_le_left (htb bbt hbbt)) m hm
  rcases piece with _ | _ | _ | _ | _ | p
  · exact key (get_non_slider_attacks 0 fromSq)
      (fun bb hbb => get_non_slider_attacks_lt hbb) h
  · exact key (get_slider_attacks mg 1 fromSq bb_occupied)
      (fun bb hbb => get_slider_attacks_lt hrt hbt hbb) h
  · exact key (get_slider_attacks mg 2 fromSq bb_occupied)
      (fun bb hbb => get_slider_attacks_lt hrt hbt hbb) h
  · exact key (get_slider_attacks mg 3 fromSq bb_occupied)
      (fun bb hbb => get_slider_attacks_lt hrt hbt hbb) h
  · exact key (get_non_slider_attacks 4 fromSq)
      (fun bb hbb => get_non_slider_attacks_lt hbb) h
  · exact Option.noConfusion h

theorem pieceMoves_captured {mg : MoveGen} {board : Board} {piece : Nat}
    {ms : List Move}
    (hrt : ∀ i, mg.rook i < 2 ^ 64) (hbt : ∀ i, mg.bishop i < 2 ^ 64)
    (hp : piece < 8) (h : pieceMoves mg board piece = some ms) :
    ∀ m ∈ ms, m.captured = 0 := by
  simp only [pieceMoves] at h
  intro m hm
  obtain ⟨x, hx, l, hfl, hml⟩ := genConcat_mem _ _ _ h m hm
  exact pieceMovesFrom_captured hrt hbt hp (bitSquares_le _ x hx) hfl m hml

theorem pawnMovesFrom_captured {board : Board}
    {player bbOpp bbEmpty bbFourth : Nat} {north : Bool} {fromSq : Nat}
    {l : List Move} (hf : fromSq ≤ 64)
    (h : pawnMovesFrom board player bbOpp bbEmpty bbFourth north fromSq =
      some l) :
    ∀ m ∈ l, m.captured = 0 := by
  simp only [pawnMovesFrom] at h
  obtain ⟨bb_push, hpush, hrest⟩ := Option.bind_eq_some.mp h
  have hpushlt := bbSquaresOpt_lt hpush
  cases hep : board.state.en_passant with
  | none =>
    simp only [hep] at hrest
    have hl := Option.some.inj hrest
    intro m hm
    rw [← hl] at hm
    refine add_moves_captured (by decide) hf ?_ m hm
    refine Nat.or_lt_two_pow (Nat.or_lt_two_pow ?_ ?_)
      (Nat.or_lt_two_pow ?_ (by decide))
    · exact lt_of_le_of_lt Nat.and_le_left hpushlt
    · exact lt_of_le_of_lt (le_trans Nat.and_le_left Nat.and_le_left)
        (Nat.mod_lt _ (by decide))
    · exact lt_of_le_of_lt Nat.and_le_left (pawnTable_lt player fromSq)
  | some ep =>
    simp only [hep] at hrest
    obtain ⟨bbEp, hbe, hl⟩ := Option.map_eq_some'.mp hrest
    have hbelt := bbSquaresOpt_lt hbe
    intro m hm
    rw [← hl] at hm
    refine add_moves_captured (by decide) hf ?_ m hm
    refine Nat.or_lt_two_pow (Nat.or_lt_two_pow ?_ ?_)
      (Nat.or_lt_two_pow ?_ ?_)
    · exact lt_of_le_of_lt Nat.and_le_left hpushlt
    · exact lt_of_le_of_lt (le_trans Nat.and_le_left Nat.and_le_left)
        (Nat.mod_lt _ (by decide))
    · exact lt_of_le_of_lt Nat.and_le_left (pawnTable_lt player fromSq)
    · exact lt_of_le_of_lt Nat.and_le_left (pawnTable_lt player fromSq)

theorem pawnsMoves_captured {board : Board} {ms : List Move}
    (h : pawnsMoves board = some ms) : ∀ m ∈ ms, m.captured = 0 := by
  simp only [pawnsMoves] at h
  rcases hcs : board.current_side with _ | _ | n
  · simp only [hcs] at h
    intro m hm
    obtain ⟨x, hx, l, hfl, hml⟩ := genConcat_mem _ _ _ h m hm
    exact pawnMovesFrom_captured (bitSquares_le _ x hx) hfl m hml
  · simp only [hcs] at h
    intro m hm
    obtain ⟨x, hx, l, hfl, hml⟩ := genConcat_mem _ _ _ h m hm
    exact pawnMovesFrom_captured (bitSquares_le _ x hx) hfl m hml
  · rw [hcs] at h
    exact Option.noConfusion h

theorem castleSide_captured {mg : MoveGen} {board : Board}
    {opponent bb_occupancy bb_blockers sqA sqB fromSq toBB : Nat}
    {l : List Move} (hf : fromSq ≤ 64) (ht : toBB < 2 ^ 64)
    (h : castleSide mg board opponent bb_occupancy bb_blockers sqA sqB fromSq
      toBB = some l) :
    ∀ m ∈ l, m.captured = 0 := by
  simp only [castleSide] at h
  by_cases hb : (bb_occupancy &&& bb_blockers) > 0
  · rw [if_pos (decide_eq_true hb)] at h
    rw [← Option.some.inj h]
    intro m hm
    exact absurd hm (List.not_mem_nil m)
  · rw [if_neg (fun hc => hb (of_decide_eq_true hc))] at h
    obtain ⟨a1, ha1, h2⟩ := Option.bind_eq_some.mp h
    cases a1 with
    | true =>
      have h3 : some ([] : List Move) = some l := h2
      rw [← Option.some.inj h3]
      intro m hm
      exact absurd hm (List.not_mem_nil m)
    | false =>
      have h3 : Option.map (fun a2 => if a2 then []
          else add_moves board Pieces.KING fromSq toBB)
          (square_attacked mg board opponent sqB) = some l := h2
      obtain ⟨a2, ha2, hl⟩ := Option.map_eq_some'.mp h3
      cases a2 with
      | true =>
        rw [← hl]
        intro m hm
        exact absurd hm (List.not_mem_nil m)
      | false =>
        rw [← hl]
        exact add_moves_captured (by decide) hf ht

theorem optAppend_captured {o1 o2 : Option (List Move)} {ms : List Move}
    (h1 : ∀ l, o1 = some l → ∀ m ∈ l, m.captured = 0)
    (h2 : ∀ l, o2 = some l → ∀ m ∈ l, m.captured = 0)
    (h : optAppend o1 o2 = some ms) : ∀ m ∈ ms, m.captured = 0 := by
  obtain ⟨a, b, ha, hb, hms⟩ := optAppend_eq_some h
  intro m hm
  rw [hms] at hm
  rcases List.mem_append.mp hm with hma | hmb
  · exact h1 a ha m hma
  · exact h2 b hb m hmb

theorem ite_prop_captured {c : Prop} [Decidable c] {o : Option (List Move)}
    {w : List Move}
    (hsome : ∀ l, o = some l → ∀ m ∈ l, m.captured = 0)
    (h : (if c then o else some []) = some w) : ∀ m ∈ w, m.captured = 0 := by
  by_cases hc : c
  · rw [if_pos hc] at h
    exact hsome w h
  · rw [if_neg hc] at h
    rw [← Option.some.inj h]
    intro m hm
    exact absurd hm (List.not_mem_nil m)

theorem castlingMoves_captured {mg : MoveGen} {board : Board} {ms : List Move}
    (h : castlingMoves mg board = some ms) : ∀ m ∈ ms, m.captured = 0 := by
  simp only [castlingMoves] at h
  by_cases hk : board.bb_pieces board.current_side Pieces.KING = 0
  · rw [if_pos hk] at h
    rw [← Option.some.inj h]
    intro m hm
    exact absurd hm (List.not_mem_nil m)
  · rw [if_neg hk] at h
    refine optAppend_captured ?_ ?_ h
    · intro w hw
      refine ite_prop_captured ?_ hw
      intro l hl
      refine optAppend_captured ?_ ?_ hl
      · intro lk hlk
        refine ite_prop_captured ?_ hlk
        intro l2 hl2
        exact castleSide_captured (trailing_zeros_le _)
          (Nat.mod_lt _ (by decide)) hl2
      · intro lq hlq
        refine ite_prop_captured ?_ hlq
        intro l2 hl2
        exact castleSide_captured (trailing_zeros_le _)
          (BB_SQUARES_shr2_lt (trailing_zeros_le _)) hl2
    · intro w hw
      refine ite_prop_captured ?_ hw
      intro l hl
      refine optAppend_captured ?_ ?_ hl
      · intro lk hlk
        refine ite_prop_captured ?_ hlk
        intro l2 hl2
        exact castleSide_captured (trailing_zeros_le _)
          (Nat.mod_lt _ (by decide)) hl2
      · intro lq hlq
        refine ite_prop_captured ?_ hlq
        intro l2 hl2
        exact castleSide_captured (trailing_zeros_le _)
          (BB_SQUARES_shr2_lt (trailing_zeros_le _)) hl2

/-- C10: implicit: for every board and every `Move` pushed into the result
list by `generate_moves` (through `add_moves`), with the generator's two
slider tables holding 64-bit words as the Rust `Vec<u64>` type guarantees,
the captured-piece field of the move equals 0 — which is also the encoding
of the King piece kind; the generator never records the identity of a
captured piece, so capture moves are indistinguishable from non-captures by
the `captured()` accessor. -/
theorem c10_captured_field_always_zero {mg : MoveGen} {board : Board}
    {moves : List Move}
    (hrt : ∀ i, mg.rook i < 2 ^ 64) (hbt : ∀ i, mg.bishop i < 2 ^ 64)
    (h : generate_moves mg board = some moves) :
    ∀ m ∈ moves, m.captured = 0 := by
  simp only [generate_moves] at h
  refine optAppend_captured ?_ (fun l hl => castlingMoves_captured hl) h
  intro l6 h6
  refine optAppend_captured ?_ (fun l hl => pawnsMoves_captured hl) h6
  intro l5 h5
  refine optAppend_captured ?_
    (fun l hl => pieceMoves_captured hrt hbt (by decide) hl) h5
  intro l4 h4
  refine optAppend_captured ?_
    (fun l hl => pieceMoves_captured hrt hbt (by decide) hl) h4
  intro l3 h3
  refine optAppend_captured ?_
    (fun l hl => pieceMoves_captured hrt hbt (by decide) hl) h3
  intro l2 h2
  exact optAppend_captured
    (fun l hl => pieceMoves_captured hrt hbt (by decide) hl)
    (fun l hl => pieceMoves_captured hrt hbt (by decide) hl) h2

/-- A generator value with all-zero tables, used to instantiate theorems on
boards whose evaluation never reads the tables. -/
def zeroMoveGen : MoveGen := ⟨fun _ => 0, fun _ => 0, rookMagicAt,
  bishopMagicAt⟩

/-- Witness for C10: the pawn move generated on the single-pawn board has
captured-piece field 0. -/
theorem c10_witness :
    (Move.new (Pieces.PAWN ||| (51 <<< Shift.FROM_SQ) |||
      (59 <<< Shift.TO_SQ))).captured = 0 := by
  have hrt : ∀ i, zeroMoveGen.rook i < 2 ^ 64 := fun _ => Nat.two_pow_pos 64
  have hbt : ∀ i, zeroMoveGen.bishop i < 2 ^ 64 := fun _ => Nat.two_pow_pos 64
  have hgen : generate_moves zeroMoveGen c3Board =
      some [Move.new (Pieces.PAWN ||| (51 <<< Shift.FROM_SQ) |||
        (59 <<< Shift.TO_SQ))] := rfl
  exact c10_captured_field_always_zero hrt hbt hgen
    (Move.new (Pieces.PAWN ||| (51 <<< Shift.FROM_SQ) ||| (59 <<< Shift.TO_SQ)))
    (List.mem_cons_self _ _)

/- ===== Pawn pushes: characterising the generated move set ===== -/

/-- Clearing a bit with `bb ^= 1 << tz`, at the bit level. -/
theorem xor_clear_testBit {bb tz j : Nat} :
    (bb ^^^ (1 <<< tz)).testBit j = (bb.testBit j ^^ decide (tz = j)) := by
  rw [Nat.testBit_xor]
  have h1 : (1 : Nat) <<< tz = 2 ^ tz := by
    rw [Nat.shiftLeft_eq, Nat.one_mul]
  rw [h1, Nat.testBit_two_pow]

theorem squaresOfAux_mem_iff : ∀ (fuel bb : Nat), bb < 2 ^ 64 →
    (∀ j, j < 64 - fuel → bb.testBit j = false) →
    ∀ s, s ∈ squaresOfAux fuel bb ↔ bb.testBit s = true := by
  intro fuel
  induction fuel with
  | zero =>
    intro bb hlt hlow s
    simp only [squaresOfAux, List.not_mem_nil, false_iff]
    intro hbit
    rcases Nat.lt_or_ge s 64 with hs | hs
    · rw [hlow s (by omega)] at hbit
      exact Bool.noConfusion hbit
    · rw [Nat.testBit_lt_two_pow
        (lt_of_lt_of_le hlt (Nat.pow_le_pow_right (by omega) hs))] at hbit
      exact Bool.noConfusion hbit
  | succ fuel ih =>
    intro bb hlt hlow s
    simp only [squaresOfAux]
    by_cases h0 : bb = 0
    · rw [if_pos h0]
      simp only [List.not_mem_nil, false_iff]
      rw [h0, Nat.zero_testBit]
      exact Bool.false_ne_true
    · rw [if_neg h0]
      obtain ⟨htz, hmin⟩ := ctzAux_spec 64 bb h0 hlt
      have htz2 : bb.testBit (trailing_zeros bb) = true := htz
      have hmin2 : ∀ j, j < trailing_zeros bb → bb.testBit j = false := hmin
      have htzlt : trailing_zeros bb < 64 := trailing_zeros_lt h0 hlt
      have hshl : (1 : Nat) <<< trailing_zeros bb < 2 ^ 64 := by
        rw [Nat.shiftLeft_eq, Nat.one_mul]
        exact Nat.pow_lt_pow_right (by omega) htzlt
      have htzge : 64 - (fuel + 1) ≤ trailing_zeros bb := by
        by_contra hcon
        push_neg at hcon
        rw [hlow _ hcon] at htz2
        exact Bool.noConfusion htz2
      have hlow2 : ∀ j, j < 64 - fuel →
          (bb ^^^ (1 <<< trailing_zeros bb)).testBit j = false := by
        intro j hj
        rw [xor_clear_testBit]
        by_cases hje : trailing_zeros bb = j
        · rw [← hje, htz2, decide_eq_true (show trailing_zeros bb =
            trailing_zeros bb from rfl)]
          rfl
        · rw [decide_eq_false hje, Bool.xor_false]
          have hjlt : j < trailing_zeros bb := by omega
          exact hmin2 j hjlt
      have hrec := ih (bb ^^^ (1 <<< trailing_zeros bb))
        (Nat.xor_lt_two_pow hlt hshl) hlow2 s
      rw [List.mem_cons, hrec, xor_clear_testBit]
      constructor
      · rintro (he | hbit)
        · rw [he]
          exact htz2
        · by_cases hje : trailing_zeros bb = s
          · rw [hje] at htz2
            exact htz2
          · rw [decide_eq_false hje, Bool.xor_false] at hbit
            exact hbit
      · intro hbit
        by_cases hje : trailing_zeros bb = s
        · exact Or.inl hje.symm
        · refine Or.inr ?_
          rw [decide_eq_false hje, Bool.xor_false]
          exact hbit

/-- Membership in `bitSquares` is exactly a set bit (64-bit bitboards). -/
theorem bitSquares_mem_iff {bb : Nat} (h : bb < 2 ^ 64) (s : Nat) :
    s ∈ bitSquares bb ↔ bb.testBit s = true :=
  squaresOfAux_mem_iff 64 bb h (fun j hj => absurd hj (by omega)) s

/-- Forward direction of `genConcat` membership. -/
theorem genConcat_mem_of : ∀ (xs : List Nat) (f : Nat → Option (List Move))
    (ms : List Move), genConcat f xs = some ms →
    ∀ x ∈ xs, ∀ l, f x = some l → ∀ m ∈ l, m ∈ ms := by
  intro xs
  induction xs with
  | nil =>
    intro f ms _ x hx
    exact absurd hx (List.not_mem_nil x)
  | cons y rest ih =>
    intro f ms h x hx l hfl m hm
    simp only [genConcat] at h
    cases hfy : f y with
    | none => rw [hfy] at h; exact Option.noConfusion h
    | some ms1 =>
      cases hrest : genConcat f rest with
      | none => rw [hfy, hrest] at h; exact Option.noConfusion h
      | some ms2 =>
        rw [hfy, hrest] at h
        rw [← Option.some.inj h]
        rcases List.mem_cons.mp hx with he | hxr
        · rw [he] at hfl
          rw [hfl] at hfy
          rw [← Option.some.inj hfy]
          exact List.mem_append_left ms2 hm
        · exact List.mem_append_right ms1 (ih f ms2 hrest x hxr l hfl m hm)

/-- `from`/`to` accessors of the word `add_moves` assembles. -/
theorem word_from_to (piece f t : Nat) (e : Bool) (hp : piece < 8)
    (hf : f < 64) (ht : t < 64) :
    (Move.new (piece ||| (f <<< 3) ||| (t <<< 9) ||| (0 <<< 15) |||
      (e.toNat <<< 21) ||| ((false : Bool).toNat <<< 22) |||
      ((false : Bool).toNat <<< 23))).from = f ∧
    (Move.new (piece ||| (f <<< 3) ||| (t <<< 9) ||| (0 <<< 15) |||
      (e.toNat <<< 21) ||| ((false : Bool).toNat <<< 22) |||
      ((false : Bool).toNat <<< 23))).to = t := by
  have hw : moveData piece f t 0 0 e false false =
      piece ||| (f <<< 3) ||| (t <<< 9) ||| (0 <<< 15) |||
        (e.toNat <<< 21) ||| ((false : Bool).toNat <<< 22) |||
        ((false : Bool).toNat <<< 23) := by
    show piece ||| (f <<< 3) ||| (t <<< 9) ||| (0 <<< 15) ||| (0 <<< 18) |||
        (e.toNat <<< 21) ||| ((false : Bool).toNat <<< 22) |||
        ((false : Bool).toNat <<< 23) = _
    rw [show (0 : Nat) <<< 18 = 0 from rfl, Nat.or_zero]
  obtain ⟨_, h2, h3, _⟩ := move_fields_of_sum piece f t 0 0 e false false hp
    hf ht (by omega) (by omega)
  rw [hw] at h2 h3
  exact ⟨h2, h3⟩

/-- Introducing a member of `add_moves` from a set destination bit. -/
theorem add_moves_mem_intro (board : Board) (piece f : Nat) {toBB t : Nat}
    (ht : t ∈ bitSquares toBB) :
    Move.new (piece ||| (f <<< 3) ||| (t <<< 9) ||| (0 <<< 15) |||
      ((epFlag board piece t).toNat <<< 21) |||
      ((false : Bool).toNat <<< 22) ||| ((false : Bool).toNat <<< 23)) ∈
      add_moves board piece f toBB := by
  simp only [add_moves]
  refine List.mem_flatMap.mpr ⟨t, ht, ?_⟩
  rw [addMovesAt_eq]
  exact List.mem_cons_self _ _

/-- Set bits of a rank bitboard `255 <<< k`. -/
theorem rank_bit_true {k j : Nat} (h : ((255 : Nat) <<< k).testBit j = true) :
    k ≤ j ∧ j < k + 8 := by
  rw [Nat.testBit_shiftLeft, show (255 : Nat) = 2 ^ 8 - 1 from rfl,
    Nat.testBit_two_pow_sub_one] at h
  obtain ⟨h1, h2⟩ := Bool.and_eq_true_iff.mp h
  have h3 := of_decide_eq_true h1
  have h4 := of_decide_eq_true h2
  omega

theorem rank_bit_intro {k j : Nat} (h1 : k ≤ j) (h2 : j < k + 8) :
    ((255 : Nat) <<< k).testBit j = true := by
  rw [Nat.testBit_shiftLeft, show (255 : Nat) = 2 ^ 8 - 1 from rfl,
    Nat.testBit_two_pow_sub_one]
  rw [decide_eq_true (show j ≥ k from h1), decide_eq_true (show j - k < 8 by
    omega)]
  rfl

/-- A set bit of `x.rotate_left(72)` below 64 and at position ≥ 8 comes from
the bit 8 lower in `x` (for 64-bit `x`). -/
theorem rotl72_bit {x j : Nat} (hx : x < 2 ^ 64) (hj8 : 8 ≤ j) (hj : j < 64)
    (h : (rotl64 x 72).testBit j = true) : x.testBit (j - 8) = true := by
  have h2 : (((x <<< 8) ||| (x >>> 56)) % U64).testBit j = true := h
  rw [show U64 = 2 ^ 64 from rfl, Nat.testBit_mod_two_pow] at h2
  obtain ⟨_, h3⟩ := Bool.and_eq_true_iff.mp h2
  rw [Nat.testBit_or] at h3
  rcases Bool.or_eq_true_iff.mp h3 with h4 | h4
  · rw [Nat.testBit_shiftLeft] at h4
    exact (Bool.and_eq_true_iff.mp h4).2
  · rw [Nat.testBit_shiftRight] at h4
    rw [Nat.testBit_lt_two_pow (lt_of_lt_of_le hx
      (Nat.pow_le_pow_right (by omega) (by omega)))] at h4
    exact Bool.noConfusion h4

/-- A set bit of `x.rotate_left(56)` below 48 comes from the bit 8 higher in
`x`. -/
theorem rotl56_bit {x j : Nat} (hj : j < 48)
    (h : (rotl64 x 56).testBit j = true) : x.testBit (j + 8) = true := by
  have h2 : (((x <<< 56) ||| (x >>> 8)) % U64).testBit j = true := h
  rw [show U64 = 2 ^ 64 from rfl, Nat.testBit_mod_two_pow] at h2
  obtain ⟨_, h3⟩ := Bool.and_eq_true_iff.mp h2
  rw [Nat.testBit_or] at h3
  rcases Bool.or_eq_true_iff.mp h3 with h4 | h4
  · rw [Nat.testBit_shiftLeft] at h4
    obtain ⟨h5, _⟩ := Bool.and_eq_true_iff.mp h4
    have := of_decide_eq_true h5
    omega
  · rw [Nat.testBit_shiftRight] at h4
    rw [Nat.add_comm] at h4
    exact h4

/-- A white pawn's capture-target table never reaches 16 squares up. -/
theorem pawnTable_white_no16_dec :
    ((List.range 64).all
      (fun f => !((pawnTable 0 f).testBit (f + 16)))) = true := by decide

/-- A black pawn's capture-target table never reaches 16 squares down. -/
theorem pawnTable_black_no16_dec :
    ((List.range 64).all
      (fun f => decide (f < 16) || !((pawnTable 1 f).testBit (f - 16)))) =
      true := by decide

/-- What a successful white pawn-loop body generates, in closed form. -/
theorem pawnMovesFrom_white_spec {board : Board}
    {bbOpp bbEmpty bbFourth f : Nat} {l : List Move}
    (h : pawnMovesFrom board 0 bbOpp bbEmpty bbFourth true f = some l) :
    f + 8 < 64 ∧
    ∃ X, (X = 0 ∨ ∃ ep bbEp, board.state.en_passant = some ep ∧
        bbSquaresOpt ep = some bbEp ∧ X = pawnTable 0 f &&& bbEp) ∧
      l = add_moves board Pieces.PAWN f
        ((((1 <<< (f + 8)) &&& bbEmpty) |||
          (rotl64 ((1 <<< (f + 8)) &&& bbEmpty) 72 &&& bbEmpty &&& bbFourth))
          ||| ((pawnTable 0 f &&& bbOpp) ||| X)) := by
  simp only [pawnMovesFrom] at h
  obtain ⟨bb_push, hpush, hrest⟩ := Option.bind_eq_some.mp h
  have hpush2 : bbSquaresOpt (f + 8) = some bb_push := hpush
  have hf8 : f + 8 < 64 := bbSquaresOpt_sq_lt hpush2
  have hbp : bb_push = 1 <<< (f + 8) := by
    simp only [bbSquaresOpt] at hpush2
    rw [if_pos hf8] at hpush2
    exact (Option.some.inj hpush2).symm
  rw [hbp] at hrest
  refine ⟨hf8, ?_⟩
  cases hep : board.state.en_passant with
  | none =>
    simp only [hep] at hrest
    refine ⟨0, Or.inl rfl, ?_⟩
    rw [← Option.some.inj hrest]
    rfl
  | some ep =>
    simp only [hep] at hrest
    obtain ⟨bbEp, hbe, hl⟩ := Option.map_eq_some'.mp hrest
    refine ⟨pawnTable 0 f &&& bbEp, Or.inr ⟨ep, bbEp, rfl, hbe, rfl⟩, ?_⟩
    rw [← hl]
    rfl

/-- What a successful black pawn-loop body generates, in closed form. -/
theorem pawnMovesFrom_black_spec {board : Board}
    {bbOpp bbEmpty bbFourth f : Nat} {l : List Move} (hf : f < 64)
    (h : pawnMovesFrom board 1 bbOpp bbEmpty bbFourth false f = some l) :
    8 ≤ f ∧
    ∃ X, (X = 0 ∨ ∃ ep bbEp, board.state.en_passant = some ep ∧
        bbSquaresOpt ep = some bbEp ∧ X = pawnTable 1 f &&& bbEp) ∧
      l = add_moves board Pieces.PAWN f
        ((((1 <<< (f - 8)) &&& bbEmpty) |||
          (rotl64 ((1 <<< (f - 8)) &&& bbEmpty) 56 &&& bbEmpty &&& bbFourth))
          ||| ((pawnTable 1 f &&& bbOpp) ||| X)) := by
  simp only [pawnMovesFrom] at h
  obtain ⟨bb_push, hpush, hrest⟩ := Option.bind_eq_some.mp h
  have hpt : pawnPushTarget f false = (f + (U64 - 8)) % U64 := by
    simp only [pawnPushTarget, Bool.false_eq_true, if_false]
  rw [hpt] at hpush
  have hpush2 : bbSquaresOpt ((f + (U64 - 8)) % U64) = some bb_push := hpush
  have hv : (f + (U64 - 8)) % U64 < 64 := bbSquaresOpt_sq_lt hpush2
  have hU : U64 = 2 ^ 64 := rfl
  have hf8 : 8 ≤ f := by
    by_contra hcon
    push_neg at hcon
    have : (f + (U64 - 8)) % U64 = f + (U64 - 8) := by
      apply Nat.mod_eq_of_lt
      omega
    omega
  have hveq : (f + (U64 - 8)) % U64 = f - 8 := by
    have h1 : f + (U64 - 8) = (f - 8) + 1 * U64 := by omega
    rw [h1, Nat.add_mul_mod_self_right]
    apply Nat.mod_eq_of_lt
    omega
  rw [hveq] at hpush2
  have hbp : bb_push = 1 <<< (f - 8) := by
    simp only [bbSquaresOpt] at hpush2
    rw [if_pos (by omega)] at hpush2
    exact (Option.some.inj hpush2).symm
  rw [hbp] at hrest
  refine ⟨hf8, ?_⟩
  cases hep : board.state.en_passant with
  | none =>
    simp only [hep] at hrest
    refine ⟨0, Or.inl rfl, ?_⟩
    rw [← Option.some.inj hrest]
    rfl
  | some ep =>
    simp only [hep] at hrest
    obtain ⟨bbEp, hbe, hl⟩ := Option.map_eq_some'.mp hrest
    refine ⟨pawnTable 1 f &&& bbEp, Or.inr ⟨ep, bbEp, rfl, hbe, rfl⟩, ?_⟩
    rw [← hl]
    rfl

/-- Analysing a set destination bit 16 up from a white pawn: it can only be
the double push, which forces rank 2, both forward squares empty, and the
single-push bit set. -/
theorem white_push_analysis {bbOpp bbEmpty bbFourth f t X : Nat}
    (hflt : f < 64) (htlt : t < 64)
    (hXsub : X = 0 ∨ ∃ bbEp, X = pawnTable 0 f &&& bbEp)
    (hfourth : bbFourth = 255 <<< 24)
    (hbit : ((((1 <<< (f + 8)) &&& bbEmpty) |||
      (rotl64 ((1 <<< (f + 8)) &&& bbEmpty) 72 &&& bbEmpty &&& bbFourth)) |||
      ((pawnTable 0 f &&& bbOpp) ||| X)).testBit t = true)
    (ht16 : t = f + 16) :
    8 ≤ f ∧ f < 16 ∧ bbEmpty.testBit (f + 8) = true ∧
    bbEmpty.testBit (f + 16) = true ∧
    ((((1 <<< (f + 8)) &&& bbEmpty) |||
      (rotl64 ((1 <<< (f + 8)) &&& bbEmpty) 72 &&& bbEmpty &&& bbFourth)) |||
      ((pawnTable 0 f &&& bbOpp) ||| X)).testBit (f + 8) = true := by
  have hpt : (pawnTable 0 f).testBit (f + 16) = false := by
    have := List.all_eq_true.mp pawnTable_white_no16_dec f
      (List.mem_range.mpr hflt)
    simp only [Bool.not_eq_true'] at this
    exact this
  rw [ht16] at hbit
  rw [Nat.testBit_or, Nat.testBit_or, Nat.testBit_or] at hbit
  have honebit : ((1 <<< (f + 8)) &&& bbEmpty).testBit (f + 16) = false := by
    rw [Nat.testBit_and, Nat.shiftLeft_eq, Nat.one_mul, Nat.testBit_two_pow,
      decide_eq_false (by omega : ¬f + 8 = f + 16), Bool.false_and]
  have hcapt : (pawnTable 0 f &&& bbOpp).testBit (f + 16) = false := by
    rw [Nat.testBit_and, hpt, Bool.false_and]
  have hXbit : X.testBit (f + 16) = false := by
    rcases hXsub with hX0 | ⟨bbEp, hXe⟩
    · rw [hX0, Nat.zero_testBit]
    · rw [hXe, Nat.testBit_and, hpt, Bool.false_and]
  rw [honebit, hcapt, hXbit] at hbit
  simp only [Bool.false_or, Bool.or_false] at hbit
  have hone : (1 : Nat) <<< (f + 8) &&& bbEmpty < 2 ^ 64 := by
    have h1 : (1 : Nat) <<< (f + 8) < 2 ^ 64 := by
      rw [Nat.shiftLeft_eq, Nat.one_mul]
      exact Nat.pow_lt_pow_right (by omega) (by omega)
    exact lt_of_le_of_lt Nat.and_le_left h1
  rw [Nat.testBit_and, Nat.testBit_and] at hbit
  obtain ⟨h12, h4th⟩ := Bool.and_eq_true_iff.mp hbit
  obtain ⟨hrot, hemp16⟩ := Bool.and_eq_true_iff.mp h12
  have hrank := rank_bit_true (hfourth ▸ h4th)
  have hf816 : 8 ≤ f ∧ f < 16 := by omega
  have honeset := rotl72_bit hone (by omega) (by omega) hrot
  have honeset2 : ((1 <<< (f + 8)) &&& bbEmpty).testBit (f + 8) = true := by
    have : f + 16 - 8 = f + 8 := by omega
    rw [this] at honeset
    exact honeset
  have hemp8 : bbEmpty.testBit (f + 8) = true := by
    rw [Nat.testBit_and] at honeset2
    exact (Bool.and_eq_true_iff.mp honeset2).2
  refine ⟨hf816.1, hf816.2, hemp8, hemp16, ?_⟩
  rw [Nat.testBit_or, Nat.testBit_or, honeset2]
  rfl

/-- Analysing a set destination bit 16 down from a black pawn. -/
theorem black_push_analysis {bbOpp bbEmpty bbFourth f t X : Nat}
    (hflt : f < 64) (htlt : t < 64)
    (hXsub : X = 0 ∨ ∃ bbEp, X = pawnTable 1 f &&& bbEp)
    (hfourth : bbFourth = 255 <<< 32)
    (hbit : ((((1 <<< (f - 8)) &&& bbEmpty) |||
      (rotl64 ((1 <<< (f - 8)) &&& bbEmpty) 56 &&& bbEmpty &&& bbFourth)) |||
      ((pawnTable 1 f &&& bbOpp) ||| X)).testBit t = true)
    (ht16 : f = t + 16) :
    48 ≤ f ∧ f < 56 ∧ bbEmpty.testBit (f - 8) = true ∧
    bbEmpty.testBit (f - 16) = true ∧
    ((((1 <<< (f - 8)) &&& bbEmpty) |||
      (rotl64 ((1 <<< (f - 8)) &&& bbEmpty) 56 &&& bbEmpty &&& bbFourth)) |||
      ((pawnTable 1 f &&& bbOpp) ||| X)).testBit (f - 8) = true := by
  have hf16 : 16 ≤ f := by omega
  have hpt : (pawnTable 1 f).testBit (f - 16) = false := by
    have := List.all_eq_true.mp pawnTable_black_no16_dec f
      (List.mem_range.mpr hflt)
    rcases Bool.or_eq_true_iff.mp this with h1 | h1
    · exact absurd (of_decide_eq_true h1) (by omega)
    · simp only [Bool.not_eq_true'] at h1
      exact h1
  have htv : t = f - 16 := by omega
  rw [htv] at hbit
  rw [Nat.testBit_or, Nat.testBit_or, Nat.testBit_or] at hbit
  have honebit : ((1 <<< (f - 8)) &&& bbEmpty).testBit (f - 16) = false := by
    rw [Nat.testBit_and, Nat.shiftLeft_eq, Nat.one_mul, Nat.testBit_two_pow,
      decide_eq_false (by omega : ¬f - 8 = f - 16), Bool.false_and]
  have hcapt : (pawnTable 1 f &&& bbOpp).testBit (f - 16) = false := by
    rw [Nat.testBit_and, hpt, Bool.false_and]
  have hXbit : X.testBit (f - 16) = false := by
    rcases hXsub with hX0 | ⟨bbEp, hXe⟩
    · rw [hX0, Nat.zero_testBit]
    · rw [hXe, Nat.testBit_and, hpt, Bool.false_and]
  rw [honebit, hcapt, hXbit] at hbit
  simp only [Bool.false_or, Bool.or_false] at hbit
  rw [Nat.testBit_and, Nat.testBit_and] at hbit
  obtain ⟨h12, h4th⟩ := Bool.and_eq_true_iff.mp hbit
  obtain ⟨hrot, hemp16⟩ := Bool.and_eq_true_iff.mp h12
  have hrank := rank_bit_true (hfourth ▸ h4th)
  have hf4856 : 48 ≤ f ∧ f < 56 := by omega
  have honeset := rotl56_bit (by omega : f - 16 < 48) hrot
  have honeset2 : ((1 <<< (f - 8)) &&& bbEmpty).testBit (f - 8) = true := by
    have he : f - 16 + 8 = f - 8 := by omega
    rw [he] at honeset
    exact honeset
  have hemp8 : bbEmpty.testBit (f - 8) = true := by
    rw [Nat.testBit_and] at honeset2
    exact (Bool.and_eq_true_iff.mp honeset2).2
  refine ⟨hf4856.1, hf4856.2, hemp8, hemp16, ?_⟩
  rw [Nat.testBit_or, Nat.testBit_or, honeset2]
  rfl

theorem rotl64_lt (x n : Nat) : rotl64 x n < 2 ^ 64 := by
  show ((x <<< (n % 64)) ||| (x >>> (64 - n % 64))) % U64 < 2 ^ 64
  exact Nat.mod_lt _ (by decide)

/-- The pawn destination bitboard is a 64-bit word. -/
theorem pawnE_lt (p q f r bbEmpty bbFourth bbOpp : Nat) {X : Nat}
    (hq : q < 64) (hX : X = 0 ∨ ∃ bbEp, X = pawnTable p f &&& bbEp) :
    (((1 <<< q) &&& bbEmpty) |||
      (rotl64 ((1 <<< q) &&& bbEmpty) r &&& bbEmpty &&& bbFourth)) |||
      ((pawnTable p f &&& bbOpp) ||| X) < 2 ^ 64 := by
  refine Nat.or_lt_two_pow (Nat.or_lt_two_pow ?_ ?_) (Nat.or_lt_two_pow ?_ ?_)
  · refine lt_of_le_of_lt Nat.and_le_left ?_
    rw [Nat.shiftLeft_eq, Nat.one_mul]
    exact Nat.pow_lt_pow_right (by omega) hq
  · exact lt_of_le_of_lt (le_trans Nat.and_le_left Nat.and_le_left)
      (rotl64_lt _ _)
  · exact lt_of_le_of_lt Nat.and_le_left (pawnTable_lt p f)
  · rcases hX with h0 | ⟨bbEp, he⟩
    · rw [h0]
      exact Nat.two_pow_pos 64
    · rw [he]
      exact lt_of_le_of_lt Nat.and_le_left (pawnTable_lt p f)

/-- Double pushes of the white pawn loop satisfy the claimed conditions. -/
theorem pawn_double_white {board : Board} {ms : List Move} (hwf : board.wf)
    (hcs : board.current_side = 0) (h : pawnsMoves board = some ms) :
    ∀ m ∈ ms, m.to = m.from + 16 →
      (BB_RANKS Ranks.R2).testBit m.from = true ∧
      (compl64 (board.bb_side Sides.WHITE |||
        board.bb_side Sides.BLACK)).testBit (m.from + 8) = true ∧
      (compl64 (board.bb_side Sides.WHITE |||
        board.bb_side Sides.BLACK)).testBit (m.from + 16) = true ∧
      ∃ m2 ∈ ms, m2.from = m.from ∧ m2.to = m.from + 8 := by
  intro m hm hto
  simp only [pawnsMoves] at h
  simp only [hcs] at h
  obtain ⟨f, hfmem, l, hfl, hml⟩ := genConcat_mem _ _ _ h m hm
  have hflt : f < 64 := bitSquares_lt (hwf.1 0 Pieces.PAWN) f hfmem
  obtain ⟨hf8lt, X, hX, hleq⟩ := pawnMovesFrom_white_spec hfl
  have hX2 : X = 0 ∨ ∃ bbEp, X = pawnTable 0 f &&& bbEp := by
    rcases hX with h0 | ⟨ep, bbEp, _, _, he⟩
    · exact Or.inl h0
    · exact Or.inr ⟨bbEp, he⟩
  have hElt := pawnE_lt 0 (f + 8) f 72
    (compl64 (board.bb_side Sides.WHITE ||| board.bb_side Sides.BLACK))
    (BB_RANKS Ranks.R4) (board.bb_side board.opponent) hf8lt hX2
  rw [hleq] at hml
  simp only [add_moves] at hml
  obtain ⟨t, htmem, hmt⟩ := List.mem_flatMap.mp hml
  have htlt : t < 64 := bitSquares_lt hElt t htmem
  rw [addMovesAt_eq] at hmt
  simp only [List.mem_cons, List.not_mem_nil, or_false] at hmt
  obtain ⟨hfrom, hto2⟩ := word_from_to Pieces.PAWN f t
    (epFlag board Pieces.PAWN t) (by decide) hflt htlt
  have hmfrom : m.from = f := by rw [hmt]; exact hfrom
  have hmto : m.to = t := by rw [hmt]; exact hto2
  have htf : t = f + 16 := by omega
  have hbit := (bitSquares_mem_iff hElt t).mp htmem
  obtain ⟨hge8, hlt16, hemp8, hemp16, hpush⟩ :=
    white_push_analysis hflt htlt hX2 rfl hbit htf
  refine ⟨?_, ?_, ?_, ?_⟩
  · rw [hmfrom, show BB_RANKS Ranks.R2 = 255 <<< 8 from rfl]
    exact rank_bit_intro (by omega) (by omega)
  · rw [hmfrom]
    exact hemp8
  · rw [hmfrom]
    exact hemp16
  · have hm2mem := (bitSquares_mem_iff hElt (f + 8)).mpr hpush
    have hm2add := add_moves_mem_intro board Pieces.PAWN f hm2mem
    rw [← hleq] at hm2add
    have hm2ms := genConcat_mem_of _ _ _ h f hfmem l hfl _ hm2add
    obtain ⟨h2from, h2to⟩ := word_from_to Pieces.PAWN f (f + 8)
      (epFlag board Pieces.PAWN (f + 8)) (by decide) hflt (by omega)
    refine ⟨_, hm2ms, ?_, ?_⟩
    · rw [h2from, hmfrom]
    · rw [h2to, hmfrom]

/-- Double pushes of the black pawn loop satisfy the claimed conditions. -/
theorem pawn_double_black {board : Board} {ms : List Move} (hwf : board.wf)
    (hcs : board.current_side = 1) (h : pawnsMoves board = some ms) :
    ∀ m ∈ ms, m.from = m.to + 16 →
      (BB_RANKS Ranks.R7).testBit m.from = true ∧
      (compl64 (board.bb_side Sides.WHITE |||
        board.bb_side Sides.BLACK)).testBit (m.from - 8) = true ∧
      (compl64 (board.bb_side Sides.WHITE |||
        board.bb_side Sides.BLACK)).testBit (m.from - 16) = true ∧
      ∃ m2 ∈ ms, m2.from = m.from ∧ m2.to + 8 = m.from := by
  intro m hm hto
  simp only [pawnsMoves] at h
  simp only [hcs] at h
  obtain ⟨f, hfmem, l, hfl, hml⟩ := genConcat_mem _ _ _ h m hm
  have hflt : f < 64 := bitSquares_lt (hwf.1 1 Pieces.PAWN) f hfmem
  obtain ⟨hf8ge, X, hX, hleq⟩ := pawnMovesFrom_black_spec hflt hfl
  have hX2 : X = 0 ∨ ∃ bbEp, X = pawnTable 1 f &&& bbEp := by
    rcases hX with h0 | ⟨ep, bbEp, _, _, he⟩
    · exact Or.inl h0
    · exact Or.inr ⟨bbEp, he⟩
  have hElt := pawnE_lt 1 (f - 8) f 56
    (compl64 (board.bb_side Sides.WHITE ||| board.bb_side Sides.BLACK))
    (BB_RANKS Ranks.R5) (board.bb_side board.opponent) (by omega) hX2
  rw [hleq] at hml
  simp only [add_moves] at hml
  obtain ⟨t, htmem, hmt⟩ := List.mem_flatMap.mp hml
  have htlt : t < 64 := bitSquares_lt hElt t htmem
  rw [addMovesAt_eq] at hmt
  simp only [List.mem_cons, List.not_mem_nil, or_false] at hmt
  obtain ⟨hfrom, hto2⟩ := word_from_to Pieces.PAWN f t
    (epFlag board Pieces.PAWN t) (by decide) hflt htlt
  have hmfrom : m.from = f := by rw [hmt]; exact hfrom
  have hmto : m.to = t := by rw [hmt]; exact hto2
  have htf : f = t + 16 := by omega
  have hbit := (bitSquares_mem_iff hElt t).mp htmem
  obtain ⟨hge48, hlt56, hemp8, hemp16, hpush⟩ :=
    black_push_analysis hflt htlt hX2 rfl hbit htf
  refine ⟨?_, ?_, ?_, ?_⟩
  · rw [hmfrom, show BB_RANKS Ranks.R7 = 255 <<< 48 from rfl]
    exact rank_bit_intro (by omega) (by omega)
  · rw [hmfrom]
    exact hemp8
  · rw [hmfrom]
    exact hemp16
  · have hm2mem := (bitSquares_mem_iff hElt (f - 8)).mpr hpush
    have hm2add := add_moves_mem_intro board Pieces.PAWN f hm2mem
    rw [← hleq] at hm2add
    have hm2ms := genConcat_mem_of _ _ _ h f hfmem l hfl _ hm2add
    obtain ⟨h2from, h2to⟩ := word_from_to Pieces.PAWN f (f - 8)
      (epFlag board Pieces.PAWN (f - 8)) (by decide) hflt (by omega)
    refine ⟨_, hm2ms, ?_, ?_⟩
    · rw [h2from, hmfrom]
    · rw [h2to, hmfrom]
      omega

/-- C6: for every board and every pawn of the side to move, a double-push
move (two squares forward) is generated only when that pawn stands on its
side's starting rank and both the one-square-forward and two-square-forward
destination squares are empty (in the occupancy bitboard the generator uses);
and whenever it is generated, the single push is also generated. -/
theorem c6_double_push_only_from_start_rank {board : Board} {ms : List Move}
    (hwf : board.wf) (h : pawnsMoves board = some ms) :
    ∀ m ∈ ms,
      (board.current_side = Sides.WHITE → m.to = m.from + 16 →
        (BB_RANKS Ranks.R2).testBit m.from = true ∧
        (compl64 (board.bb_side Sides.WHITE |||
          board.bb_side Sides.BLACK)).testBit (m.from + 8) = true ∧
        (compl64 (board.bb_side Sides.WHITE |||
          board.bb_side Sides.BLACK)).testBit (m.from + 16) = true ∧
        ∃ m2 ∈ ms, m2.from = m.from ∧ m2.to = m.from + 8) ∧
      (board.current_side = Sides.BLACK → m.from = m.to + 16 →
        (BB_RANKS Ranks.R7).testBit m.from = true ∧
        (compl64 (board.bb_side Sides.WHITE |||
          board.bb_side Sides.BLACK)).testBit (m.from - 8) = true ∧
        (compl64 (board.bb_side Sides.WHITE |||
          board.bb_side Sides.BLACK)).testBit (m.from - 16) = true ∧
        ∃ m2 ∈ ms, m2.from = m.from ∧ m2.to + 8 = m.from) := by
  intro m hm
  constructor
  · intro hside hto
    exact pawn_double_white hwf hside h m hm hto
  · intro hside hto
    exact pawn_double_black hwf hside h m hm hto

/-- A single white pawn on e2 (square 12), used to witness the double push. -/
def c6Board : Board :=
  ⟨fun s p => if s = 0 ∧ p = 5 then BB_SQUARES 12 else 0,
   fun s => if s = 0 then BB_SQUARES 12 else 0,
   ⟨0, 0, none, 0, 0, fun _ => 0⟩⟩

theorem c6Board_wf : c6Board.wf := by
  refine ⟨fun s p => ?_, fun s => ?_, by decide, fun e he => ?_⟩
  · show (if s = 0 ∧ p = 5 then BB_SQUARES 12 else 0) < U64
    split <;> decide
  · show (if s = 0 then BB_SQUARES 12 else 0) < U64
    split <;> decide
  · exact absurd he (by simp [c6Board])

/-- Witness for C6: the e2–e4 double push on the single-pawn board satisfies
all the claimed conditions, with e2–e3 also generated. -/
theorem c6_witness :
    (BB_RANKS Ranks.R2).testBit (Move.new 14437).from = true ∧
    (compl64 (c6Board.bb_side Sides.WHITE |||
      c6Board.bb_side Sides.BLACK)).testBit ((Move.new 14437).from + 8) =
      true ∧
    (compl64 (c6Board.bb_side Sides.WHITE |||
      c6Board.bb_side Sides.BLACK)).testBit ((Move.new 14437).from + 16) =
      true ∧
    ∃ m2 ∈ [Move.new 10341, Move.new 14437],
      m2.from = (Move.new 14437).from ∧
      m2.to = (Move.new 14437).from + 8 := by
  have h : pawnsMoves c6Board = some [Move.new 10341, Move.new 14437] := rfl
  exact (c6_double_push_only_from_start_rank c6Board_wf h (Move.new 14437)
    (by decide)).1 rfl (by decide)

/- ===== Castling: what the generator actually checks ===== -/

theorem get_non_slider_attacks_king (square : Nat) :
    get_non_slider_attacks Pieces.KING square = some (kingTable square) := rfl

theorem get_non_slider_attacks_knight (square : Nat) :
    get_non_slider_attacks Pieces.KNIGHT square = some (knightTable square) :=
  rfl

/-- Closed-form value of `square_attacked` on the generator built by
`MoveGenerator::new()` (any square below 64). -/
theorem square_attacked_eval {mg : MoveGen}
    (hrk : ∀ sq occ, sq < 64 → get_slider_attacks mg Pieces.ROOK sq occ =
      some (rook_attack_board sq (occ &&& rook_mask sq)))
    (hbs : ∀ sq occ, sq < 64 → get_slider_attacks mg Pieces.BISHOP sq occ =
      some (bishop_attack_board sq (occ &&& bishop_mask sq)))
    (board : Board) (attacker square : Nat) (hsq : square < 64) :
    square_attacked mg board attacker square =
      some (decide (kingTable square &&&
          board.bb_pieces attacker Pieces.KING > 0) ||
        decide (rook_attack_board square
            ((board.bb_side Sides.WHITE ||| board.bb_side Sides.BLACK) &&&
              rook_mask square) &&&
          board.bb_pieces attacker Pieces.ROOK > 0) ||
        decide (bishop_attack_board square
            ((board.bb_side Sides.WHITE ||| board.bb_side Sides.BLACK) &&&
              bishop_mask square) &&&
          board.bb_pieces attacker Pieces.BISHOP > 0) ||
        decide ((rook_attack_board square
            ((board.bb_side Sides.WHITE ||| board.bb_side Sides.BLACK) &&&
              rook_mask square) |||
          bishop_attack_board square
            ((board.bb_side Sides.WHITE ||| board.bb_side Sides.BLACK) &&&
              bishop_mask square)) &&&
          board.bb_pieces attacker Pieces.QUEEN > 0) ||
        decide (knightTable square &&&
          board.bb_pieces attacker Pieces.KNIGHT > 0) ||
        decide (pawnTable (attacker ^^^ 1) square &&&
          board.bb_pieces attacker Pieces.PAWN > 0)) := by
  simp only [square_attacked]
  rw [get_non_slider_attacks_king, get_non_slider_attacks_knight,
    hrk square (board.bb_side Sides.WHITE ||| board.bb_side Sides.BLACK) hsq,
    hbs square (board.bb_side Sides.WHITE ||| board.bb_side Sides.BLACK) hsq,
    Option.some_bind, Option.some_bind, Option.some_bind, Option.map_some']

/-- The en-passant flag is only ever set for pawn moves. -/
theorem epFlag_nonpawn (board : Board) (piece t : Nat)
    (h : ¬piece = Pieces.PAWN) : epFlag board piece t = false := by
  simp only [epFlag]
  cases board.state.en_passant with
  | none => rfl
  | some sq =>
    show (decide (piece = Pieces.PAWN) && decide (sq = t)) = false
    rw [decide_eq_false h, Bool.false_and]

/-- Closed-form value of one castling side check, given the values of the two
`square_attacked` calls. -/
theorem castleSide_eval {mg : MoveGen} {board : Board}
    {opponent bb_occupancy bb_blockers sqA sqB fromSq toBB : Nat}
    {a b : Bool}
    (hA : square_attacked mg board opponent sqA = some a)
    (hB : square_attacked mg board opponent sqB = some b) :
    castleSide mg board opponent bb_occupancy bb_blockers sqA sqB fromSq
      toBB =
      some (if (bb_occupancy &&& bb_blockers) > 0 then []
        else if a then [] else if b then []
        else add_moves board Pieces.KING fromSq toBB) := by
  simp only [castleSide]
  by_cases hblk : (bb_occupancy &&& bb_blockers) > 0
  · rw [if_pos (decide_eq_true hblk), if_pos hblk]
  · rw [if_neg (fun hc => hblk (of_decide_eq_true hc)), if_neg hblk, hA,
      Option.some_bind]
    cases a with
    | true => rfl
    | false =>
      show Option.map _ (square_attacked mg board opponent sqB) = _
      rw [hB, Option.map_some']
      cases b with
      | true => rfl
      | false => rfl

/-- White king on b1, white knight on c1, white rook on h1, only the `WK`
castling right set: the board exhibiting the fixed-square castling checks. -/
def c5Board : Board :=
  ⟨fun s p => if s = 0 ∧ p = Pieces.KING then 2
    else if s = 0 ∧ p = Pieces.KNIGHT then 4
    else if s = 0 ∧ p = Pieces.ROOK then 128 else 0,
   fun s => if s = 0 then 134 else 0,
   ⟨0, 1, none, 0, 0, fun _ => 0⟩⟩

theorem c5Board_wf : c5Board.wf := by
  refine ⟨fun s p => ?_, fun s => ?_, by decide, fun e he => ?_⟩
  · show (if s = 0 ∧ p = Pieces.KING then 2
      else if s = 0 ∧ p = Pieces.KNIGHT then 4
      else if s = 0 ∧ p = Pieces.ROOK then 128 else 0) < U64
    split
    · decide
    · split
      · decide
      · split <;> decide
  · show (if s = 0 then 134 else 0) < U64
    split <;> decide
  · exact absurd he (by simp [c5Board])

/-- Counterexample to C5 as stated: with the white king on b1 and a white
knight on c1 — strictly between the king and the h1 rook — the generator
still emits a "castling" king move b1→d1, because `castling` checks the
fixed squares f1/g1 (blockers) and f1/e1 (attacks) and shifts the actual
king square by two, regardless of where the king stands. -/
theorem c5_counterexample :
    c5Board.wf ∧
    c5Board.bb_side Sides.WHITE &&& BB_SQUARES Squares.C1 ≠ 0 ∧
    Option.map (fun mg => castlingMoves mg c5Board) MoveGenerator.new =
      some (some [Move.new 1544]) ∧
    (Move.new 1544).piece = Pieces.KING ∧
    (Move.new 1544).from = Squares.B1 ∧ (Move.new 1544).to = Squares.D1 := by
  obtain ⟨mg, hmg, hrk, hbs, _⟩ := MoveGenerator_new_spec
  have hsaF1 : square_attacked mg c5Board 1 Squares.F1 = some false := by
    rw [square_attacked_eval hrk hbs c5Board 1 Squares.F1 (by decide)]
    decide
  have hsaE1 : square_attacked mg c5Board 1 Squares.E1 = some false := by
    rw [square_attacked_eval hrk hbs c5Board 1 Squares.E1 (by decide)]
    decide
  have hks : castleSide mg c5Board c5Board.opponent
      (c5Board.bb_side Sides.WHITE ||| c5Board.bb_side Sides.BLACK)
      (BB_SQUARES Squares.F1 ||| BB_SQUARES Squares.G1) Squares.F1 Squares.E1
      (trailing_zeros (c5Board.bb_pieces c5Board.current_side Pieces.KING))
      ((BB_SQUARES (trailing_zeros (c5Board.bb_pieces c5Board.current_side
        Pieces.KING)) <<< 2) % U64) = some [Move.new 1544] := by
    rw [(by decide : trailing_zeros (c5Board.bb_pieces c5Board.current_side
      Pieces.KING) = 1)]
    rw [show c5Board.opponent = 1 from rfl]
    rw [castleSide_eval hsaF1 hsaE1]
    decide
  have hcm : castlingMoves mg c5Board = some [Move.new 1544] := by
    simp only [castlingMoves]
    rw [if_neg (by decide : ¬(c5Board.bb_pieces c5Board.current_side
      Pieces.KING = 0))]
    rw [if_pos (by decide : (decide (c5Board.current_side = Sides.WHITE) &&
      decide ((c5Board.state.castling &&& (Castling.WK ||| Castling.WQ)) >
        0)) = true)]
    rw [if_pos (by decide : (c5Board.state.castling &&& Castling.WK) > 0)]
    rw [if_neg (by decide : ¬((c5Board.state.castling &&& Castling.WQ) > 0))]
    rw [if_neg (by decide : ¬((decide (c5Board.current_side = Sides.BLACK) &&
      decide ((c5Board.state.castling &&& (Castling.BK ||| Castling.BQ)) >
        0)) = true))]
    rw [hks]
    rfl
  refine ⟨c5Board_wf, by decide, ?_, by decide, by decide, by decide⟩
  rw [hmg, Option.map_some', hcm]

/- ===== C5: the castling conditions, on the fixed home squares ===== -/

theorem or_eq_zero_parts {a b : Nat} (h : a ||| b = 0) : a = 0 ∧ b = 0 := by
  constructor
  · apply Nat.eq_of_testBit_eq
    intro i
    rw [Nat.zero_testBit]
    have hb := congrArg (fun x => Nat.testBit x i) h
    simp only [Nat.testBit_or, Nat.zero_testBit, Bool.or_eq_false_iff] at hb
    exact hb.1
  · apply Nat.eq_of_testBit_eq
    intro i
    rw [Nat.zero_testBit]
    have hb := congrArg (fun x => Nat.testBit x i) h
    simp only [Nat.testBit_or, Nat.zero_testBit, Bool.or_eq_false_iff] at hb
    exact hb.2

/-- Positivity of `c &&& (a ||| b)` splits over the two mask parts. -/
theorem and_or_pos (c a b : Nat) :
    c &&& (a ||| b) > 0 ↔ (c &&& a > 0 ∨ c &&& b > 0) := by
  rw [Nat.and_or_distrib_left]
  constructor
  · intro h
    by_contra hc
    push_neg at hc
    have ha : c &&& a = 0 := by omega
    have hb : c &&& b = 0 := by omega
    rw [ha, hb] at h
    simp at h
  · intro h
    rcases Nat.eq_zero_or_pos ((c &&& a) ||| (c &&& b)) with h0 | hp
    · obtain ⟨h1, h2⟩ := or_eq_zero_parts h0
      omega
    · exact hp

/-- `add_moves` for a castling king step: one destination bit, one move. -/
theorem add_moves_castle (board : Board) (fromSq toBB t w : Nat)
    (hb : bitSquares toBB = [t])
    (hw : Pieces.KING ||| (fromSq <<< 3) ||| (t <<< 9) ||| (0 <<< 15) |||
      ((false : Bool).toNat <<< 21) ||| ((false : Bool).toNat <<< 22) |||
      ((false : Bool).toNat <<< 23) = w) :
    add_moves board Pieces.KING fromSq toBB = [Move.new w] := by
  simp only [add_moves]
  rw [hb, List.flatMap_cons, List.flatMap_nil, addMovesAt_eq,
    epFlag_nonpawn board Pieces.KING t (by decide), List.append_nil, hw]

/-- One wing of `castling` — the ite on its right bit around `castleSide` —
emits the king move `mv` exactly when the right is granted, the fixed squares
between the home squares are free and the two tested squares are safe; and it
emits nothing but `mv`. -/
theorem castle_wing_spec {mg : MoveGen} {board : Board}
    {opp occ blk sqA sqB fromSq toBB c k : Nat} {aA aB : Bool} {mv : Move}
    {L : List Move}
    (haA : square_attacked mg board opp sqA = some aA)
    (haB : square_attacked mg board opp sqB = some aB)
    (hadd : add_moves board Pieces.KING fromSq toBB = [mv])
    (hL : (if c &&& k > 0 then
        castleSide mg board opp occ blk sqA sqB fromSq toBB
      else some []) = some L) :
    (mv ∈ L ↔
      (c &&& k > 0 ∧ occ &&& blk = 0 ∧
        square_attacked mg board opp sqA = some false ∧
        square_attacked mg board opp sqB = some false)) ∧
    (∀ x ∈ L, x = mv) := by
  by_cases hc : c &&& k > 0
  · rw [if_pos hc, castleSide_eval haA haB] at hL
    replace hL := Option.some.inj hL
    by_cases hblk : occ &&& blk > 0
    · rw [if_pos hblk] at hL
      rw [← hL]
      refine ⟨⟨fun h => absurd h (List.not_mem_nil mv), ?_⟩,
        fun x hx => absurd hx (List.not_mem_nil x)⟩
      rintro ⟨-, h0, -, -⟩
      omega
    · rw [if_neg hblk] at hL
      cases aA with
      | true =>
        rw [if_pos rfl] at hL
        rw [← hL]
        refine ⟨⟨fun h => absurd h (List.not_mem_nil mv), ?_⟩,
          fun x hx => absurd hx (List.not_mem_nil x)⟩
        rintro ⟨-, -, hA0, -⟩
        rw [haA] at hA0
        exact Bool.noConfusion (Option.some.inj hA0)
      | false =>
        rw [if_neg Bool.false_ne_true] at hL
        cases aB with
        | true =>
          rw [if_pos rfl] at hL
          rw [← hL]
          refine ⟨⟨fun h => absurd h (List.not_mem_nil mv), ?_⟩,
            fun x hx => absurd hx (List.not_mem_nil x)⟩
          rintro ⟨-, -, -, hB0⟩
          rw [haB] at hB0
          exact Bool.noConfusion (Option.some.inj hB0)
        | false =>
          rw [if_neg Bool.false_ne_true, hadd] at hL
          rw [← hL]
          constructor
          · constructor
            · intro hm
              exact ⟨hc, by omega, haA, haB⟩
            · intro hr
              exact List.mem_cons_self mv []
          · intro x hx
            simp only [List.mem_cons, List.not_mem_nil, or_false] at hx
            exact hx
  · rw [if_neg hc] at hL
    replace hL := Option.some.inj hL
    rw [← hL]
    refine ⟨⟨fun h => absurd h (List.not_mem_nil mv), ?_⟩,
      fun x hx => absurd hx (List.not_mem_nil x)⟩
    rintro ⟨h1, -, -, -⟩
    exact absurd h1 hc

/-- C5 (amended): `castling` checks the FIXED home squares, not squares
relative to the actual king and rook positions (`c5_counterexample` shows the
divergence on a board with a displaced king).  On a board whose side to move
has its king on its home square — the only positions castling rights are
meant for — a castling move is generated if and only if the corresponding
right bit is set, no piece occupies the squares between the king and rook
home squares, and the king's current and transit squares are not attacked by
the opponent as decided by `square_attacked`; and it is emitted as a king
move two squares toward that rook (e1→g1, e1→c1, e8→g8, e8→c8). -/
theorem c5_castling_fixed_home_square_conditions {board : Board}
    {mg : MoveGen} {ms : List Move}
    (hnew : MoveGenerator.new = some mg)
    (hcm : castlingMoves mg board = some ms) :
    (board.current_side = Sides.WHITE →
      board.bb_pieces Sides.WHITE Pieces.KING = BB_SQUARES Squares.E1 →
      (((∃ m ∈ ms, m.piece = Pieces.KING ∧ m.from = Squares.E1 ∧
          m.to = Squares.G1) ↔
        (board.state.castling &&& Castling.WK > 0 ∧
          (board.bb_side Sides.WHITE ||| board.bb_side Sides.BLACK) &&&
            (BB_SQUARES Squares.F1 ||| BB_SQUARES Squares.G1) = 0 ∧
          square_attacked mg board board.opponent Squares.F1 = some false ∧
          square_attacked mg board board.opponent Squares.E1 =
            some false)) ∧
       ((∃ m ∈ ms, m.piece = Pieces.KING ∧ m.from = Squares.E1 ∧
          m.to = Squares.C1) ↔
        (board.state.castling &&& Castling.WQ > 0 ∧
          (board.bb_side Sides.WHITE ||| board.bb_side Sides.BLACK) &&&
            (BB_SQUARES Squares.B1 ||| BB_SQUARES Squares.C1 |||
              BB_SQUARES Squares.D1) = 0 ∧
          square_attacked mg board board.opponent Squares.E1 = some false ∧
          square_attacked mg board board.opponent Squares.D1 =
            some false)))) ∧
    (board.current_side = Sides.BLACK →
      board.bb_pieces Sides.BLACK Pieces.KING = BB_SQUARES Squares.E8 →
      (((∃ m ∈ ms, m.piece = Pieces.KING ∧ m.from = Squares.E8 ∧
          m.to = Squares.G8) ↔
        (board.state.castling &&& Castling.BK > 0 ∧
          (board.bb_side Sides.WHITE ||| board.bb_side Sides.BLACK) &&&
            (BB_SQUARES Squares.F8 ||| BB_SQUARES Squares.G8) = 0 ∧
          square_attacked mg board board.opponent Squares.F8 = some false ∧
          square_attacked mg board board.opponent Squares.E8 =
            some false)) ∧
       ((∃ m ∈ ms, m.piece = Pieces.KING ∧ m.from = Squares.E8 ∧
          m.to = Squares.C8) ↔
        (board.state.castling &&& Castling.BQ > 0 ∧
          (board.bb_side Sides.WHITE ||| board.bb_side Sides.BLACK) &&&
            (BB_SQUARES Squares.B8 ||| BB_SQUARES Squares.C8 |||
              BB_SQUARES Squares.D8) = 0 ∧
          square_attacked mg board board.opponent Squares.E8 = some false ∧
          square_attacked mg board board.opponent Squares.D8 =
            some false)))) := by
  obtain ⟨mg2, hmg2, hrk, hbs, -⟩ := MoveGenerator_new_spec
  rw [hnew] at hmg2
  obtain rfl := Option.some.inj hmg2
  constructor
  · intro hcs hk
    obtain ⟨aF, haF⟩ : ∃ b, square_attacked mg board board.opponent
        Squares.F1 = some b :=
      ⟨_, square_attacked_eval hrk hbs board board.opponent Squares.F1
        (by decide)⟩
    obtain ⟨aE, haE⟩ : ∃ b, square_attacked mg board board.opponent
        Squares.E1 = some b :=
      ⟨_, square_attacked_eval hrk hbs board board.opponent Squares.E1
        (by decide)⟩
    obtain ⟨aD, haD⟩ : ∃ b, square_attacked mg board board.opponent
        Squares.D1 = some b :=
      ⟨_, square_attacked_eval hrk hbs board board.opponent Squares.D1
        (by decide)⟩
    simp only [castlingMoves] at hcm
    rw [hcs, hk] at hcm
    rw [if_neg (by decide : ¬(BB_SQUARES Squares.E1 = 0))] at hcm
    rw [(by decide : trailing_zeros (BB_SQUARES Squares.E1) = Squares.E1)]
      at hcm
    rw [(by decide : decide (Sides.WHITE = Sides.BLACK) = false),
      Bool.false_and, if_neg Bool.false_ne_true] at hcm
    rw [(by decide : decide (Sides.WHITE = Sides.WHITE) = true),
      Bool.true_and] at hcm
    by_cases hperm : board.state.castling &&& (Castling.WK ||| Castling.WQ)
        > 0
    · rw [if_pos (decide_eq_true hperm)] at hcm
      obtain ⟨w, e, hwO, heO, hms⟩ := optAppend_eq_some hcm
      obtain ⟨ksL, qsL, hksL, hqsL, hwe⟩ := optAppend_eq_some hwO
      have he2 : e = [] := (Option.some.inj heO).symm
      subst hms
      subst hwe
      subst he2
      have hK := castle_wing_spec haF haE
        (add_moves_castle board Squares.E1
          ((BB_SQUARES Squares.E1 <<< 2) % U64) Squares.G1 3104
          (by decide) (by decide)) hksL
      have hQ := castle_wing_spec haE haD
        (add_moves_castle board Squares.E1 (BB_SQUARES Squares.E1 >>> 2)
          Squares.C1 1056 (by decide) (by decide)) hqsL
      constructor
      · constructor
        · rintro ⟨m, hm, hp, hf, ht⟩
          simp only [List.append_nil, List.mem_append] at hm
          rcases hm with hm | hm
          · rw [hK.2 m hm] at hm
            exact hK.1.mp hm
          · rw [hQ.2 m hm] at ht
            exact absurd ht (by decide)
        · intro hr
          refine ⟨Move.new 3104, ?_, by decide, by decide, by decide⟩
          simp only [List.append_nil, List.mem_append]
          exact Or.inl (hK.1.mpr hr)
      · constructor
        · rintro ⟨m, hm, hp, hf, ht⟩
          simp only [List.append_nil, List.mem_append] at hm
          rcases hm with hm | hm
          · rw [hK.2 m hm] at ht
            exact absurd ht (by decide)
          · rw [hQ.2 m hm] at hm
            exact hQ.1.mp hm
        · intro hr
          refine ⟨Move.new 1056, ?_, by decide, by decide, by decide⟩
          simp only [List.append_nil, List.mem_append]
          exact Or.inr (hQ.1.mpr hr)
    · rw [if_neg (fun hcc => hperm (of_decide_eq_true hcc))] at hcm
      rw [show optAppend (some ([] : List Move)) (some []) = some [] from
        rfl] at hcm
      have hms : ms = [] := (Option.some.inj hcm).symm
      subst hms
      have hwk0 : ¬(board.state.castling &&& Castling.WK > 0) :=
        fun h => hperm ((and_or_pos board.state.castling Castling.WK
          Castling.WQ).mpr (Or.inl h))
      have hwq0 : ¬(board.state.castling &&& Castling.WQ > 0) :=
        fun h => hperm ((and_or_pos board.state.castling Castling.WK
          Castling.WQ).mpr (Or.inr h))
      refine ⟨⟨?_, ?_⟩, ⟨?_, ?_⟩⟩
      · rintro ⟨m, hm, -⟩
        exact absurd hm (List.not_mem_nil m)
      · rintro ⟨h1, -, -, -⟩
        exact absurd h1 hwk0
      · rintro ⟨m, hm, -⟩
        exact absurd hm (List.not_mem_nil m)
      · rintro ⟨h1, -, -, -⟩
        exact absurd h1 hwq0
  · intro hcs hk
    obtain ⟨aF, haF⟩ : ∃ b, square_attacked mg board board.opponent
        Squares.F8 = some b :=
      ⟨_, square_attacked_eval hrk hbs board board.opponent Squares.F8
        (by decide)⟩
    obtain ⟨aE, haE⟩ : ∃ b, square_attacked mg board board.opponent
        Squares.E8 = some b :=
      ⟨_, square_attacked_eval hrk hbs board board.opponent Squares.E8
        (by decide)⟩
    obtain ⟨aD, haD⟩ : ∃ b, square_attacked mg board board.opponent
        Squares.D8 = some b :=
      ⟨_, square_attacked_eval hrk hbs board board.opponent Squares.D8
        (by decide)⟩
    simp only [castlingMoves] at hcm
    rw [hcs, hk] at hcm
    rw [if_neg (by decide : ¬(BB_SQUARES Squares.E8 = 0))] at hcm
    rw [(by decide : trailing_zeros (BB_SQUARES Squares.E8) = Squares.E8)]
      at hcm
    rw [(by decide : decide (Sides.BLACK = Sides.WHITE) = false),
      Bool.false_and, if_neg Bool.false_ne_true] at hcm
    rw [(by decide : decide (Sides.BLACK = Sides.BLACK) = true),
      Bool.true_and] at hcm
    by_cases hperm : board.state.castling &&& (Castling.BK ||| Castling.BQ)
        > 0
    · rw [if_pos (decide_eq_true hperm)] at hcm
      obtain ⟨w, e, hwO, heO, hms⟩ := optAppend_eq_some hcm
      obtain ⟨ksL, qsL, hksL, hqsL, hwe⟩ := optAppend_eq_some heO
      have hw2 : w = [] := (Option.some.inj hwO).symm
      subst hms
      subst hwe
      subst hw2
      have hK := castle_wing_spec haF haE
        (add_moves_castle board Squares.E8
          ((BB_SQUARES Squares.E8 <<< 2) % U64) Squares.G8 32224
          (by decide) (by decide)) hksL
      have hQ := castle_wing_spec haE haD
        (add_moves_castle board Squares.E8 (BB_SQUARES Squares.E8 >>> 2)
          Squares.C8 30176 (by decide) (by decide)) hqsL
      constructor
      · constructor
        · rintro ⟨m, hm, hp, hf, ht⟩
          simp only [List.nil_append, List.mem_append] at hm
          rcases hm with hm | hm
          · rw [hK.2 m hm] at hm
            exact hK.1.mp hm
          · rw [hQ.2 m hm] at ht
            exact absurd ht (by decide)
        · intro hr
          refine ⟨Move.new 32224, ?_, by decide, by decide, by decide⟩
          simp only [List.nil_append, List.mem_append]
          exact Or.inl (hK.1.mpr hr)
      · constructor
        · rintro ⟨m, hm, hp, hf, ht⟩
          simp only [List.nil_append, List.mem_append] at hm
          rcases hm with hm | hm
          · rw [hK.2 m hm] at ht
            exact absurd ht (by decide)
          · rw [hQ.2 m hm] at hm
            exact hQ.1.mp hm
        · intro hr
          refine ⟨Move.new 30176, ?_, by decide, by decide, by decide⟩
          simp only [List.nil_append, List.mem_append]
          exact Or.inr (hQ.1.mpr hr)
    · rw [if_neg (fun hcc => hperm (of_decide_eq_true hcc))] at hcm
      rw [show optAppend (some ([] : List Move)) (some []) = some [] from
        rfl] at hcm
      have hms : ms = [] := (Option.some.inj hcm).symm
      subst hms
      have hbk0 : ¬(board.state.castling &&& Castling.BK > 0) :=
        fun h => hperm ((and_or_pos board.state.castling Castling.BK
          Castling.BQ).mpr (Or.inl h))
      have hbq0 : ¬(board.state.castling &&& Castling.BQ > 0) :=
        fun h => hperm ((and_or_pos board.state.castling Castling.BK
          Castling.BQ).mpr (Or.inr h))
      refine ⟨⟨?_, ?_⟩, ⟨?_, ?_⟩⟩
      · rintro ⟨m, hm, -⟩
        exact absurd hm (List.not_mem_nil m)
      · rintro ⟨h1, -, -, -⟩
        exact absurd h1 hbk0
      · rintro ⟨m, hm, -⟩
        exact absurd hm (List.not_mem_nil m)
      · rintro ⟨h1, -, -, -⟩
        exact absurd h1 hbq0

/-- A white castling home position: king e1, rook h1, the `WK` right set. -/
def c5wBoard : Board :=
  ⟨fun s p => if s = 0 ∧ p = Pieces.KING then 16
    else if s = 0 ∧ p = Pieces.ROOK then 128 else 0,
   fun s => if s = 0 then 144 else 0,
   ⟨0, 1, none, 0, 0, fun _ => 0⟩⟩

/-- Witness for C5 on `c5wBoard`: the castling conditions hold there, so the
kingside castling king move e1→g1 is generated. -/
theorem c5_witness :
    ∃ mg ms m, MoveGenerator.new = some mg ∧
      castlingMoves mg c5wBoard = some ms ∧ m ∈ ms ∧
      m.piece = Pieces.KING ∧ m.from = Squares.E1 ∧ m.to = Squares.G1 := by
  obtain ⟨mg, hmg, hrk, hbs, -⟩ := MoveGenerator_new_spec
  have haF : square_attacked mg c5wBoard c5wBoard.opponent Squares.F1 =
      some false := by
    rw [square_attacked_eval hrk hbs c5wBoard c5wBoard.opponent Squares.F1
      (by decide)]
    decide
  have haE : square_attacked mg c5wBoard c5wBoard.opponent Squares.E1 =
      some false := by
    rw [square_attacked_eval hrk hbs c5wBoard c5wBoard.opponent Squares.E1
      (by decide)]
    decide
  have hks : castleSide mg c5wBoard c5wBoard.opponent
      (c5wBoard.bb_side Sides.WHITE ||| c5wBoard.bb_side Sides.BLACK)
      (BB_SQUARES Squares.F1 ||| BB_SQUARES Squares.G1) Squares.F1
      Squares.E1
      (trailing_zeros (c5wBoard.bb_pieces c5wBoard.current_side
        Pieces.KING))
      ((BB_SQUARES (trailing_zeros (c5wBoard.bb_pieces
        c5wBoard.current_side Pieces.KING)) <<< 2) % U64) =
      some [Move.new 3104] := by
    rw [(by decide : trailing_zeros (c5wBoard.bb_pieces
      c5wBoard.current_side Pieces.KING) = 4)]
    rw [castleSide_eval haF haE]
    decide
  have hcm : castlingMoves mg c5wBoard = some [Move.new 3104] := by
    simp only [castlingMoves]
    rw [if_neg (by decide : ¬(c5wBoard.bb_pieces c5wBoard.current_side
      Pieces.KING = 0))]
    rw [if_pos (by decide : (decide (c5wBoard.current_side = Sides.WHITE) &&
      decide ((c5wBoard.state.castling &&& (Castling.WK ||| Castling.WQ)) >
        0)) = true)]
    rw [if_pos (by decide : (c5wBoard.state.castling &&& Castling.WK) > 0)]
    rw [if_neg (by decide : ¬((c5wBoard.state.castling &&& Castling.WQ) >
      0))]
    rw [if_neg (by decide : ¬((decide (c5wBoard.current_side =
      Sides.BLACK) && decide ((c5wBoard.state.castling &&&
        (Castling.BK ||| Castling.BQ)) > 0)) = true))]
    rw [hks]
    rfl
  have hiff := (c5_castling_fixed_home_square_conditions hmg hcm).1 rfl
    (by decide)
  obtain ⟨m, hm, h1, h2, h3⟩ := hiff.1.mpr ⟨by decide, by decide, haF, haE⟩
  exact ⟨mg, [Move.new 3104], m, hmg, hcm, hm, h1, h2, h3⟩

/- ===== C4: totality of generate_moves ===== -/

theorem optAppend_none_right (x : Option (List Move)) :
    optAppend x none = none := by
  cases x <;> rfl

theorem optAppend_none_left (x : Option (List Move)) :
    optAppend none x = none := by
  cases x <;> rfl

/-- White pawn on a8: the single push leaves the board, `BB_SQUARES[64]`
panics, so `pawns` — and with it `generate_moves` — aborts even though the
board is well-formed. -/
def c4Board : Board :=
  ⟨fun s p => if s = 0 ∧ p = Pieces.PAWN then 2 ^ 56 else 0,
   fun s => if s = 0 then 2 ^ 56 else 0,
   ⟨0, 0, none, 0, 0, fun _ => 0⟩⟩

theorem c4Board_wf : c4Board.wf := by
  refine ⟨fun s p => ?_, fun s => ?_, by decide, fun e he => ?_⟩
  · show (if s = 0 ∧ p = Pieces.PAWN then 2 ^ 56 else 0) < U64
    split <;> decide
  · show (if s = 0 then 2 ^ 56 else 0) < U64
    split <;> decide
  · exact absurd he (by simp [c4Board])

/-- Counterexample to C4 as stated: the well-formed board with a single white
pawn on a8 makes `pawns` hit the out-of-range `BB_SQUARES[64]` lookup, so
`generate_moves` panics (returns `none`) for every generator value. -/
theorem c4_counterexample :
    c4Board.wf ∧ pawnsMoves c4Board = none ∧
    ∀ mg : MoveGen, generate_moves mg c4Board = none := by
  refine ⟨c4Board_wf, rfl, fun mg => ?_⟩
  simp only [generate_moves]
  rw [show pawnsMoves c4Board = none from rfl, optAppend_none_right,
    optAppend_none_left]

theorem option_map_some_of {α β : Type} {f : α → β} {x : Option α} {a : α}
    (h : x = some a) : Option.map f x = some (f a) := by
  rw [h, Option.map_some']

/-- If every loop body succeeds, the whole square loop succeeds. -/
theorem genConcat_some (f : Nat → Option (List Move)) : ∀ (l : List Nat),
    (∀ x ∈ l, ∃ y, f x = some y) → ∃ ys, genConcat f l = some ys := by
  intro l
  induction l with
  | nil =>
    intro h
    exact ⟨[], rfl⟩
  | cons a rest ih =>
    intro h
    obtain ⟨y, hy⟩ := h a (List.mem_cons_self a rest)
    obtain ⟨ys, hys⟩ := ih (fun x hx => h x (List.mem_cons_of_mem a hx))
    refine ⟨y ++ ys, ?_⟩
    simp only [genConcat]
    rw [hy, hys]

theorem ite_opt_some {c : Prop} [inst : Decidable c] {x : Option (List Move)}
    (hx : ∃ l, x = some l) : ∃ l, (if c then x else some []) = some l := by
  by_cases h : c
  · rw [if_pos h]
    exact hx
  · rw [if_neg h]
    exact ⟨[], rfl⟩

theorem optAppend_some {x y : Option (List Move)}
    (hx : ∃ a, x = some a) (hy : ∃ b, y = some b) :
    ∃ c, optAppend x y = some c := by
  obtain ⟨a, ha⟩ := hx
  obtain ⟨b, hb⟩ := hy
  refine ⟨a ++ b, ?_⟩
  rw [ha, hb]
  rfl

/-- The white pawn-loop body succeeds whenever the pawn is not on the final
rank (the push target stays on the board) and the en-passant target, if any,
is a square. -/
theorem pawnMovesFrom_some_white (board : Board)
    (bbOpp bbEmpty bbFourth f : Nat) (hf : f + 8 < 64)
    (hep : ∀ e, board.state.en_passant = some e → e < 64) :
    ∃ l, pawnMovesFrom board 0 bbOpp bbEmpty bbFourth true f = some l := by
  simp only [pawnMovesFrom]
  have hpt1 : bbSquaresOpt (pawnPushTarget f true) = some (1 <<< (f + 8)) := by
    show bbSquaresOpt (f + 8) = some (1 <<< (f + 8))
    simp only [bbSquaresOpt]
    rw [if_pos hf]
  rw [hpt1, Option.some_bind]
  cases hepc : board.state.en_passant with
  | none => exact ⟨_, rfl⟩
  | some e =>
    have hbe : bbSquaresOpt e = some (1 <<< e) := by
      simp only [bbSquaresOpt]
      rw [if_pos (hep e hepc)]
    exact ⟨_, option_map_some_of hbe⟩

/-- The black pawn-loop body succeeds whenever the pawn is not on its final
rank (rank 1) and the en-passant target, if any, is a square. -/
theorem pawnMovesFrom_some_black (board : Board)
    (bbOpp bbEmpty bbFourth f : Nat) (hf8 : 8 ≤ f) (hf : f < 64)
    (hep : ∀ e, board.state.en_passant = some e → e < 64) :
    ∃ l, pawnMovesFrom board 1 bbOpp bbEmpty bbFourth false f = some l := by
  simp only [pawnMovesFrom]
  have hpt0 : pawnPushTarget f false = (f + (U64 - 8)) % U64 := by
    simp only [pawnPushTarget, Bool.false_eq_true, if_false]
  have hU : U64 = 2 ^ 64 := rfl
  have hveq : (f + (U64 - 8)) % U64 = f - 8 := by
    have h1 : f + (U64 - 8) = (f - 8) + 1 * U64 := by omega
    rw [h1, Nat.add_mul_mod_self_right]
    apply Nat.mod_eq_of_lt
    omega
  have hpt1 : bbSquaresOpt (pawnPushTarget f false) =
      some (1 <<< (f - 8)) := by
    rw [hpt0, hveq]
    simp only [bbSquaresOpt]
    rw [if_pos (by omega : f - 8 < 64)]
  rw [hpt1, Option.some_bind]
  cases hepc : board.state.en_passant with
  | none => exact ⟨_, rfl⟩
  | some e =>
    have hbe : bbSquaresOpt e = some (1 <<< e) := by
      simp only [bbSquaresOpt]
      rw [if_pos (hep e hepc)]
    exact ⟨_, option_map_some_of hbe⟩

theorem pieceMovesFrom_king (mg : MoveGen) (board : Board) (occ own f : Nat) :
    pieceMovesFrom mg board Pieces.KING occ own f =
      Option.map (fun bb_target => add_moves board Pieces.KING f
        (bb_target &&& compl64 own))
        (get_non_slider_attacks Pieces.KING f) := rfl

theorem pieceMovesFrom_knight (mg : MoveGen) (board : Board)
    (occ own f : Nat) :
    pieceMovesFrom mg board Pieces.KNIGHT occ own f =
      Option.map (fun bb_target => add_moves board Pieces.KNIGHT f
        (bb_target &&& compl64 own))
        (get_non_slider_attacks Pieces.KNIGHT f) := rfl

theorem pieceMovesFrom_queen (mg : MoveGen) (board : Board)
    (occ own f : Nat) :
    pieceMovesFrom mg board Pieces.QUEEN occ own f =
      Option.map (fun bb_target => add_moves board Pieces.QUEEN f
        (bb_target &&& compl64 own))
        (get_slider_attacks mg Pieces.QUEEN f occ) := rfl

theorem pieceMovesFrom_rook (mg : MoveGen) (board : Board) (occ own f : Nat) :
    pieceMovesFrom mg board Pieces.ROOK occ own f =
      Option.map (fun bb_target => add_moves board Pieces.ROOK f
        (bb_target &&& compl64 own))
        (get_slider_attacks mg Pieces.ROOK f occ) := rfl

theorem pieceMovesFrom_bishop (mg : MoveGen) (board : Board)
    (occ own f : Nat) :
    pieceMovesFrom mg board Pieces.BISHOP occ own f =
      Option.map (fun bb_target => add_moves board Pieces.BISHOP f
        (bb_target &&& compl64 own))
        (get_slider_attacks mg Pieces.BISHOP f occ) := rfl

/-- `pawns` succeeds iff no mover pawn stands on its final rank (white on
rank 8, black on rank 1). -/
theorem pawnsMoves_some {board : Board}
    (hbb : ∀ s p, board.bb_pieces s p < U64)
    (hact : board.state.active_side < 2)
    (hep : ∀ e, board.state.en_passant = some e → e < 64)
    (hpw : board.current_side = Sides.WHITE →
      board.bb_pieces Sides.WHITE Pieces.PAWN &&& BB_RANKS Ranks.R8 = 0)
    (hpb : board.current_side = Sides.BLACK →
      board.bb_pieces Sides.BLACK Pieces.PAWN &&& BB_RANKS Ranks.R1 = 0) :
    ∃ ms, pawnsMoves board = some ms := by
  simp only [pawnsMoves]
  rcases hcs : board.current_side with _ | _ | n
  · apply genConcat_some
    intro f hf
    have hflt : f < 64 := bitSquares_lt (hbb 0 Pieces.PAWN) f hf
    have hbit : (board.bb_pieces 0 Pieces.PAWN).testBit f = true :=
      (bitSquares_mem_iff (hbb 0 Pieces.PAWN) f).mp hf
    have hz : board.bb_pieces 0 Pieces.PAWN &&& BB_RANKS Ranks.R8 = 0 :=
      hpw hcs
    have hlt56 : f < 56 := by
      by_contra hge
      push_neg at hge
      have hr : ((255 : Nat) <<< 56).testBit f = true :=
        rank_bit_intro hge (by omega)
      have hand := congrArg (fun x => Nat.testBit x f) hz
      simp only [Nat.testBit_and, Nat.zero_testBit] at hand
      rw [show BB_RANKS Ranks.R8 = (255 : Nat) <<< 56 from rfl] at hand
      rw [hbit, hr] at hand
      simp only [Bool.true_and] at hand
      exact Bool.noConfusion hand
    exact pawnMovesFrom_some_white board _ _ _ f (by omega) hep
  · apply genConcat_some
    intro f hf
    have hflt : f < 64 := bitSquares_lt (hbb 1 Pieces.PAWN) f hf
    have hbit : (board.bb_pieces 1 Pieces.PAWN).testBit f = true :=
      (bitSquares_mem_iff (hbb 1 Pieces.PAWN) f).mp hf
    have hz : board.bb_pieces 1 Pieces.PAWN &&& BB_RANKS Ranks.R1 = 0 :=
      hpb hcs
    have hge8 : 8 ≤ f := by
      by_contra hlt8
      push_neg at hlt8
      have hr : ((255 : Nat) <<< 0).testBit f = true :=
        rank_bit_intro (Nat.zero_le f) (by omega)
      have hand := congrArg (fun x => Nat.testBit x f) hz
      simp only [Nat.testBit_and, Nat.zero_testBit] at hand
      rw [show BB_RANKS Ranks.R1 = (255 : Nat) <<< 0 from rfl] at hand
      rw [hbit, hr] at hand
      simp only [Bool.true_and] at hand
      exact Bool.noConfusion hand
    exact pawnMovesFrom_some_black board _ _ _ f hge8 hflt hep
  · have h2 : board.current_side < 2 := hact
    exact absurd h2 (by omega)

/-- `castling` always succeeds on the generator built by
`MoveGenerator::new()`: the only fallible steps are the `square_attacked`
probes of the six fixed squares f1/e1/d1/f8/e8/d8. -/
theorem castlingMoves_some {mg : MoveGen} {board : Board}
    (hrk : ∀ sq occ, sq < 64 → get_slider_attacks mg Pieces.ROOK sq occ =
      some (rook_attack_board sq (occ &&& rook_mask sq)))
    (hbs : ∀ sq occ, sq < 64 → get_slider_attacks mg Pieces.BISHOP sq occ =
      some (bishop_attack_board sq (occ &&& bishop_mask sq))) :
    ∃ ms, castlingMoves mg board = some ms := by
  obtain ⟨aF1, haF1⟩ : ∃ b, square_attacked mg board board.opponent
      Squares.F1 = some b :=
    ⟨_, square_attacked_eval hrk hbs board board.opponent Squares.F1
      (by decide)⟩
  obtain ⟨aE1, haE1⟩ : ∃ b, square_attacked mg board board.opponent
      Squares.E1 = some b :=
    ⟨_, square_attacked_eval hrk hbs board board.opponent Squares.E1
      (by decide)⟩
  obtain ⟨aD1, haD1⟩ : ∃ b, square_attacked mg board board.opponent
      Squares.D1 = some b :=
    ⟨_, square_attacked_eval hrk hbs board board.opponent Squares.D1
      (by decide)⟩
  obtain ⟨aF8, haF8⟩ : ∃ b, square_attacked mg board board.opponent
      Squares.F8 = some b :=
    ⟨_, square_attacked_eval hrk hbs board board.opponent Squares.F8
      (by decide)⟩
  obtain ⟨aE8, haE8⟩ : ∃ b, square_attacked mg board board.opponent
      Squares.E8 = some b :=
    ⟨_, square_attacked_eval hrk hbs board board.opponent Squares.E8
      (by decide)⟩
  obtain ⟨aD8, haD8⟩ : ∃ b, square_attacked mg board board.opponent
      Squares.D8 = some b :=
    ⟨_, square_attacked_eval hrk hbs board board.opponent Squares.D8
      (by decide)⟩
  simp only [castlingMoves]
  by_cases hkk : board.bb_pieces board.current_side Pieces.KING = 0
  · rw [if_pos hkk]
    exact ⟨[], rfl⟩
  · rw [if_neg hkk]
    exact optAppend_some
      (ite_opt_some (optAppend_some
        (ite_opt_some ⟨_, castleSide_eval haF1 haE1⟩)
        (ite_opt_some ⟨_, castleSide_eval haE1 haD1⟩)))
      (ite_opt_some (optAppend_some
        (ite_opt_some ⟨_, castleSide_eval haF8 haE8⟩)
        (ite_opt_some ⟨_, castleSide_eval haE8 haD8⟩)))

/-- C4 (amended): `generate_moves` is NOT total on well-formed board
snapshots — `c4_counterexample` exhibits a well-formed board (white pawn on
a8) on which `pawns` indexes `BB_SQUARES` out of range and the whole
generation panics.  Totality does hold on the generator built by
`MoveGenerator::new()` for every well-formed board, including degenerate
ones (no king, overlapping piece sets), provided no mover pawn stands on its
side's final rank: then no out-of-bounds table access is reachable and a
move list is returned. -/
theorem c4_generate_moves_total_amended {board : Board} {mg : MoveGen}
    (hwf : board.wf) (hnew : MoveGenerator.new = some mg)
    (hpw : board.current_side = Sides.WHITE →
      board.bb_pieces Sides.WHITE Pieces.PAWN &&& BB_RANKS Ranks.R8 = 0)
    (hpb : board.current_side = Sides.BLACK →
      board.bb_pieces Sides.BLACK Pieces.PAWN &&& BB_RANKS Ranks.R1 = 0) :
    ∃ ms, generate_moves mg board = some ms := by
  obtain ⟨hbb, hbs2, hact, hep⟩ := hwf
  obtain ⟨mg2, hmg2, hrk, hbs, hqn⟩ := MoveGenerator_new_spec
  rw [hnew] at hmg2
  obtain rfl := Option.some.inj hmg2
  have hpmf : ∀ piece, (piece = Pieces.KING ∨ piece = Pieces.KNIGHT ∨
      piece = Pieces.QUEEN ∨ piece = Pieces.ROOK ∨ piece = Pieces.BISHOP) →
      ∀ f, f < 64 →
      ∃ l, pieceMovesFrom mg board piece
        (board.bb_side Sides.WHITE ||| board.bb_side Sides.BLACK)
        (board.bb_side board.current_side) f = some l := by
    intro piece hp f hf
    rcases hp with rfl | rfl | rfl | rfl | rfl
    · exact ⟨_, (pieceMovesFrom_king mg board
        (board.bb_side Sides.WHITE ||| board.bb_side Sides.BLACK)
        (board.bb_side board.current_side) f).trans
        (option_map_some_of (get_non_slider_attacks_king f))⟩
    · exact ⟨_, (pieceMovesFrom_knight mg board
        (board.bb_side Sides.WHITE ||| board.bb_side Sides.BLACK)
        (board.bb_side board.current_side) f).trans
        (option_map_some_of (get_non_slider_attacks_knight f))⟩
    · exact ⟨_, (pieceMovesFrom_queen mg board
        (board.bb_side Sides.WHITE ||| board.bb_side Sides.BLACK)
        (board.bb_side board.current_side) f).trans
        (option_map_some_of (hqn f
          (board.bb_side Sides.WHITE ||| board.bb_side Sides.BLACK) hf))⟩
    · exact ⟨_, (pieceMovesFrom_rook mg board
        (board.bb_side Sides.WHITE ||| board.bb_side Sides.BLACK)
        (board.bb_side board.current_side) f).trans
        (option_map_some_of (hrk f
          (board.bb_side Sides.WHITE ||| board.bb_side Sides.BLACK) hf))⟩
    · exact ⟨_, (pieceMovesFrom_bishop mg board
        (board.bb_side Sides.WHITE ||| board.bb_side Sides.BLACK)
        (board.bb_side board.current_side) f).trans
        (option_map_some_of (hbs f
          (board.bb_side Sides.WHITE ||| board.bb_side Sides.BLACK) hf))⟩
  have hpm : ∀ piece, (piece = Pieces.KING ∨ piece = Pieces.KNIGHT ∨
      piece = Pieces.QUEEN ∨ piece = Pieces.ROOK ∨ piece = Pieces.BISHOP) →
      ∃ l, pieceMoves mg board piece = some l := by
    intro piece hp
    simp only [pieceMoves]
    apply genConcat_some
    intro f hf
    exact hpmf piece hp f
      (bitSquares_lt (hbb board.current_side piece) f hf)
  obtain ⟨l0, h0⟩ := hpm Pieces.KING (Or.inl rfl)
  obtain ⟨l1, h1⟩ := hpm Pieces.KNIGHT (Or.inr (Or.inl rfl))
  obtain ⟨l2, h2⟩ := hpm Pieces.QUEEN (Or.inr (Or.inr (Or.inl rfl)))
  obtain ⟨l3, h3⟩ := hpm Pieces.ROOK (Or.inr (Or.inr (Or.inr (Or.inl rfl))))
  obtain ⟨l4, h4⟩ := hpm Pieces.BISHOP
    (Or.inr (Or.inr (Or.inr (Or.inr rfl))))
  obtain ⟨l5, h5⟩ := pawnsMoves_some hbb hact hep hpw hpb
  obtain ⟨l6, h6⟩ := castlingMoves_some hrk hbs
  refine ⟨((((((l0 ++ l1) ++ l2) ++ l3) ++ l4) ++ l5) ++ l6), ?_⟩
  simp only [generate_moves]
  rw [h0, h1, h2, h3, h4, h5, h6]
  rfl

/-- Witness for C4 (amended) on `c3Board` (white pawn on d7). -/
theorem c4_witness :
    ∃ mg ms, MoveGenerator.new = some mg ∧
      generate_moves mg c3Board = some ms := by
  obtain ⟨mg, hmg, -, -, -⟩ := MoveGenerator_new_spec
  obtain ⟨ms, hms⟩ := c4_generate_moves_total_amended c3Board_wf hmg
    (fun _ => by decide) (fun hb => absurd hb (by decide))
  exact ⟨mg, ms, hmg, hms⟩

/- ===== C8: queen attacks are the disjoint union of rook and bishop ===== -/

/-- One `bb_ray` loop step: whatever a step emits against blockers `bbIn` it
also emits against an empty blocker board (blockers only truncate). -/
theorem ray_step_subset {bbSq2 bbIn rec0 : Nat} {r2 : Nat} (j : Nat)
    (hrec : r2.testBit j = true → rec0.testBit j = true)
    (h : (bbSq2 ||| (if bbSq2 &&& bbIn = 0 then r2 else 0)).testBit j =
      true) :
    (bbSq2 ||| (if bbSq2 &&& 0 = 0 then rec0 else 0)).testBit j = true := by
  rw [Nat.testBit_or] at h ⊢
  rcases Bool.or_eq_true_iff.mp h with h1 | h2
  · exact Bool.or_eq_true_iff.mpr (Or.inl h1)
  · apply Bool.or_eq_true_iff.mpr
    right
    rw [if_pos (Nat.and_zero bbSq2)]
    by_cases hb : bbSq2 &&& bbIn = 0
    · rw [if_pos hb] at h2
      exact hrec h2
    · rw [if_neg hb] at h2
      rw [Nat.zero_testBit] at h2
      exact absurd h2 Bool.false_ne_true

/-- Every bit a ray casts against blockers is also cast against the empty
blocker board: blockers only cut rays short. -/
theorem bb_rayAux_subset : ∀ (fuel f r bbSq bbIn : Nat) (dir : Direction)
    (j : Nat), (bb_rayAux fuel f r bbSq bbIn dir).testBit j = true →
    (bb_rayAux fuel f r bbSq 0 dir).testBit j = true := by
  intro fuel
  induction fuel with
  | zero =>
    intro f r bbSq bbIn dir j h
    rw [show bb_rayAux 0 f r bbSq bbIn dir = 0 from rfl,
      Nat.zero_testBit] at h
    exact absurd h Bool.false_ne_true
  | succ fuel ih =>
    intro f r bbSq bbIn dir j h
    cases dir with
    | north =>
      simp only [bb_rayAux] at h ⊢
      by_cases hg : r ≠ Ranks.R8
      · rw [if_pos hg] at h ⊢
        exact ray_step_subset j
          (ih f (r + 1) ((bbSq <<< 8) % U64) bbIn Direction.north j) h
      · rw [if_neg hg] at h
        rw [Nat.zero_testBit] at h
        exact absurd h Bool.false_ne_true
    | east =>
      simp only [bb_rayAux] at h ⊢
      by_cases hg : f ≠ Files.H
      · rw [if_pos hg] at h ⊢
        exact ray_step_subset j
          (ih (f + 1) r ((bbSq <<< 1) % U64) bbIn Direction.east j) h
      · rw [if_neg hg] at h
        rw [Nat.zero_testBit] at h
        exact absurd h Bool.false_ne_true
    | south =>
      simp only [bb_rayAux] at h ⊢
      by_cases hg : r ≠ Ranks.R1
      · rw [if_pos hg] at h ⊢
        exact ray_step_subset j
          (ih f (r - 1) (bbSq >>> 8) bbIn Direction.south j) h
      · rw [if_neg hg] at h
        rw [Nat.zero_testBit] at h
        exact absurd h Bool.false_ne_true
    | west =>
      simp only [bb_rayAux] at h ⊢
      by_cases hg : f ≠ Files.A
      · rw [if_pos hg] at h ⊢
        exact ray_step_subset j
          (ih (f - 1) r (bbSq >>> 1) bbIn Direction.west j) h
      · rw [if_neg hg] at h
        rw [Nat.zero_testBit] at h
        exact absurd h Bool.false_ne_true
    | northWest =>
      simp only [bb_rayAux] at h ⊢
      by_cases hg : r ≠ Ranks.R8 ∧ f ≠ Files.A
      · rw [if_pos hg] at h ⊢
        exact ray_step_subset j
          (ih (f - 1) (r + 1) ((bbSq <<< 7) % U64) bbIn
            Direction.northWest j) h
      · rw [if_neg hg] at h
        rw [Nat.zero_testBit] at h
        exact absurd h Bool.false_ne_true
    | northEast =>
      simp only [bb_rayAux] at h ⊢
      by_cases hg : r ≠ Ranks.R8 ∧ f ≠ Files.H
      · rw [if_pos hg] at h ⊢
        exact ray_step_subset j
          (ih (f + 1) (r + 1) ((bbSq <<< 9) % U64) bbIn
            Direction.northEast j) h
      · rw [if_neg hg] at h
        rw [Nat.zero_testBit] at h
        exact absurd h Bool.false_ne_true
    | southEast =>
      simp only [bb_rayAux] at h ⊢
      by_cases hg : r ≠ Ranks.R1 ∧ f ≠ Files.H
      · rw [if_pos hg] at h ⊢
        exact ray_step_subset j
          (ih (f + 1) (r - 1) (bbSq >>> 7) bbIn Direction.southEast j) h
      · rw [if_neg hg] at h
        rw [Nat.zero_testBit] at h
        exact absurd h Bool.false_ne_true
    | southWest =>
      simp only [bb_rayAux] at h ⊢
      by_cases hg : r ≠ Ranks.R1 ∧ f ≠ Files.A
      · rw [if_pos hg] at h ⊢
        exact ray_step_subset j
          (ih (f - 1) (r - 1) (bbSq >>> 9) bbIn Direction.southWest j) h
      · rw [if_neg hg] at h
        rw [Nat.zero_testBit] at h
        exact absurd h Bool.false_ne_true

theorem rook_attack_subset {sq b j : Nat}
    (h : (rook_attack_board sq b).testBit j = true) :
    (rook_attack_board sq 0).testBit j = true := by
  simp only [rook_attack_board, bb_ray, Nat.testBit_or,
    Bool.or_eq_true] at h ⊢
  rcases h with ((hn | he) | hs) | hw
  · exact Or.inl (Or.inl (Or.inl (bb_rayAux_subset 8 (sq % 8) (sq / 8)
      (BB_SQUARES sq) b Direction.north j hn)))
  · exact Or.inl (Or.inl (Or.inr (bb_rayAux_subset 8 (sq % 8) (sq / 8)
      (BB_SQUARES sq) b Direction.east j he)))
  · exact Or.inl (Or.inr (bb_rayAux_subset 8 (sq % 8) (sq / 8)
      (BB_SQUARES sq) b Direction.south j hs))
  · exact Or.inr (bb_rayAux_subset 8 (sq % 8) (sq / 8)
      (BB_SQUARES sq) b Direction.west j hw)

theorem bishop_attack_subset {sq b j : Nat}
    (h : (bishop_attack_board sq b).testBit j = true) :
    (bishop_attack_board sq 0).testBit j = true := by
  simp only [bishop_attack_board, bb_ray, Nat.testBit_or,
    Bool.or_eq_true] at h ⊢
  rcases h with ((hnw | hne) | hsw) | hse
  · exact Or.inl (Or.inl (Or.inl (bb_rayAux_subset 8 (sq % 8) (sq / 8)
      (BB_SQUARES sq) b Direction.northWest j hnw)))
  · exact Or.inl (Or.inl (Or.inr (bb_rayAux_subset 8 (sq % 8) (sq / 8)
      (BB_SQUARES sq) b Direction.northEast j hne)))
  · exact Or.inl (Or.inr (bb_rayAux_subset 8 (sq % 8) (sq / 8)
      (BB_SQUARES sq) b Direction.southWest j hsw))
  · exact Or.inr (bb_rayAux_subset 8 (sq % 8) (sq / 8)
      (BB_SQUARES sq) b Direction.southEast j hse)

set_option maxHeartbeats 1000000 in
theorem rook_bishop_disjoint_zero_dec :
    ((List.range 64).all (fun sq =>
      decide (rook_attack_board sq 0 &&& bishop_attack_board sq 0 = 0))) =
      true := by decide

theorem rook_bishop_disjoint_zero {sq : Nat} (h : sq < 64) :
    rook_attack_board sq 0 &&& bishop_attack_board sq 0 = 0 := by
  have hq := List.all_eq_true.mp rook_bishop_disjoint_zero_dec sq
    (List.mem_range.mpr h)
  simpa using hq

/-- From any square, the rook rays and the bishop rays are disjoint, for any
pair of blocker boards. -/
theorem rook_bishop_attack_disjoint {sq : Nat} (h : sq < 64) (b b2 : Nat) :
    rook_attack_board sq b &&& bishop_attack_board sq b2 = 0 := by
  apply Nat.eq_of_testBit_eq
  intro j
  rw [Nat.testBit_and, Nat.zero_testBit]
  cases hr : (rook_attack_board sq b).testBit j with
  | false => rw [Bool.false_and]
  | true =>
    cases hb2 : (bishop_attack_board sq b2).testBit j with
    | false => rw [Bool.and_false]
    | true =>
      have hr0 := rook_attack_subset hr
      have hb0 := bishop_attack_subset hb2
      have hz := congrArg (fun x => Nat.testBit x j)
        (rook_bishop_disjoint_zero h)
      simp only [Nat.testBit_and, Nat.zero_testBit] at hz
      rw [hr0, hb0] at hz
      exact absurd hz (by decide)

theorem xor_eq_or_of_and_zero {a b : Nat} (h : a &&& b = 0) :
    a ^^^ b = a ||| b := by
  apply Nat.eq_of_testBit_eq
  intro i
  have hi := congrArg (fun x => Nat.testBit x i) h
  simp only [Nat.testBit_and, Nat.zero_testBit] at hi
  rw [Nat.testBit_xor, Nat.testBit_or]
  cases ha : a.testBit i with
  | false =>
    cases hb : b.testBit i with
    | false => rfl
    | true => rfl
  | true =>
    cases hb : b.testBit i with
    | false => rfl
    | true =>
      rw [ha, hb] at hi
      exact absurd hi (by decide)

/-- C8: for every square and every occupancy bitboard, the rook attack set
and the bishop attack set from that square are disjoint, and the queen
attack set returned by `get_slider_attacks` equals their union — so the XOR
the code computes equals the union. -/
theorem c8_queen_attacks_disjoint_union {mg : MoveGen}
    (hnew : MoveGenerator.new = some mg) :
    ∀ sq, sq < 64 → ∀ occ,
      rook_attack_board sq (occ &&& rook_mask sq) &&&
        bishop_attack_board sq (occ &&& bishop_mask sq) = 0 ∧
      get_slider_attacks mg Pieces.QUEEN sq occ =
        some (rook_attack_board sq (occ &&& rook_mask sq) |||
          bishop_attack_board sq (occ &&& bishop_mask sq)) := by
  obtain ⟨mg2, hmg2, -, -, hqn⟩ := MoveGenerator_new_spec
  rw [hnew] at hmg2
  obtain rfl := Option.some.inj hmg2
  intro sq hsq occ
  have hd := rook_bishop_attack_disjoint hsq (occ &&& rook_mask sq)
    (occ &&& bishop_mask sq)
  refine ⟨hd, ?_⟩
  rw [hqn sq occ hsq, xor_eq_or_of_and_zero hd]

/-- Witness for C8 at square 0 and the empty occupancy. -/
theorem c8_witness :
    ∃ mg, MoveGenerator.new = some mg ∧
      (rook_attack_board 0 (0 &&& rook_mask 0) &&&
        bishop_attack_board 0 (0 &&& bishop_mask 0) = 0 ∧
      get_slider_attacks mg Pieces.QUEEN 0 0 =
        some (rook_attack_board 0 (0 &&& rook_mask 0) |||
          bishop_attack_board 0 (0 &&& bishop_mask 0))) := by
  obtain ⟨mg, hmg, -, -, -⟩ := MoveGenerator_new_spec
  exact ⟨mg, hmg, c8_queen_attacks_disjoint_union hmg 0 (by omega) 0⟩

/- ===== C7: square_attacked vs. brute force ===== -/

theorem bool_eq_of_iff {a b : Bool} (h : a = true ↔ b = true) : a = b := by
  cases a with
  | true => exact (h.mp rfl).symm
  | false =>
    cases b with
    | false => rfl
    | true => exact absurd (h.mpr rfl) (by decide)

theorem two_pow_and_zero_iff {n x : Nat} :
    2 ^ n &&& x = 0 ↔ x.testBit n = false := by
  constructor
  · intro h
    have hb := congrArg (fun y => Nat.testBit y n) h
    simp only [Nat.testBit_and, Nat.zero_testBit, Nat.testBit_two_pow] at hb
    simpa using hb
  · intro h
    apply Nat.eq_of_testBit_eq
    intro i
    rw [Nat.testBit_and, Nat.zero_testBit, Nat.testBit_two_pow]
    rcases eq_or_ne n i with rfl | hne
    · rw [h, Bool.and_false]
    · rw [decide_eq_false hne, Bool.false_and]

/-- Bits of the north ray from board coordinate `(f, r)`: the squares
strictly above `(f, r)` on file `f`, up to and including the first blocker
(or the board edge). -/
theorem rayAux_north_iff : ∀ (fuel f r bbIn j : Nat), f < 8 → r < 8 →
    7 - r ≤ fuel →
    ((bb_rayAux fuel f r (2 ^ (8 * r + f)) bbIn Direction.north).testBit j =
      true ↔
    (∃ k, 1 ≤ k ∧ r + k < 8 ∧ j = 8 * (r + k) + f ∧
      ∀ m, 1 ≤ m → m < k → bbIn.testBit (8 * (r + m) + f) = false)) := by
  intro fuel
  induction fuel with
  | zero =>
    intro f r bbIn j hf hr hfuel
    constructor
    · intro h
      rw [show bb_rayAux 0 f r (2 ^ (8 * r + f)) bbIn Direction.north = 0
        from rfl, Nat.zero_testBit] at h
      exact absurd h Bool.false_ne_true
    · rintro ⟨k, hk1, hk8, -, -⟩
      omega
  | succ fuel ih =>
    intro f r bbIn j hf hr hfuel
    simp only [bb_rayAux]
    by_cases hg : r ≠ Ranks.R8
    · rw [if_pos hg]
      have hg7 : r ≠ 7 := hg
      have hsq : (2 ^ (8 * r + f) <<< 8) % U64 = 2 ^ (8 * (r + 1) + f) := by
        rw [Nat.shiftLeft_eq, ← Nat.pow_add,
          show 8 * r + f + 8 = 8 * (r + 1) + f from by omega]
        exact Nat.mod_eq_of_lt (Nat.pow_lt_pow_right (by omega) (by omega))
      rw [hsq, Nat.testBit_or]
      constructor
      · intro h
        rcases Bool.or_eq_true_iff.mp h with h1 | h2
        · rw [Nat.testBit_two_pow] at h1
          have hj := of_decide_eq_true h1
          exact ⟨1, by omega, by omega, by omega,
            fun m hm1 hm2 => absurd hm2 (by omega)⟩
        · by_cases hb : 2 ^ (8 * (r + 1) + f) &&& bbIn = 0
          · rw [if_pos hb] at h2
            obtain ⟨k2, hk1, hk8, hj, hmid⟩ :=
              (ih f (r + 1) bbIn j hf (by omega) (by omega)).mp h2
            refine ⟨k2 + 1, by omega, by omega, by omega, ?_⟩
            intro m hm1 hm2
            rcases Nat.eq_or_lt_of_le hm1 with h1m | h1m
            · rw [← h1m]
              exact two_pow_and_zero_iff.mp hb
            · have h5 := hmid (m - 1) (by omega) (by omega)
              rw [show 8 * (r + 1 + (m - 1)) + f = 8 * (r + m) + f from
                by omega] at h5
              exact h5
          · rw [if_neg hb, Nat.zero_testBit] at h2
            exact absurd h2 Bool.false_ne_true
      · rintro ⟨k, hk1, hk8, hj, hmid⟩
        apply Bool.or_eq_true_iff.mpr
        rcases Nat.eq_or_lt_of_le hk1 with hk | hk
        · left
          rw [Nat.testBit_two_pow]
          exact decide_eq_true (by omega)
        · right
          have hb : 2 ^ (8 * (r + 1) + f) &&& bbIn = 0 :=
            two_pow_and_zero_iff.mpr (hmid 1 (by omega) (by omega))
          rw [if_pos hb]
          apply (ih f (r + 1) bbIn j hf (by omega) (by omega)).mpr
          refine ⟨k - 1, by omega, by omega, by omega, ?_⟩
          intro m hm1 hm2
          have h5 := hmid (m + 1) (by omega) (by omega)
          rw [show 8 * (r + (m + 1)) + f = 8 * (r + 1 + m) + f from by omega]
            at h5
          exact h5
    · rw [if_neg hg]
      push_neg at hg
      have hg7 : r = 7 := hg
      constructor
      · intro h
        rw [Nat.zero_testBit] at h
        exact absurd h Bool.false_ne_true
      · rintro ⟨k, hk1, hk8, -, -⟩
        omega

/-- Bits of `bb_ray … north`, in square form. -/
theorem ray_north_iff {occ s j : Nat} (hs : s < 64) :
    (bb_ray occ s Direction.north).testBit j = true ↔
    (∃ k, 1 ≤ k ∧ s / 8 + k < 8 ∧ j = s + 8 * k ∧
      ∀ m, 1 ≤ m → m < k → occ.testBit (s + 8 * m) = false) := by
  have h1 : BB_SQUARES s = 2 ^ (8 * (s / 8) + s % 8) := by
    simp only [BB_SQUARES]
    rw [Nat.one_shiftLeft, show 8 * (s / 8) + s % 8 = s from by omega]
  rw [show bb_ray occ s Direction.north = bb_rayAux 8 (s % 8) (s / 8)
    (BB_SQUARES s) occ Direction.north from rfl, h1,
    rayAux_north_iff 8 (s % 8) (s / 8) occ j (by omega) (by omega)
      (by omega)]
  constructor
  · rintro ⟨k, hk1, hk8, hj, hmid⟩
    refine ⟨k, hk1, hk8, by omega, ?_⟩
    intro m hm1 hm2
    have h5 := hmid m hm1 hm2
    rw [show 8 * (s / 8 + m) + s % 8 = s + 8 * m from by omega] at h5
    exact h5
  · rintro ⟨k, hk1, hk8, hj, hmid⟩
    refine ⟨k, hk1, hk8, by omega, ?_⟩
    intro m hm1 hm2
    have h5 := hmid m hm1 hm2
    rw [show s + 8 * m = 8 * (s / 8 + m) + s % 8 from by omega] at h5
    exact h5

/-- Bits of the east ray from `(f, r)`. -/
theorem rayAux_east_iff : ∀ (fuel f r bbIn j : Nat), f < 8 → r < 8 →
    7 - f ≤ fuel →
    ((bb_rayAux fuel f r (2 ^ (8 * r + f)) bbIn Direction.east).testBit j =
      true ↔
    (∃ k, 1 ≤ k ∧ f + k < 8 ∧ j = 8 * r + (f + k) ∧
      ∀ m, 1 ≤ m → m < k → bbIn.testBit (8 * r + (f + m)) = false)) := by
  intro fuel
  induction fuel with
  | zero =>
    intro f r bbIn j hf hr hfuel
    constructor
    · intro h
      rw [show bb_rayAux 0 f r (2 ^ (8 * r + f)) bbIn Direction.east = 0
        from rfl, Nat.zero_testBit] at h
      exact absurd h Bool.false_ne_true
    · rintro ⟨k, hk1, hk8, -, -⟩
      omega
  | succ fuel ih =>
    intro f r bbIn j hf hr hfuel
    simp only [bb_rayAux]
    by_cases hg : f ≠ Files.H
    · rw [if_pos hg]
      have hg7 : f ≠ 7 := hg
      have hsq : (2 ^ (8 * r + f) <<< 1) % U64 = 2 ^ (8 * r + (f + 1)) := by
        rw [Nat.shiftLeft_eq, ← Nat.pow_add,
          show 8 * r + f + 1 = 8 * r + (f + 1) from by omega]
        exact Nat.mod_eq_of_lt (Nat.pow_lt_pow_right (by omega) (by omega))
      rw [hsq, Nat.testBit_or]
      constructor
      · intro h
        rcases Bool.or_eq_true_iff.mp h with h1 | h2
        · rw [Nat.testBit_two_pow] at h1
          have hj := of_decide_eq_true h1
          exact ⟨1, by omega, by omega, by omega,
            fun m hm1 hm2 => absurd hm2 (by omega)⟩
        · by_cases hb : 2 ^ (8 * r + (f + 1)) &&& bbIn = 0
          · rw [if_pos hb] at h2
            obtain ⟨k2, hk1, hk8, hj, hmid⟩ :=
              (ih (f + 1) r bbIn j (by omega) hr (by omega)).mp h2
            refine ⟨k2 + 1, by omega, by omega, by omega, ?_⟩
            intro m hm1 hm2
            rcases Nat.eq_or_lt_of_le hm1 with h1m | h1m
            · rw [← h1m]
              exact two_pow_and_zero_iff.mp hb
            · have h5 := hmid (m - 1) (by omega) (by omega)
              rw [show 8 * r + (f + 1 + (m - 1)) = 8 * r + (f + m) from
                by omega] at h5
              exact h5
          · rw [if_neg hb, Nat.zero_testBit] at h2
            exact absurd h2 Bool.false_ne_true
      · rintro ⟨k, hk1, hk8, hj, hmid⟩
        apply Bool.or_eq_true_iff.mpr
        rcases Nat.eq_or_lt_of_le hk1 with hk | hk
        · left
          rw [Nat.testBit_two_pow]
          exact decide_eq_true (by omega)
        · right
          have hb : 2 ^ (8 * r + (f + 1)) &&& bbIn = 0 :=
            two_pow_and_zero_iff.mpr (hmid 1 (by omega) (by omega))
          rw [if_pos hb]
          apply (ih (f + 1) r bbIn j (by omega) hr (by omega)).mpr
          refine ⟨k - 1, by omega, by omega, by omega, ?_⟩
          intro m hm1 hm2
          have h5 := hmid (m + 1) (by omega) (by omega)
          rw [show 8 * r + (f + (m + 1)) = 8 * r + (f + 1 + m) from by omega]
            at h5
          exact h5
    · rw [if_neg hg]
      push_neg at hg
      have hg7 : f = 7 := hg
      constructor
      · intro h
        rw [Nat.zero_testBit] at h
        exact absurd h Bool.false_ne_true
      · rintro ⟨k, hk1, hk8, -, -⟩
        omega

/-- Bits of the south ray from `(f, r)`. -/
theorem rayAux_south_iff : ∀ (fuel f r bbIn j : Nat), f < 8 → r < 8 →
    r ≤ fuel →
    ((bb_rayAux fuel f r (2 ^ (8 * r + f)) bbIn Direction.south).testBit j =
      true ↔
    (∃ k, 1 ≤ k ∧ k ≤ r ∧ j = 8 * (r - k) + f ∧
      ∀ m, 1 ≤ m → m < k → bbIn.testBit (8 * (r - m) + f) = false)) := by
  intro fuel
  induction fuel with
  | zero =>
    intro f r bbIn j hf hr hfuel
    constructor
    · intro h
      rw [show bb_rayAux 0 f r (2 ^ (8 * r + f)) bbIn Direction.south = 0
        from rfl, Nat.zero_testBit] at h
      exact absurd h Bool.false_ne_true
    · rintro ⟨k, hk1, hk8, -, -⟩
      omega
  | succ fuel ih =>
    intro f r bbIn j hf hr hfuel
    simp only [bb_rayAux]
    by_cases hg : r ≠ Ranks.R1
    · rw [if_pos hg]
      have hg0 : r ≠ 0 := hg
      have hsq : 2 ^ (8 * r + f) >>> 8 = 2 ^ (8 * (r - 1) + f) := by
        rw [Nat.shiftRight_eq_div_pow, Nat.pow_div (by omega) (by omega),
          show 8 * r + f - 8 = 8 * (r - 1) + f from by omega]
      rw [hsq, Nat.testBit_or]
      constructor
      · intro h
        rcases Bool.or_eq_true_iff.mp h with h1 | h2
        · rw [Nat.testBit_two_pow] at h1
          have hj := of_decide_eq_true h1
          exact ⟨1, by omega, by omega, by omega,
            fun m hm1 hm2 => absurd hm2 (by omega)⟩
        · by_cases hb : 2 ^ (8 * (r - 1) + f) &&& bbIn = 0
          · rw [if_pos hb] at h2
            obtain ⟨k2, hk1, hk8, hj, hmid⟩ :=
              (ih f (r - 1) bbIn j hf (by omega) (by omega)).mp h2
            refine ⟨k2 + 1, by omega, by omega, by omega, ?_⟩
            intro m hm1 hm2
            rcases Nat.eq_or_lt_of_le hm1 with h1m | h1m
            · rw [← h1m]
              exact two_pow_and_zero_iff.mp hb
            · have h5 := hmid (m - 1) (by omega) (by omega)
              rw [show 8 * (r - 1 - (m - 1)) + f = 8 * (r - m) + f from
                by omega] at h5
              exact h5
          · rw [if_neg hb, Nat.zero_testBit] at h2
            exact absurd h2 Bool.false_ne_true
      · rintro ⟨k, hk1, hk8, hj, hmid⟩
        apply Bool.or_eq_true_iff.mpr
        rcases Nat.eq_or_lt_of_le hk1 with hk | hk
        · left
          rw [Nat.testBit_two_pow]
          exact decide_eq_true (by omega)
        · right
          have hb : 2 ^ (8 * (r - 1) + f) &&& bbIn = 0 :=
            two_pow_and_zero_iff.mpr (by
              have h5 := hmid 1 (by omega) (by omega)
              exact h5)
          rw [if_pos hb]
          apply (ih f (r - 1) bbIn j hf (by omega) (by omega)).mpr
          refine ⟨k - 1, by omega, by omega, by omega, ?_⟩
          intro m hm1 hm2
          have h5 := hmid (m + 1) (by omega) (by omega)
          rw [show 8 * (r - (m + 1)) + f = 8 * (r - 1 - m) + f from by omega]
            at h5
          exact h5
    · rw [if_neg hg]
      push_neg at hg
      have hg0 : r = 0 := hg
      constructor
      · intro h
        rw [Nat.zero_testBit] at h
        exact absurd h Bool.false_ne_true
      · rintro ⟨k, hk1, hk8, -, -⟩
        omega

/-- Bits of the west ray from `(f, r)`. -/
theorem rayAux_west_iff : ∀ (fuel f r bbIn j : Nat), f < 8 → r < 8 →
    f ≤ fuel →
    ((bb_rayAux fuel f r (2 ^ (8 * r + f)) bbIn Direction.west).testBit j =
      true ↔
    (∃ k, 1 ≤ k ∧ k ≤ f ∧ j = 8 * r + (f - k) ∧
      ∀ m, 1 ≤ m → m < k → bbIn.testBit (8 * r + (f - m)) = false)) := by
  intro fuel
  induction fuel with
  | zero =>
    intro f r bbIn j hf hr hfuel
    constructor
    · intro h
      rw [show bb_rayAux 0 f r (2 ^ (8 * r + f)) bbIn Direction.west = 0
        from rfl, Nat.zero_testBit] at h
      exact absurd h Bool.false_ne_true
    · rintro ⟨k, hk1, hk8, -, -⟩
      omega
  | succ fuel ih =>
    intro f r bbIn j hf hr hfuel
    simp only [bb_rayAux]
    by_cases hg : f ≠ Files.A
    · rw [if_pos hg]
      have hg0 : f ≠ 0 := hg
      have hsq : 2 ^ (8 * r + f) >>> 1 = 2 ^ (8 * r + (f - 1)) := by
        rw [Nat.shiftRight_eq_div_pow, Nat.pow_div (by omega) (by omega),
          show 8 * r + f - 1 = 8 * r + (f - 1) from by omega]
      rw [hsq, Nat.testBit_or]
      constructor
      · intro h
        rcases Bool.or_eq_true_iff.mp h with h1 | h2
        · rw [Nat.testBit_two_pow] at h1
          have hj := of_decide_eq_true h1
          exact ⟨1, by omega, by omega, by omega,
            fun m hm1 hm2 => absurd hm2 (by omega)⟩
        · by_cases hb : 2 ^ (8 * r + (f - 1)) &&& bbIn = 0
          · rw [if_pos hb] at h2
            obtain ⟨k2, hk1, hk8, hj, hmid⟩ :=
              (ih (f - 1) r bbIn j (by omega) hr (by omega)).mp h2
            refine ⟨k2 + 1, by omega, by omega, by omega, ?_⟩
            intro m hm1 hm2
            rcases Nat.eq_or_lt_of_le hm1 with h1m | h1m
            · rw [← h1m]
              exact two_pow_and_zero_iff.mp hb
            · have h5 := hmid (m - 1) (by omega) (by omega)
              rw [show 8 * r + (f - 1 - (m - 1)) = 8 * r + (f - m) from
                by omega] at h5
              exact h5
          · rw [if_neg hb, Nat.zero_testBit] at h2
            exact absurd h2 Bool.false_ne_true
      · rintro ⟨k, hk1, hk8, hj, hmid⟩
        apply Bool.or_eq_true_iff.mpr
        rcases Nat.eq_or_lt_of_le hk1 with hk | hk
        · left
          rw [Nat.testBit_two_pow]
          exact decide_eq_true (by omega)
        · right
          have hb : 2 ^ (8 * r + (f - 1)) &&& bbIn = 0 :=
            two_pow_and_zero_iff.mpr (hmid 1 (by omega) (by omega))
          rw [if_pos hb]
          apply (ih (f - 1) r bbIn j (by omega) hr (by omega)).mpr
          refine ⟨k - 1, by omega, by omega, by omega, ?_⟩
          intro m hm1 hm2
          have h5 := hmid (m + 1) (by omega) (by omega)
          rw [show 8 * r + (f - (m + 1)) = 8 * r + (f - 1 - m) from by omega]
            at h5
          exact h5
    · rw [if_neg hg]
      push_neg at hg
      have hg0 : f = 0 := hg
      constructor
      · intro h
        rw [Nat.zero_testBit] at h
        exact absurd h Bool.false_ne_true
      · rintro ⟨k, hk1, hk8, -, -⟩
        omega

/-- Bits of the north-west ray from `(f, r)`. -/
theorem rayAux_nw_iff : ∀ (fuel f r bbIn j : Nat), f < 8 → r < 8 →
    7 - r ≤ fuel →
    ((bb_rayAux fuel f r (2 ^ (8 * r + f)) bbIn
      Direction.northWest).testBit j = true ↔
    (∃ k, 1 ≤ k ∧ r + k < 8 ∧ k ≤ f ∧ j = 8 * (r + k) + (f - k) ∧
      ∀ m, 1 ≤ m → m < k →
        bbIn.testBit (8 * (r + m) + (f - m)) = false)) := by
  intro fuel
  induction fuel with
  | zero =>
    intro f r bbIn j hf hr hfuel
    constructor
    · intro h
      rw [show bb_rayAux 0 f r (2 ^ (8 * r + f)) bbIn
        Direction.northWest = 0 from rfl, Nat.zero_testBit] at h
      exact absurd h Bool.false_ne_true
    · rintro ⟨k, hk1, hk8, -, -, -⟩
      omega
  | succ fuel ih =>
    intro f r bbIn j hf hr hfuel
    simp only [bb_rayAux]
    by_cases hg : r ≠ Ranks.R8 ∧ f ≠ Files.A
    · rw [if_pos hg]
      have hg7 : r ≠ 7 := hg.1
      have hgf : f ≠ 0 := hg.2
      have hsq : (2 ^ (8 * r + f) <<< 7) % U64 =
          2 ^ (8 * (r + 1) + (f - 1)) := by
        rw [Nat.shiftLeft_eq, ← Nat.pow_add,
          show 8 * r + f + 7 = 8 * (r + 1) + (f - 1) from by omega]
        exact Nat.mod_eq_of_lt (Nat.pow_lt_pow_right (by omega) (by omega))
      rw [hsq, Nat.testBit_or]
      constructor
      · intro h
        rcases Bool.or_eq_true_iff.mp h with h1 | h2
        · rw [Nat.testBit_two_pow] at h1
          have hj := of_decide_eq_true h1
          exact ⟨1, by omega, by omega, by omega, by omega,
            fun m hm1 hm2 => absurd hm2 (by omega)⟩
        · by_cases hb : 2 ^ (8 * (r + 1) + (f - 1)) &&& bbIn = 0
          · rw [if_pos hb] at h2
            obtain ⟨k2, hk1, hk8, hkf, hj, hmid⟩ :=
              (ih (f - 1) (r + 1) bbIn j (by omega) (by omega)
                (by omega)).mp h2
            refine ⟨k2 + 1, by omega, by omega, by omega, by omega, ?_⟩
            intro m hm1 hm2
            rcases Nat.eq_or_lt_of_le hm1 with h1m | h1m
            · rw [← h1m]
              exact two_pow_and_zero_iff.mp hb
            · have h5 := hmid (m - 1) (by omega) (by omega)
              rw [show 8 * (r + 1 + (m - 1)) + (f - 1 - (m - 1)) =
                8 * (r + m) + (f - m) from by omega] at h5
              exact h5
          · rw [if_neg hb, Nat.zero_testBit] at h2
            exact absurd h2 Bool.false_ne_true
      · rintro ⟨k, hk1, hk8, hkf, hj, hmid⟩
        apply Bool.or_eq_true_iff.mpr
        rcases Nat.eq_or_lt_of_le hk1 with hk | hk
        · left
          rw [Nat.testBit_two_pow]
          exact decide_eq_true (by omega)
        · right
          have hb : 2 ^ (8 * (r + 1) + (f - 1)) &&& bbIn = 0 :=
            two_pow_and_zero_iff.mpr (by
              have h5 := hmid 1 (by omega) (by omega)
              rw [show 8 * (r + 1) + (f - 1) = 8 * (r + 1) + (f - 1) from
                rfl]
              exact h5)
          rw [if_pos hb]
          apply (ih (f - 1) (r + 1) bbIn j (by omega) (by omega)
            (by omega)).mpr
          refine ⟨k - 1, by omega, by omega, by omega, by omega, ?_⟩
          intro m hm1 hm2
          have h5 := hmid (m + 1) (by omega) (by omega)
          rw [show 8 * (r + (m + 1)) + (f - (m + 1)) =
            8 * (r + 1 + m) + (f - 1 - m) from by omega] at h5
          exact h5
    · rw [if_neg hg]
      constructor
      · intro h
        rw [Nat.zero_testBit] at h
        exact absurd h Bool.false_ne_true
      · rintro ⟨k, hk1, hk8, hkf, -, -⟩
        have hg2 : ¬(r ≠ 7 ∧ f ≠ 0) := hg
        exact (hg2 ⟨by omega, by omega⟩).elim

/-- Bits of the north-east ray from `(f, r)`. -/
theorem rayAux_ne_iff : ∀ (fuel f r bbIn j : Nat), f < 8 → r < 8 →
    7 - r ≤ fuel →
    ((bb_rayAux fuel f r (2 ^ (8 * r + f)) bbIn
      Direction.northEast).testBit j = true ↔
    (∃ k, 1 ≤ k ∧ r + k < 8 ∧ f + k < 8 ∧ j = 8 * (r + k) + (f + k) ∧
      ∀ m, 1 ≤ m → m < k →
        bbIn.testBit (8 * (r + m) + (f + m)) = false)) := by
  intro fuel
  induction fuel with
  | zero =>
    intro f r bbIn j hf hr hfuel
    constructor
    · intro h
      rw [show bb_rayAux 0 f r (2 ^ (8 * r + f)) bbIn
        Direction.northEast = 0 from rfl, Nat.zero_testBit] at h
      exact absurd h Bool.false_ne_true
    · rintro ⟨k, hk1, hk8, -, -, -⟩
      omega
  | succ fuel ih =>
    intro f r bbIn j hf hr hfuel
    simp only [bb_rayAux]
    by_cases hg : r ≠ Ranks.R8 ∧ f ≠ Files.H
    · rw [if_pos hg]
      have hg7 : r ≠ 7 := hg.1
      have hgf : f ≠ 7 := hg.2
      have hsq : (2 ^ (8 * r + f) <<< 9) % U64 =
          2 ^ (8 * (r + 1) + (f + 1)) := by
        rw [Nat.shiftLeft_eq, ← Nat.pow_add,
          show 8 * r + f + 9 = 8 * (r + 1) + (f + 1) from by omega]
        exact Nat.mod_eq_of_lt (Nat.pow_lt_pow_right (by omega) (by omega))
      rw [hsq, Nat.testBit_or]
      constructor
      · intro h
        rcases Bool.or_eq_true_iff.mp h with h1 | h2
        · rw [Nat.testBit_two_pow] at h1
          have hj := of_decide_eq_true h1
          exact ⟨1, by omega, by omega, by omega, by omega,
            fun m hm1 hm2 => absurd hm2 (by omega)⟩
        · by_cases hb : 2 ^ (8 * (r + 1) + (f + 1)) &&& bbIn = 0
          · rw [if_pos hb] at h2
            obtain ⟨k2, hk1, hk8, hkf, hj, hmid⟩ :=
              (ih (f + 1) (r + 1) bbIn j (by omega) (by omega)
                (by omega)).mp h2
            refine ⟨k2 + 1, by omega, by omega, by omega, by omega, ?_⟩
            intro m hm1 hm2
            rcases Nat.eq_or_lt_of_le hm1 with h1m | h1m
            · rw [← h1m]
              exact two_pow_and_zero_iff.mp hb
            · have h5 := hmid (m - 1) (by omega) (by omega)
              rw [show 8 * (r + 1 + (m - 1)) + (f + 1 + (m - 1)) =
                8 * (r + m) + (f + m) from by omega] at h5
              exact h5
          · rw [if_neg hb, Nat.zero_testBit] at h2
            exact absurd h2 Bool.false_ne_true
      · rintro ⟨k, hk1, hk8, hkf, hj, hmid⟩
        apply Bool.or_eq_true_iff.mpr
        rcases Nat.eq_or_lt_of_le hk1 with hk | hk
        · left
          rw [Nat.testBit_two_pow]
          exact decide_eq_true (by omega)
        · right
          have hb : 2 ^ (8 * (r + 1) + (f + 1)) &&& bbIn = 0 :=
            two_pow_and_zero_iff.mpr (hmid 1 (by omega) (by omega))
          rw [if_pos hb]
          apply (ih (f + 1) (r + 1) bbIn j (by omega) (by omega)
            (by omega)).mpr
          refine ⟨k - 1, by omega, by omega, by omega, by omega, ?_⟩
          intro m hm1 hm2
          have h5 := hmid (m + 1) (by omega) (by omega)
          rw [show 8 * (r + (m + 1)) + (f + (m + 1)) =
            8 * (r + 1 + m) + (f + 1 + m) from by omega] at h5
          exact h5
    · rw [if_neg hg]
      constructor
      · intro h
        rw [Nat.zero_testBit] at h
        exact absurd h Bool.false_ne_true
      · rintro ⟨k, hk1, hk8, hkf, -, -⟩
        have hg2 : ¬(r ≠ 7 ∧ f ≠ 7) := hg
        exact (hg2 ⟨by omega, by omega⟩).elim

/-- Bits of the south-east ray from `(f, r)`. -/
theorem rayAux_se_iff : ∀ (fuel f r bbIn j : Nat), f < 8 → r < 8 →
    r ≤ fuel →
    ((bb_rayAux fuel f r (2 ^ (8 * r + f)) bbIn
      Direction.southEast).testBit j = true ↔
    (∃ k, 1 ≤ k ∧ k ≤ r ∧ f + k < 8 ∧ j = 8 * (r - k) + (f + k) ∧
      ∀ m, 1 ≤ m → m < k →
        bbIn.testBit (8 * (r - m) + (f + m)) = false)) := by
  intro fuel
  induction fuel with
  | zero =>
    intro f r bbIn j hf hr hfuel
    constructor
    · intro h
      rw [show bb_rayAux 0 f r (2 ^ (8 * r + f)) bbIn
        Direction.southEast = 0 from rfl, Nat.zero_testBit] at h
      exact absurd h Bool.false_ne_true
    · rintro ⟨k, hk1, hk8, -, -, -⟩
      omega
  | succ fuel ih =>
    intro f r bbIn j hf hr hfuel
    simp only [bb_rayAux]
    by_cases hg : r ≠ Ranks.R1 ∧ f ≠ Files.H
    · rw [if_pos hg]
      have hg0 : r ≠ 0 := hg.1
      have hgf : f ≠ 7 := hg.2
      have hsq : 2 ^ (8 * r + f) >>> 7 = 2 ^ (8 * (r - 1) + (f + 1)) := by
        rw [Nat.shiftRight_eq_div_pow, Nat.pow_div (by omega) (by omega),
          show 8 * r + f - 7 = 8 * (r - 1) + (f + 1) from by omega]
      rw [hsq, Nat.testBit_or]
      constructor
      · intro h
        rcases Bool.or_eq_true_iff.mp h with h1 | h2
        · rw [Nat.testBit_two_pow] at h1
          have hj := of_decide_eq_true h1
          exact ⟨1, by omega, by omega, by omega, by omega,
            fun m hm1 hm2 => absurd hm2 (by omega)⟩
        · by_cases hb : 2 ^ (8 * (r - 1) + (f + 1)) &&& bbIn = 0
          · rw [if_pos hb] at h2
            obtain ⟨k2, hk1, hk8, hkf, hj, hmid⟩ :=
              (ih (f + 1) (r - 1) bbIn j (by omega) (by omega)
                (by omega)).mp h2
            refine ⟨k2 + 1, by omega, by omega, by omega, by omega, ?_⟩
            intro m hm1 hm2
            rcases Nat.eq_or_lt_of_le hm1 with h1m | h1m
            · rw [← h1m]
              exact two_pow_and_zero_iff.mp hb
            · have h5 := hmid (m - 1) (by omega) (by omega)
              rw [show 8 * (r - 1 - (m - 1)) + (f + 1 + (m - 1)) =
                8 * (r - m) + (f + m) from by omega] at h5
              exact h5
          · rw [if_neg hb, Nat.zero_testBit] at h2
            exact absurd h2 Bool.false_ne_true
      · rintro ⟨k, hk1, hk8, hkf, hj, hmid⟩
        apply Bool.or_eq_true_iff.mpr
        rcases Nat.eq_or_lt_of_le hk1 with hk | hk
        · left
          rw [Nat.testBit_two_pow]
          exact decide_eq_true (by omega)
        · right
          have hb : 2 ^ (8 * (r - 1) + (f + 1)) &&& bbIn = 0 :=
            two_pow_and_zero_iff.mpr (hmid 1 (by omega) (by omega))
          rw [if_pos hb]
          apply (ih (f + 1) (r - 1) bbIn j (by omega) (by omega)
            (by omega)).mpr
          refine ⟨k - 1, by omega, by omega, by omega, by omega, ?_⟩
          intro m hm1 hm2
          have h5 := hmid (m + 1) (by omega) (by omega)
          rw [show 8 * (r - (m + 1)) + (f + (m + 1)) =
            8 * (r - 1 - m) + (f + 1 + m) from by omega] at h5
          exact h5
    · rw [if_neg hg]
      constructor
      · intro h
        rw [Nat.zero_testBit] at h
        exact absurd h Bool.false_ne_true
      · rintro ⟨k, hk1, hk8, hkf, -, -⟩
        have hg2 : ¬(r ≠ 0 ∧ f ≠ 7) := hg
        exact (hg2 ⟨by omega, by omega⟩).elim

/-- Bits of the south-west ray from `(f, r)`. -/
theorem rayAux_sw_iff : ∀ (fuel f r bbIn j : Nat), f < 8 → r < 8 →
    r ≤ fuel →
    ((bb_rayAux fuel f r (2 ^ (8 * r + f)) bbIn
      Direction.southWest).testBit j = true ↔
    (∃ k, 1 ≤ k ∧ k ≤ r ∧ k ≤ f ∧ j = 8 * (r - k) + (f - k) ∧
      ∀ m, 1 ≤ m → m < k →
        bbIn.testBit (8 * (r - m) + (f - m)) = false)) := by
  intro fuel
  induction fuel with
  | zero =>
    intro f r bbIn j hf hr hfuel
    constructor
    · intro h
      rw [show bb_rayAux 0 f r (2 ^ (8 * r + f)) bbIn
        Direction.southWest = 0 from rfl, Nat.zero_testBit] at h
      exact absurd h Bool.false_ne_true
    · rintro ⟨k, hk1, hk8, -, -, -⟩
      omega
  | succ fuel ih =>
    intro f r bbIn j hf hr hfuel
    simp only [bb_rayAux]
    by_cases hg : r ≠ Ranks.R1 ∧ f ≠ Files.A
    · rw [if_pos hg]
      have hg0 : r ≠ 0 := hg.1
      have hgf : f ≠ 0 := hg.2
      have hsq : 2 ^ (8 * r + f) >>> 9 = 2 ^ (8 * (r - 1) + (f - 1)) := by
        rw [Nat.shiftRight_eq_div_pow, Nat.pow_div (by omega) (by omega),
          show 8 * r + f - 9 = 8 * (r - 1) + (f - 1) from by omega]
      rw [hsq, Nat.testBit_or]
      constructor
      · intro h
        rcases Bool.or_eq_true_iff.mp h with h1 | h2
        · rw [Nat.testBit_two_pow] at h1
          have hj := of_decide_eq_true h1
          exact ⟨1, by omega, by omega, by omega, by omega,
            fun m hm1 hm2 => absurd hm2 (by omega)⟩
        · by_cases hb : 2 ^ (8 * (r - 1) + (f - 1)) &&& bbIn = 0
          · rw [if_pos hb] at h2
            obtain ⟨k2, hk1, hk8, hkf, hj, hmid⟩ :=
              (ih (f - 1) (r - 1) bbIn j (by omega) (by omega)
                (by omega)).mp h2
            refine ⟨k2 + 1, by omega, by omega, by omega, by omega, ?_⟩
            intro m hm1 hm2
            rcases Nat.eq_or_lt_of_le hm1 with h1m | h1m
            · rw [← h1m]
              exact two_pow_and_zero_iff.mp hb
            · have h5 := hmid (m - 1) (by omega) (by omega)
              rw [show 8 * (r - 1 - (m - 1)) + (f - 1 - (m - 1)) =
                8 * (r - m) + (f - m) from by omega] at h5
              exact h5
          · rw [if_neg hb, Nat.zero_testBit] at h2
            exact absurd h2 Bool.false_ne_true
      · rintro ⟨k, hk1, hk8, hkf, hj, hmid⟩
        apply Bool.or_eq_true_iff.mpr
        rcases Nat.eq_or_lt_of_le hk1 with hk | hk
        · left
          rw [Nat.testBit_two_pow]
          exact decide_eq_true (by omega)
        · right
          have hb : 2 ^ (8 * (r - 1) + (f - 1)) &&& bbIn = 0 :=
            two_pow_and_zero_iff.mpr (hmid 1 (by omega) (by omega))
          rw [if_pos hb]
          apply (ih (f - 1) (r - 1) bbIn j (by omega) (by omega)
            (by omega)).mpr
          refine ⟨k - 1, by omega, by omega, by omega, by omega, ?_⟩
          intro m hm1 hm2
          have h5 := hmid (m + 1) (by omega) (by omega)
          rw [show 8 * (r - (m + 1)) + (f - (m + 1)) =
            8 * (r - 1 - m) + (f - 1 - m) from by omega] at h5
          exact h5
    · rw [if_neg hg]
      constructor
      · intro h
        rw [Nat.zero_testBit] at h
        exact absurd h Bool.false_ne_true
      · rintro ⟨k, hk1, hk8, hkf, -, -⟩
        have hg2 : ¬(r ≠ 0 ∧ f ≠ 0) := hg
        exact (hg2 ⟨by omega, by omega⟩).elim

/-- Bits of `bb_ray … east`, in square form. -/
theorem ray_east_iff {occ s j : Nat} (hs : s < 64) :
    (bb_ray occ s Direction.east).testBit j = true ↔
    (∃ k, 1 ≤ k ∧ s % 8 + k < 8 ∧ j = s + k ∧
      ∀ m, 1 ≤ m → m < k → occ.testBit (s + m) = false) := by
  have h1 : BB_SQUARES s = 2 ^ (8 * (s / 8) + s % 8) := by
    simp only [BB_SQUARES]
    rw [Nat.one_shiftLeft, show 8 * (s / 8) + s % 8 = s from by omega]
  rw [show bb_ray occ s Direction.east = bb_rayAux 8 (s % 8) (s / 8)
    (BB_SQUARES s) occ Direction.east from rfl, h1,
    rayAux_east_iff 8 (s % 8) (s / 8) occ j (by omega) (by omega) (by omega)]
  constructor
  · rintro ⟨k, hk1, hk8, hj, hmid⟩
    refine ⟨k, hk1, hk8, by omega, ?_⟩
    intro m hm1 hm2
    have h5 := hmid m hm1 hm2
    rw [show 8 * (s / 8) + (s % 8 + m) = s + m from by omega] at h5
    exact h5
  · rintro ⟨k, hk1, hk8, hj, hmid⟩
    refine ⟨k, hk1, hk8, by omega, ?_⟩
    intro m hm1 hm2
    have h5 := hmid m hm1 hm2
    rw [show s + m = 8 * (s / 8) + (s % 8 + m) from by omega] at h5
    exact h5

/-- Bits of `bb_ray … south`, in square form. -/
theorem ray_south_iff {occ s j : Nat} (hs : s < 64) :
    (bb_ray occ s Direction.south).testBit j = true ↔
    (∃ k, 1 ≤ k ∧ k ≤ s / 8 ∧ j = s - 8 * k ∧
      ∀ m, 1 ≤ m → m < k → occ.testBit (s - 8 * m) = false) := by
  have h1 : BB_SQUARES s = 2 ^ (8 * (s / 8) + s % 8) := by
    simp only [BB_SQUARES]
    rw [Nat.one_shiftLeft, show 8 * (s / 8) + s % 8 = s from by omega]
  rw [show bb_ray occ s Direction.south = bb_rayAux 8 (s % 8) (s / 8)
    (BB_SQUARES s) occ Direction.south from rfl, h1,
    rayAux_south_iff 8 (s % 8) (s / 8) occ j (by omega) (by omega)
      (by omega)]
  constructor
  · rintro ⟨k, hk1, hk8, hj, hmid⟩
    refine ⟨k, hk1, hk8, by omega, ?_⟩
    intro m hm1 hm2
    have h5 := hmid m hm1 hm2
    rw [show 8 * (s / 8 - m) + s % 8 = s - 8 * m from by omega] at h5
    exact h5
  · rintro ⟨k, hk1, hk8, hj, hmid⟩
    refine ⟨k, hk1, hk8, by omega, ?_⟩
    intro m hm1 hm2
    have h5 := hmid m hm1 hm2
    rw [show s - 8 * m = 8 * (s / 8 - m) + s % 8 from by omega] at h5
    exact h5

/-- Bits of `bb_ray … west`, in square form. -/
theorem ray_west_iff {occ s j : Nat} (hs : s < 64) :
    (bb_ray occ s Direction.west).testBit j = true ↔
    (∃ k, 1 ≤ k ∧ k ≤ s % 8 ∧ j = s - k ∧
      ∀ m, 1 ≤ m → m < k → occ.testBit (s - m) = false) := by
  have h1 : BB_SQUARES s = 2 ^ (8 * (s / 8) + s % 8) := by
    simp only [BB_SQUARES]
    rw [Nat.one_shiftLeft, show 8 * (s / 8) + s % 8 = s from by omega]
  rw [show bb_ray occ s Direction.west = bb_rayAux 8 (s % 8) (s / 8)
    (BB_SQUARES s) occ Direction.west from rfl, h1,
    rayAux_west_iff 8 (s % 8) (s / 8) occ j (by omega) (by omega) (by omega)]
  constructor
  · rintro ⟨k, hk1, hk8, hj, hmid⟩
    refine ⟨k, hk1, hk8, by omega, ?_⟩
    intro m hm1 hm2
    have h5 := hmid m hm1 hm2
    rw [show 8 * (s / 8) + (s % 8 - m) = s - m from by omega] at h5
    exact h5
  · rintro ⟨k, hk1, hk8, hj, hmid⟩
    refine ⟨k, hk1, hk8, by omega, ?_⟩
    intro m hm1 hm2
    have h5 := hmid m hm1 hm2
    rw [show s - m = 8 * (s / 8) + (s % 8 - m) from by omega] at h5
    exact h5

/-- Bits of `bb_ray … northWest`, in square form. -/
theorem ray_nw_iff {occ s j : Nat} (hs : s < 64) :
    (bb_ray occ s Direction.northWest).testBit j = true ↔
    (∃ k, 1 ≤ k ∧ s / 8 + k < 8 ∧ k ≤ s % 8 ∧ j = s + 7 * k ∧
      ∀ m, 1 ≤ m → m < k → occ.testBit (s + 7 * m) = false) := by
  have h1 : BB_SQUARES s = 2 ^ (8 * (s / 8) + s % 8) := by
    simp only [BB_SQUARES]
    rw [Nat.one_shiftLeft, show 8 * (s / 8) + s % 8 = s from by omega]
  rw [show bb_ray occ s Direction.northWest = bb_rayAux 8 (s % 8) (s / 8)
    (BB_SQUARES s) occ Direction.northWest from rfl, h1,
    rayAux_nw_iff 8 (s % 8) (s / 8) occ j (by omega) (by omega) (by omega)]
  constructor
  · rintro ⟨k, hk1, hk8, hkf, hj, hmid⟩
    refine ⟨k, hk1, hk8, hkf, by omega, ?_⟩
    intro m hm1 hm2
    have h5 := hmid m hm1 hm2
    rw [show 8 * (s / 8 + m) + (s % 8 - m) = s + 7 * m from by omega] at h5
    exact h5
  · rintro ⟨k, hk1, hk8, hkf, hj, hmid⟩
    refine ⟨k, hk1, hk8, hkf, by omega, ?_⟩
    intro m hm1 hm2
    have h5 := hmid m hm1 hm2
    rw [show s + 7 * m = 8 * (s / 8 + m) + (s % 8 - m) from by omega] at h5
    exact h5

/-- Bits of `bb_ray … northEast`, in square form. -/
theorem ray_ne_iff {occ s j : Nat} (hs : s < 64) :
    (bb_ray occ s Direction.northEast).testBit j = true ↔
    (∃ k, 1 ≤ k ∧ s / 8 + k < 8 ∧ s % 8 + k < 8 ∧ j = s + 9 * k ∧
      ∀ m, 1 ≤ m → m < k → occ.testBit (s + 9 * m) = false) := by
  have h1 : BB_SQUARES s = 2 ^ (8 * (s / 8) + s % 8) := by
    simp only [BB_SQUARES]
    rw [Nat.one_shiftLeft, show 8 * (s / 8) + s % 8 = s from by omega]
  rw [show bb_ray occ s Direction.northEast = bb_rayAux 8 (s % 8) (s / 8)
    (BB_SQUARES s) occ Direction.northEast from rfl, h1,
    rayAux_ne_iff 8 (s % 8) (s / 8) occ j (by omega) (by omega) (by omega)]
  constructor
  · rintro ⟨k, hk1, hk8, hkf, hj, hmid⟩
    refine ⟨k, hk1, hk8, hkf, by omega, ?_⟩
    intro m hm1 hm2
    have h5 := hmid m hm1 hm2
    rw [show 8 * (s / 8 + m) + (s % 8 + m) = s + 9 * m from by omega] at h5
    exact h5
  · rintro ⟨k, hk1, hk8, hkf, hj, hmid⟩
    refine ⟨k, hk1, hk8, hkf, by omega, ?_⟩
    intro m hm1 hm2
    have h5 := hmid m hm1 hm2
    rw [show s + 9 * m = 8 * (s / 8 + m) + (s % 8 + m) from by omega] at h5
    exact h5

/-- Bits of `bb_ray … southEast`, in square form. -/
theorem ray_se_iff {occ s j : Nat} (hs : s < 64) :
    (bb_ray occ s Direction.southEast).testBit j = true ↔
    (∃ k, 1 ≤ k ∧ k ≤ s / 8 ∧ s % 8 + k < 8 ∧ j = s - 7 * k ∧
      ∀ m, 1 ≤ m → m < k → occ.testBit (s - 7 * m) = false) := by
  have h1 : BB_SQUARES s = 2 ^ (8 * (s / 8) + s % 8) := by
    simp only [BB_SQUARES]
    rw [Nat.one_shiftLeft, show 8 * (s / 8) + s % 8 = s from by omega]
  rw [show bb_ray occ s Direction.southEast = bb_rayAux 8 (s % 8) (s / 8)
    (BB_SQUARES s) occ Direction.southEast from rfl, h1,
    rayAux_se_iff 8 (s % 8) (s / 8) occ j (by omega) (by omega) (by omega)]
  constructor
  · rintro ⟨k, hk1, hk8, hkf, hj, hmid⟩
    refine ⟨k, hk1, hk8, hkf, by omega, ?_⟩
    intro m hm1 hm2
    have h5 := hmid m hm1 hm2
    rw [show 8 * (s / 8 - m) + (s % 8 + m) = s - 7 * m from by omega] at h5
    exact h5
  · rintro ⟨k, hk1, hk8, hkf, hj, hmid⟩
    refine ⟨k, hk1, hk8, hkf, by omega, ?_⟩
    intro m hm1 hm2
    have h5 := hmid m hm1 hm2
    rw [show s - 7 * m = 8 * (s / 8 - m) + (s % 8 + m) from by omega] at h5
    exact h5

/-- Bits of `bb_ray … southWest`, in square form. -/
theorem ray_sw_iff {occ s j : Nat} (hs : s < 64) :
    (bb_ray occ s Direction.southWest).testBit j = true ↔
    (∃ k, 1 ≤ k ∧ k ≤ s / 8 ∧ k ≤ s % 8 ∧ j = s - 9 * k ∧
      ∀ m, 1 ≤ m → m < k → occ.testBit (s - 9 * m) = false) := by
  have h1 : BB_SQUARES s = 2 ^ (8 * (s / 8) + s % 8) := by
    simp only [BB_SQUARES]
    rw [Nat.one_shiftLeft, show 8 * (s / 8) + s % 8 = s from by omega]
  rw [show bb_ray occ s Direction.southWest = bb_rayAux 8 (s % 8) (s / 8)
    (BB_SQUARES s) occ Direction.southWest from rfl, h1,
    rayAux_sw_iff 8 (s % 8) (s / 8) occ j (by omega) (by omega) (by omega)]
  constructor
  · rintro ⟨k, hk1, hk8, hkf, hj, hmid⟩
    refine ⟨k, hk1, hk8, hkf, by omega, ?_⟩
    intro m hm1 hm2
    have h5 := hmid m hm1 hm2
    rw [show 8 * (s / 8 - m) + (s % 8 - m) = s - 9 * m from by omega] at h5
    exact h5
  · rintro ⟨k, hk1, hk8, hkf, hj, hmid⟩
    refine ⟨k, hk1, hk8, hkf, by omega, ?_⟩
    intro m hm1 hm2
    have h5 := hmid m hm1 hm2
    rw [show s - 9 * m = 8 * (s / 8 - m) + (s % 8 - m) from by omega] at h5
    exact h5

set_option maxHeartbeats 1000000 in
theorem rook_mask_testBit_dec : ((List.range 64).all (fun s =>
    (List.range 64).all (fun j =>
      decide ((rook_mask s).testBit j = decide (j ≠ s ∧
        ((j % 8 = s % 8 ∧ 1 ≤ j / 8 ∧ j / 8 ≤ 6) ∨
         (j / 8 = s / 8 ∧ 1 ≤ j % 8 ∧ j % 8 ≤ 6))))))) = true := by decide

theorem rook_mask_testBit {s j : Nat} (hs : s < 64) (hj : j < 64) :
    (rook_mask s).testBit j = decide (j ≠ s ∧
      ((j % 8 = s % 8 ∧ 1 ≤ j / 8 ∧ j / 8 ≤ 6) ∨
       (j / 8 = s / 8 ∧ 1 ≤ j % 8 ∧ j % 8 ≤ 6))) := by
  have h1 := List.all_eq_true.mp rook_mask_testBit_dec s
    (List.mem_range.mpr hs)
  have h2 := List.all_eq_true.mp h1 j (List.mem_range.mpr hj)
  exact of_decide_eq_true h2

set_option maxHeartbeats 1000000 in
theorem bishop_mask_testBit_dec : ((List.range 64).all (fun s =>
    (List.range 64).all (fun j =>
      decide ((bishop_mask s).testBit j = decide (j ≠ s ∧
        (j % 8 + s / 8 = s % 8 + j / 8 ∨ j % 8 + j / 8 = s % 8 + s / 8) ∧
        1 ≤ j % 8 ∧ j % 8 ≤ 6 ∧ 1 ≤ j / 8 ∧ j / 8 ≤ 6))))) = true := by
  decide

theorem bishop_mask_testBit {s j : Nat} (hs : s < 64) (hj : j < 64) :
    (bishop_mask s).testBit j = decide (j ≠ s ∧
      (j % 8 + s / 8 = s % 8 + j / 8 ∨ j % 8 + j / 8 = s % 8 + s / 8) ∧
      1 ≤ j % 8 ∧ j % 8 ≤ 6 ∧ 1 ≤ j / 8 ∧ j / 8 ≤ 6) := by
  have h1 := List.all_eq_true.mp bishop_mask_testBit_dec s
    (List.mem_range.mpr hs)
  have h2 := List.all_eq_true.mp h1 j (List.mem_range.mpr hj)
  exact of_decide_eq_true h2

/-- Bits of `rook_attack_board`, as the four straight reaches. -/
theorem rook_attack_testBit {s occ j : Nat} (hs : s < 64) :
    (rook_attack_board s occ).testBit j = true ↔
    ((∃ k, 1 ≤ k ∧ s / 8 + k < 8 ∧ j = s + 8 * k ∧
        ∀ m, 1 ≤ m → m < k → occ.testBit (s + 8 * m) = false) ∨
     (∃ k, 1 ≤ k ∧ s % 8 + k < 8 ∧ j = s + k ∧
        ∀ m, 1 ≤ m → m < k → occ.testBit (s + m) = false) ∨
     (∃ k, 1 ≤ k ∧ k ≤ s / 8 ∧ j = s - 8 * k ∧
        ∀ m, 1 ≤ m → m < k → occ.testBit (s - 8 * m) = false) ∨
     (∃ k, 1 ≤ k ∧ k ≤ s % 8 ∧ j = s - k ∧
        ∀ m, 1 ≤ m → m < k → occ.testBit (s - m) = false)) := by
  simp only [rook_attack_board, Nat.testBit_or, Bool.or_eq_true]
  rw [ray_north_iff hs, ray_east_iff hs, ray_south_iff hs, ray_west_iff hs]
  constructor
  · rintro (((h | h) | h) | h)
    · exact Or.inl h
    · exact Or.inr (Or.inl h)
    · exact Or.inr (Or.inr (Or.inl h))
    · exact Or.inr (Or.inr (Or.inr h))
  · rintro (h | h | h | h)
    · exact Or.inl (Or.inl (Or.inl h))
    · exact Or.inl (Or.inl (Or.inr h))
    · exact Or.inl (Or.inr h)
    · exact Or.inr h

/-- Bits of `bishop_attack_board`, as the four diagonal reaches. -/
theorem bishop_attack_testBit {s occ j : Nat} (hs : s < 64) :
    (bishop_attack_board s occ).testBit j = true ↔
    ((∃ k, 1 ≤ k ∧ s / 8 + k < 8 ∧ k ≤ s % 8 ∧ j = s + 7 * k ∧
        ∀ m, 1 ≤ m → m < k → occ.testBit (s + 7 * m) = false) ∨
     (∃ k, 1 ≤ k ∧ s / 8 + k < 8 ∧ s % 8 + k < 8 ∧ j = s + 9 * k ∧
        ∀ m, 1 ≤ m → m < k → occ.testBit (s + 9 * m) = false) ∨
     (∃ k, 1 ≤ k ∧ k ≤ s / 8 ∧ k ≤ s % 8 ∧ j = s - 9 * k ∧
        ∀ m, 1 ≤ m → m < k → occ.testBit (s - 9 * m) = false) ∨
     (∃ k, 1 ≤ k ∧ k ≤ s / 8 ∧ s % 8 + k < 8 ∧ j = s - 7 * k ∧
        ∀ m, 1 ≤ m → m < k → occ.testBit (s - 7 * m) = false)) := by
  simp only [bishop_attack_board, Nat.testBit_or, Bool.or_eq_true]
  rw [ray_nw_iff hs, ray_ne_iff hs, ray_sw_iff hs, ray_se_iff hs]
  constructor
  · rintro (((h | h) | h) | h)
    · exact Or.inl h
    · exact Or.inr (Or.inl h)
    · exact Or.inr (Or.inr (Or.inl h))
    · exact Or.inr (Or.inr (Or.inr h))
  · rintro (h | h | h | h)
    · exact Or.inl (Or.inl (Or.inl h))
    · exact Or.inl (Or.inl (Or.inr h))
    · exact Or.inl (Or.inr h)
    · exact Or.inr h

/-- Masked-occupancy rook attacks from `s` hit `t` exactly when unmasked
rook attacks from `t` hit `s`: the edge squares the mask drops never matter,
and straight reaches are symmetric. -/
theorem rook_reach_symm {occ s t : Nat} (hs : s < 64) (ht : t < 64) :
    (rook_attack_board s (occ &&& rook_mask s)).testBit t =
      (rook_attack_board t occ).testBit s := by
  apply bool_eq_of_iff
  rw [rook_attack_testBit hs, rook_attack_testBit ht]
  constructor
  · rintro (⟨k, hk1, hc, hj, hmid⟩ | ⟨k, hk1, hc, hj, hmid⟩ |
      ⟨k, hk1, hc, hj, hmid⟩ | ⟨k, hk1, hc, hj, hmid⟩)
    · refine Or.inr (Or.inr (Or.inl ⟨k, hk1, by omega, by omega, ?_⟩))
      intro m hm1 hm2
      have h5 := hmid (k - m) (by omega) (by omega)
      rw [Nat.testBit_and] at h5
      have hmb : (rook_mask s).testBit (s + 8 * (k - m)) = true := by
        rw [rook_mask_testBit hs (by omega)]
        exact decide_eq_true (by omega)
      rw [hmb, Bool.and_true] at h5
      rw [show t - 8 * m = s + 8 * (k - m) from by omega]
      exact h5
    · refine Or.inr (Or.inr (Or.inr ⟨k, hk1, by omega, by omega, ?_⟩))
      intro m hm1 hm2
      have h5 := hmid (k - m) (by omega) (by omega)
      rw [Nat.testBit_and] at h5
      have hmb : (rook_mask s).testBit (s + (k - m)) = true := by
        rw [rook_mask_testBit hs (by omega)]
        exact decide_eq_true (by omega)
      rw [hmb, Bool.and_true] at h5
      rw [show t - m = s + (k - m) from by omega]
      exact h5
    · refine Or.inl ⟨k, hk1, by omega, by omega, ?_⟩
      intro m hm1 hm2
      have h5 := hmid (k - m) (by omega) (by omega)
      rw [Nat.testBit_and] at h5
      have hmb : (rook_mask s).testBit (s - 8 * (k - m)) = true := by
        rw [rook_mask_testBit hs (by omega)]
        exact decide_eq_true (by omega)
      rw [hmb, Bool.and_true] at h5
      rw [show t + 8 * m = s - 8 * (k - m) from by omega]
      exact h5
    · refine Or.inr (Or.inl ⟨k, hk1, by omega, by omega, ?_⟩)
      intro m hm1 hm2
      have h5 := hmid (k - m) (by omega) (by omega)
      rw [Nat.testBit_and] at h5
      have hmb : (rook_mask s).testBit (s - (k - m)) = true := by
        rw [rook_mask_testBit hs (by omega)]
        exact decide_eq_true (by omega)
      rw [hmb, Bool.and_true] at h5
      rw [show t + m = s - (k - m) from by omega]
      exact h5
  · rintro (⟨k, hk1, hc, hj, hmid⟩ | ⟨k, hk1, hc, hj, hmid⟩ |
      ⟨k, hk1, hc, hj, hmid⟩ | ⟨k, hk1, hc, hj, hmid⟩)
    · refine Or.inr (Or.inr (Or.inl ⟨k, hk1, by omega, by omega, ?_⟩))
      intro m hm1 hm2
      have h5 := hmid (k - m) (by omega) (by omega)
      rw [Nat.testBit_and, show s - 8 * m = t + 8 * (k - m) from by omega,
        h5, Bool.false_and]
    · refine Or.inr (Or.inr (Or.inr ⟨k, hk1, by omega, by omega, ?_⟩))
      intro m hm1 hm2
      have h5 := hmid (k - m) (by omega) (by omega)
      rw [Nat.testBit_and, show s - m = t + (k - m) from by omega,
        h5, Bool.false_and]
    · refine Or.inl ⟨k, hk1, by omega, by omega, ?_⟩
      intro m hm1 hm2
      have h5 := hmid (k - m) (by omega) (by omega)
      rw [Nat.testBit_and, show s + 8 * m = t - 8 * (k - m) from by omega,
        h5, Bool.false_and]
    · refine Or.inr (Or.inl ⟨k, hk1, by omega, by omega, ?_⟩)
      intro m hm1 hm2
      have h5 := hmid (k - m) (by omega) (by omega)
      rw [Nat.testBit_and, show s + m = t - (k - m) from by omega,
        h5, Bool.false_and]

/-- Masked-occupancy bishop attacks from `s` hit `t` exactly when unmasked
bishop attacks from `t` hit `s`. -/
theorem bishop_reach_symm {occ s t : Nat} (hs : s < 64) (ht : t < 64) :
    (bishop_attack_board s (occ &&& bishop_mask s)).testBit t =
      (bishop_attack_board t occ).testBit s := by
  apply bool_eq_of_iff
  rw [bishop_attack_testBit hs, bishop_attack_testBit ht]
  constructor
  · rintro (⟨k, hk1, hc1, hc2, hj, hmid⟩ | ⟨k, hk1, hc1, hc2, hj, hmid⟩ |
      ⟨k, hk1, hc1, hc2, hj, hmid⟩ | ⟨k, hk1, hc1, hc2, hj, hmid⟩)
    · refine Or.inr (Or.inr (Or.inr
        ⟨k, hk1, by omega, by omega, by omega, ?_⟩))
      intro m hm1 hm2
      have h5 := hmid (k - m) (by omega) (by omega)
      rw [Nat.testBit_and] at h5
      have hmb : (bishop_mask s).testBit (s + 7 * (k - m)) = true := by
        rw [bishop_mask_testBit hs (by omega)]
        have he1 : (s + 7 * (k - m)) % 8 = s % 8 - (k - m) := by omega
        have he2 : (s + 7 * (k - m)) / 8 = s / 8 + (k - m) := by omega
        exact decide_eq_true (by omega)
      rw [hmb, Bool.and_true] at h5
      rw [show t - 7 * m = s + 7 * (k - m) from by omega]
      exact h5
    · refine Or.inr (Or.inr (Or.inl
        ⟨k, hk1, by omega, by omega, by omega, ?_⟩))
      intro m hm1 hm2
      have h5 := hmid (k - m) (by omega) (by omega)
      rw [Nat.testBit_and] at h5
      have hmb : (bishop_mask s).testBit (s + 9 * (k - m)) = true := by
        rw [bishop_mask_testBit hs (by omega)]
        have he1 : (s + 9 * (k - m)) % 8 = s % 8 + (k - m) := by omega
        have he2 : (s + 9 * (k - m)) / 8 = s / 8 + (k - m) := by omega
        exact decide_eq_true (by omega)
      rw [hmb, Bool.and_true] at h5
      rw [show t - 9 * m = s + 9 * (k - m) from by omega]
      exact h5
    · refine Or.inr (Or.inl ⟨k, hk1, by omega, by omega, by omega, ?_⟩)
      intro m hm1 hm2
      have h5 := hmid (k - m) (by omega) (by omega)
      rw [Nat.testBit_and] at h5
      have hmb : (bishop_mask s).testBit (s - 9 * (k - m)) = true := by
        rw [bishop_mask_testBit hs (by omega)]
        have he1 : (s - 9 * (k - m)) % 8 = s % 8 - (k - m) := by omega
        have he2 : (s - 9 * (k - m)) / 8 = s / 8 - (k - m) := by omega
        exact decide_eq_true (by omega)
      rw [hmb, Bool.and_true] at h5
      rw [show t + 9 * m = s - 9 * (k - m) from by omega]
      exact h5
    · refine Or.inl ⟨k, hk1, by omega, by omega, by omega, ?_⟩
      intro m hm1 hm2
      have h5 := hmid (k - m) (by omega) (by omega)
      rw [Nat.testBit_and] at h5
      have hmb : (bishop_mask s).testBit (s - 7 * (k - m)) = true := by
        rw [bishop_mask_testBit hs (by omega)]
        have he1 : (s - 7 * (k - m)) % 8 = s % 8 + (k - m) := by omega
        have he2 : (s - 7 * (k - m)) / 8 = s / 8 - (k - m) := by omega
        exact decide_eq_true (by omega)
      rw [hmb, Bool.and_true] at h5
      rw [show t + 7 * m = s - 7 * (k - m) from by omega]
      exact h5
  · rintro (⟨k, hk1, hc1, hc2, hj, hmid⟩ | ⟨k, hk1, hc1, hc2, hj, hmid⟩ |
      ⟨k, hk1, hc1, hc2, hj, hmid⟩ | ⟨k, hk1, hc1, hc2, hj, hmid⟩)
    · refine Or.inr (Or.inr (Or.inr
        ⟨k, hk1, by omega, by omega, by omega, ?_⟩))
      intro m hm1 hm2
      have h5 := hmid (k - m) (by omega) (by omega)
      rw [Nat.testBit_and, show s - 7 * m = t + 7 * (k - m) from by omega,
        h5, Bool.false_and]
    · refine Or.inr (Or.inr (Or.inl
        ⟨k, hk1, by omega, by omega, by omega, ?_⟩))
      intro m hm1 hm2
      have h5 := hmid (k - m) (by omega) (by omega)
      rw [Nat.testBit_and, show s - 9 * m = t + 9 * (k - m) from by omega,
        h5, Bool.false_and]
    · refine Or.inr (Or.inl ⟨k, hk1, by omega, by omega, by omega, ?_⟩)
      intro m hm1 hm2
      have h5 := hmid (k - m) (by omega) (by omega)
      rw [Nat.testBit_and, show s + 9 * m = t - 9 * (k - m) from by omega,
        h5, Bool.false_and]
    · refine Or.inl ⟨k, hk1, by omega, by omega, by omega, ?_⟩
      intro m hm1 hm2
      have h5 := hmid (k - m) (by omega) (by omega)
      rw [Nat.testBit_and, show s + 7 * m = t - 7 * (k - m) from by omega,
        h5, Bool.false_and]

set_option maxHeartbeats 1000000 in
theorem kingTable_symm_dec : ((List.range 64).all (fun s =>
    (List.range 64).all (fun t =>
      decide ((kingTable s).testBit t = (kingTable t).testBit s)))) =
      true := by decide

theorem kingTable_symm {s t : Nat} (hs : s < 64) (ht : t < 64) :
    (kingTable s).testBit t = (kingTable t).testBit s := by
  have h1 := List.all_eq_true.mp kingTable_symm_dec s (List.mem_range.mpr hs)
  have h2 := List.all_eq_true.mp h1 t (List.mem_range.mpr ht)
  exact of_decide_eq_true h2

set_option maxHeartbeats 1000000 in
theorem knightTable_symm_dec : ((List.range 64).all (fun s =>
    (List.range 64).all (fun t =>
      decide ((knightTable s).testBit t = (knightTable t).testBit s)))) =
      true := by decide

theorem knightTable_symm {s t : Nat} (hs : s < 64) (ht : t < 64) :
    (knightTable s).testBit t = (knightTable t).testBit s := by
  have h1 := List.all_eq_true.mp knightTable_symm_dec s
    (List.mem_range.mpr hs)
  have h2 := List.all_eq_true.mp h1 t (List.mem_range.mpr ht)
  exact of_decide_eq_true h2

set_option maxHeartbeats 1000000 in
theorem pawnTable_symm_dec : ((List.range 2).all (fun a =>
    (List.range 64).all (fun s => (List.range 64).all (fun t =>
      decide ((pawnTable (a ^^^ 1) t).testBit s =
        (pawnTable a s).testBit t))))) = true := by decide

theorem pawnTable_symm {a s t : Nat} (ha : a < 2) (hs : s < 64)
    (ht : t < 64) :
    (pawnTable (a ^^^ 1) t).testBit s = (pawnTable a s).testBit t := by
  have h0 := List.all_eq_true.mp pawnTable_symm_dec a (List.mem_range.mpr ha)
  have h1 := List.all_eq_true.mp h0 s (List.mem_range.mpr hs)
  have h2 := List.all_eq_true.mp h1 t (List.mem_range.mpr ht)
  exact of_decide_eq_true h2

/-- A masked conjunction is positive exactly when the two words share a set
bit (below 64, given the second word is a `u64`). -/
theorem and_pos_iff {a b : Nat} (hb : b < 2 ^ 64) :
    a &&& b > 0 ↔
    ∃ i, i < 64 ∧ a.testBit i = true ∧ b.testBit i = true := by
  constructor
  · intro h
    by_contra hno
    push_neg at hno
    have hz : a &&& b = 0 := by
      apply Nat.eq_of_testBit_eq
      intro i
      rw [Nat.testBit_and, Nat.zero_testBit]
      rcases Nat.lt_or_ge i 64 with hi | hi
      · cases ha : a.testBit i with
        | false => rw [Bool.false_and]
        | true =>
          have hbf := hno i hi ha
          cases hb2 : b.testBit i with
          | false => rw [Bool.and_false]
          | true => exact absurd hb2 hbf
      · have hbf : b.testBit i = false :=
          Nat.testBit_lt_two_pow
            (lt_of_lt_of_le hb (Nat.pow_le_pow_right (by omega) hi))
        rw [hbf, Bool.and_false]
    omega
  · rintro ⟨i, hi, ha, hb2⟩
    rcases Nat.eq_zero_or_pos (a &&& b) with h0 | hp
    · have hq := congrArg (fun x => Nat.testBit x i) h0
      simp only [Nat.testBit_and, Nat.zero_testBit] at hq
      rw [ha, hb2] at hq
      exact absurd hq (by decide)
    · exact hp

/-- Reference definition (spec side): the real attack set of one piece of
`side` standing on `s` under the full occupancy `occ` — kings and knights by
their move tables, sliders by direct ray casting against `occ`, pawns by
their capture table. -/
def realAttacks (side piece s occ : Nat) : Nat :=
  match piece with
  | 0 => kingTable s
  | 1 => rook_attack_board s occ ||| bishop_attack_board s occ
  | 2 => rook_attack_board s occ
  | 3 => bishop_attack_board s occ
  | 4 => knightTable s
  | 5 => pawnTable side s
  | _ + 6 => 0

/-- Reference definition (spec side): brute-force scan of all six piece
kinds and all 64 squares for an attacker piece whose real attack set
contains the target square. -/
def bruteForceAttacked (board : Board) (attacker square : Nat) : Bool :=
  (List.range 6).any (fun piece => (List.range 64).any (fun s =>
    (board.bb_pieces attacker piece).testBit s &&
    (realAttacks attacker piece s
      (board.bb_side Sides.WHITE ||| board.bb_side Sides.BLACK)).testBit
      square))

theorem brute_iff {board : Board} {attacker square : Nat} :
    bruteForceAttacked board attacker square = true ↔
    ∃ piece, piece < 6 ∧ ∃ s, s < 64 ∧
      (board.bb_pieces attacker piece).testBit s = true ∧
      (realAttacks attacker piece s
        (board.bb_side Sides.WHITE ||| board.bb_side Sides.BLACK)).testBit
        square = true := by
  simp only [bruteForceAttacked, List.any_eq_true, List.mem_range,
    Bool.and_eq_true]

/-- C7: for every well-formed board, attacker side and square,
`square_attacked` agrees with the brute-force scan of every attacker
piece's real attack set (tables for king/knight/pawn, direct ray casting
under the full occupancy for the sliders) containing the target square. -/
theorem c7_square_attacked_matches_brute_force {board : Board}
    {mg : MoveGen} {attacker square : Nat}
    (hwf : board.wf) (hnew : MoveGenerator.new = some mg)
    (hatt : attacker < 2) (hsq : square < 64) :
    square_attacked mg board attacker square =
      some (bruteForceAttacked board attacker square) := by
  obtain ⟨hbb, hbs2, hact, hep⟩ := hwf
  obtain ⟨mg2, hmg2, hrk, hbs, -⟩ := MoveGenerator_new_spec
  rw [hnew] at hmg2
  obtain rfl := Option.some.inj hmg2
  rw [square_attacked_eval hrk hbs board attacker square hsq]
  refine congrArg some ?_
  apply bool_eq_of_iff
  rw [brute_iff]
  constructor
  · intro h
    simp only [Bool.or_eq_true, decide_eq_true_eq] at h
    rcases h with ((((hk | hr) | hb2) | hq) | hn) | hp
    · obtain ⟨i, hi, h1, h2⟩ := (and_pos_iff (hbb attacker Pieces.KING)).mp hk
      refine ⟨0, by omega, i, hi, h2, ?_⟩
      show (kingTable i).testBit square = true
      rw [kingTable_symm hi hsq]
      exact h1
    · obtain ⟨i, hi, h1, h2⟩ := (and_pos_iff (hbb attacker Pieces.ROOK)).mp hr
      refine ⟨2, by omega, i, hi, h2, ?_⟩
      show (rook_attack_board i
        (board.bb_side Sides.WHITE ||| board.bb_side Sides.BLACK)).testBit
        square = true
      rw [← rook_reach_symm hsq hi]
      exact h1
    · obtain ⟨i, hi, h1, h2⟩ :=
        (and_pos_iff (hbb attacker Pieces.BISHOP)).mp hb2
      refine ⟨3, by omega, i, hi, h2, ?_⟩
      show (bishop_attack_board i
        (board.bb_side Sides.WHITE ||| board.bb_side Sides.BLACK)).testBit
        square = true
      rw [← bishop_reach_symm hsq hi]
      exact h1
    · obtain ⟨i, hi, h1, h2⟩ :=
        (and_pos_iff (hbb attacker Pieces.QUEEN)).mp hq
      refine ⟨1, by omega, i, hi, h2, ?_⟩
      show (rook_attack_board i
          (board.bb_side Sides.WHITE ||| board.bb_side Sides.BLACK) |||
        bishop_attack_board i
          (board.bb_side Sides.WHITE ||| board.bb_side Sides.BLACK)).testBit
        square = true
      rw [Nat.testBit_or, ← rook_reach_symm hsq hi,
        ← bishop_reach_symm hsq hi, ← Nat.testBit_or]
      exact h1
    · obtain ⟨i, hi, h1, h2⟩ :=
        (and_pos_iff (hbb attacker Pieces.KNIGHT)).mp hn
      refine ⟨4, by omega, i, hi, h2, ?_⟩
      show (knightTable i).testBit square = true
      rw [knightTable_symm hi hsq]
      exact h1
    · obtain ⟨i, hi, h1, h2⟩ := (and_pos_iff (hbb attacker Pieces.PAWN)).mp hp
      refine ⟨5, by omega, i, hi, h2, ?_⟩
      show (pawnTable attacker i).testBit square = true
      rw [← pawnTable_symm hatt hi hsq]
      exact h1
  · rintro ⟨p, hp6, i, hi, h1, h2⟩
    simp only [Bool.or_eq_true, decide_eq_true_eq]
    rcases p with _ | _ | _ | _ | _ | _ | n
    · refine Or.inl (Or.inl (Or.inl (Or.inl (Or.inl ?_))))
      apply (and_pos_iff (hbb attacker Pieces.KING)).mpr
      refine ⟨i, hi, ?_, h1⟩
      rw [← kingTable_symm hi hsq]
      exact h2
    · refine Or.inl (Or.inl (Or.inr ?_))
      apply (and_pos_iff (hbb attacker Pieces.QUEEN)).mpr
      refine ⟨i, hi, ?_, h1⟩
      rw [Nat.testBit_or, rook_reach_symm hsq hi, bishop_reach_symm hsq hi,
        ← Nat.testBit_or]
      exact h2
    · refine Or.inl (Or.inl (Or.inl (Or.inl (Or.inr ?_))))
      apply (and_pos_iff (hbb attacker Pieces.ROOK)).mpr
      refine ⟨i, hi, ?_, h1⟩
      rw [rook_reach_symm hsq hi]
      exact h2
    · refine Or.inl (Or.inl (Or.inl (Or.inr ?_)))
      apply (and_pos_iff (hbb attacker Pieces.BISHOP)).mpr
      refine ⟨i, hi, ?_, h1⟩
      rw [bishop_reach_symm hsq hi]
      exact h2
    · refine Or.inl (Or.inr ?_)
      apply (and_pos_iff (hbb attacker Pieces.KNIGHT)).mpr
      refine ⟨i, hi, ?_, h1⟩
      rw [← knightTable_symm hi hsq]
      exact h2
    · refine Or.inr ?_
      apply (and_pos_iff (hbb attacker Pieces.PAWN)).mpr
      refine ⟨i, hi, ?_, h1⟩
      rw [pawnTable_symm hatt hi hsq]
      exact h2
    · exact absurd hp6 (by omega)

/-- Witness for C7 on `c3Board` (white pawn on d7), attacker White, target
square c8: the pawn really attacks c8 and `square_attacked` reports it. -/
theorem c7_witness :
    ∃ mg, MoveGenerator.new = some mg ∧
      square_attacked mg c3Board 0 58 =
        some (bruteForceAttacked c3Board 0 58) ∧
      bruteForceAttacked c3Board 0 58 = true := by
  obtain ⟨mg, hmg, -, -, -⟩ := MoveGenerator_new_spec
  refine ⟨mg, hmg, ?_, by decide⟩
  exact c7_square_attacked_matches_brute_force c3Board_wf hmg (by decide)
    (by decide)

end Lark
